import Mathlib

/-!
# Registry: spec revisions, storage upserts and listing

A shallow embedding of `server/actions_specs.go` (the spec actions of the
registry server) and `server/registry/internal/storage/save.go` (the upsert
used by every `Save…` method).

* Go pointers that are mutated in place (`spec.Currency = …`, `v.Key = …`) become
  values that are rebuilt and passed on.
* Errors are gRPC status codes; the message text of an error is not modelled.
* The storage client is a record of tables.  Rows of a table are kept in a list,
  in insertion order, which is also the order in which a query without an ordering
  scans them; a query ordered by `-CreateTime` scans them in descending creation time.
* A call that can panic (an index out of range) returns a `Fault`.
* The environment can make storage misbehave: `storageUp` (whether a client can
  be obtained), `writeOutcomes` (the outcome of the successive write statements)
  and `scanFault` (a row scan that stops with an error).
* Collaborators whose source is not part of the sources at hand (name parsing,
  `models.NewSpec`, `models.Spec.Update`, message construction, the filter
  compiler, the cursor codec, the page-size constants, the kind of spec rows), and
  `sort.Slice` of the Go library, are the fields of `Deps`; the actions are
  parameterised by a `Deps`.
-/

namespace Registry

/-! ## Status codes and error helpers -/

/-- The gRPC status codes the spec actions return. -/
inductive Code where
  | InvalidArgument
  | NotFound
  | AlreadyExists
  | Unavailable
  | Internal
deriving DecidableEq, Repr

/-- Modelled from the spec: `internalError(err)` (server error helpers, not among the
sources) reports any error under the `Internal` kind, as `Client.save` does inline with
`status.Error(codes.Internal, err.Error())`. -/
def internalError {ε : Type} (_err : ε) : Code := Code.Internal

/-- Modelled from the spec: `invalidArgumentError(err)` reports any error under the
`InvalidArgument` kind. -/
def invalidArgumentError {ε : Type} (_err : ε) : Code := Code.InvalidArgument

/-- Modelled from the spec: `notFoundError(err)` reports any error under the `NotFound`
kind. -/
def notFoundError {ε : Type} (_err : ε) : Code := Code.NotFound

/-- Modelled from the spec: `alreadyExistsError(err)`. -/
def alreadyExistsError {ε : Type} (_err : ε) : Code := Code.AlreadyExists

/-- Modelled from the spec: `unavailableError(err)`. -/
def unavailableError {ε : Type} (_err : ε) : Code := Code.Unavailable

/-- Modelled from the spec: `isNotFound(err)` holds for errors of the `NotFound` kind. -/
def isNotFound (err : Code) : Bool := decide (err = Code.NotFound)

/-- The errors a row iterator stops with: `iterator.Done` at the end of the rows, or a
failure of the scan. -/
inductive IterErr where
  | Done
  | Failed
deriving DecidableEq, Repr

/-! ## Resource names (`names` package) -/

/-- The `names.Version` record. -/
structure names.Version where
  ProjectID : String
  ApiID : String
  VersionID : String
deriving DecidableEq, Repr

/-- The `names.Spec` record. -/
structure names.Spec where
  ProjectID : String
  ApiID : String
  VersionID : String
  SpecID : String
deriving DecidableEq, Repr

/-- The `names.SpecRevision` record. -/
structure names.SpecRevision where
  ProjectID : String
  ApiID : String
  VersionID : String
  SpecID : String
  RevisionID : String
deriving DecidableEq, Repr

/-- Modelled from the spec: the hierarchical name of a project. -/
def names.projectString (p : String) : String := "projects/" ++ p

/-- Modelled from the spec: the hierarchical name of an api. -/
def names.apiString (p a : String) : String := names.projectString p ++ "/apis/" ++ a

/-- Modelled from the spec: `names.Version.String()`. -/
def names.Version.string (v : names.Version) : String :=
  names.apiString v.ProjectID v.ApiID ++ "/versions/" ++ v.VersionID

/-- Modelled from the spec: `names.Spec.String()`, the logical name of a spec. -/
def names.Spec.string (n : names.Spec) : String :=
  names.apiString n.ProjectID n.ApiID ++ "/versions/" ++ n.VersionID ++ "/specs/" ++ n.SpecID

/-- Modelled from the spec: `names.Spec.Version()`, the parent of a spec. -/
def names.Spec.Version (n : names.Spec) : names.Version :=
  ⟨n.ProjectID, n.ApiID, n.VersionID⟩

/-- Modelled from the spec: `names.Spec.Revision(id)`. -/
def names.Spec.Revision (n : names.Spec) (id : String) : names.SpecRevision :=
  ⟨n.ProjectID, n.ApiID, n.VersionID, n.SpecID, id⟩

/-- Modelled from the spec: `names.SpecRevision.String()`, the revision name
`.../specs/{id}@{revisionId}`. -/
def names.SpecRevision.string (n : names.SpecRevision) : String :=
  names.apiString n.ProjectID n.ApiID ++ "/versions/" ++ n.VersionID ++ "/specs/" ++ n.SpecID
    ++ "@" ++ n.RevisionID

/-! ## Stored rows (`models` package) -/

/-- The currency flag of a revision: `models.IsCurrent` or `models.NotCurrent`. -/
inductive models.Currency where
  | IsCurrent
  | NotCurrent
deriving DecidableEq, Repr

/-- The `models.Spec` row: one revision of a spec. Times are in ticks. -/
structure models.Spec where
  Key : String
  ProjectID : String
  ApiID : String
  VersionID : String
  SpecID : String
  RevisionID : String
  Currency : models.Currency
  Description : String
  FileName : String
  MimeType : String
  SizeInBytes : Nat
  Hash : String
  SourceURI : String
  CreateTime : Nat
  RevisionCreateTime : Nat
  RevisionUpdateTime : Nat
  Labels : List Nat
deriving DecidableEq, Repr

/-- Modelled from the spec: `models.Spec.Name()`, the logical name of the row. -/
def models.Spec.Name (s : models.Spec) : String :=
  names.Spec.string ⟨s.ProjectID, s.ApiID, s.VersionID, s.SpecID⟩

/-- Modelled from the spec: `models.Spec.RevisionName()`, the revision name
`.../specs/{id}@{revisionId}` of the row. -/
def models.Spec.RevisionName (s : models.Spec) : String :=
  names.SpecRevision.string ⟨s.ProjectID, s.ApiID, s.VersionID, s.SpecID, s.RevisionID⟩

/-- The `models.Blob` row: the contents of one revision. -/
structure models.Blob where
  Key : String
  ProjectID : String
  ApiID : String
  VersionID : String
  SpecID : String
  RevisionID : String
  Contents : List Nat
deriving DecidableEq, Repr

/-- Modelled from the spec: `models.NewBlobForSpec(spec, contents)`, the blob of a
revision (its key is set by the caller). -/
def models.NewBlobForSpec (spec : models.Spec) (contents : List Nat) : models.Blob :=
  ⟨"", spec.ProjectID, spec.ApiID, spec.VersionID, spec.SpecID, spec.RevisionID, contents⟩

/-- A child row of a spec (an artifact or a revision tag), identified by its key and
the spec it belongs to. -/
structure models.Child where
  Key : String
  ProjectID : String
  ApiID : String
  VersionID : String
  SpecID : String
deriving DecidableEq, Repr

/-! ## Messages and requests (`rpc` package) -/

/-- The `rpc.ApiSpec` message. -/
structure rpc.ApiSpec where
  Name : String
  Filename : String
  Description : String
  RevisionId : String
  MimeType : String
  SourceUri : String
  Contents : List Nat
deriving DecidableEq, Repr

/-- The `rpc.View` selector. -/
inductive rpc.View where
  | BASIC
  | FULL
deriving DecidableEq, Repr

/-- The kinds of change notification. -/
inductive rpc.NotificationKind where
  | CREATED
  | UPDATED
  | DELETED
deriving DecidableEq, Repr

/-- A notification sent by `s.notify(kind, name)`. -/
structure rpc.Notification where
  Change : rpc.NotificationKind
  Resource : String
deriving DecidableEq, Repr

/-- The `rpc.UpdateApiSpecRequest` message; `UpdateMask` holds the paths of the field
mask, `none` when no mask is given. -/
structure rpc.UpdateApiSpecRequest where
  ApiSpec : Option rpc.ApiSpec
  UpdateMask : Option (List String)
  AllowMissing : Bool
deriving DecidableEq, Repr

/-- The `rpc.GetApiSpecRequest` message. -/
structure rpc.GetApiSpecRequest where
  Name : String
  View : rpc.View
deriving DecidableEq, Repr

/-- The `rpc.DeleteApiSpecRequest` message. -/
structure rpc.DeleteApiSpecRequest where
  Name : String
deriving DecidableEq, Repr

/-- The `rpc.ListApiSpecsRequest` message. -/
structure rpc.ListApiSpecsRequest where
  Parent : String
  PageSize : Int
  PageToken : String
  Filter : String
  View : rpc.View
deriving DecidableEq, Repr

/-- The `rpc.ListApiSpecsResponse` message. -/
structure rpc.ListApiSpecsResponse where
  ApiSpecs : List rpc.ApiSpec
  NextPageToken : String
deriving DecidableEq, Repr

/-- Contents of a possibly absent message: `body.GetContents()`. -/
def rpc.GetContents (body : Option rpc.ApiSpec) : List Nat :=
  match body with
  | none => []
  | some b => b.Contents

/-- Name of a possibly absent message: `body.GetName()`. -/
def rpc.GetName (body : Option rpc.ApiSpec) : String :=
  match body with
  | none => ""
  | some b => b.Name

/-! ## Filter programs -/

/-- The inputs a compiled filter is evaluated on: the `filterInputs` map of
`ListApiSpecs`, one entry per declared field. -/
structure FilterInputs where
  name : String
  project_id : String
  api_id : String
  version_id : String
  spec_id : String
  filename : String
  description : String
  create_time : Nat
  revision_create_time : Nat
  revision_update_time : Nat
  mime_type : String
  size_bytes : Nat
  source_uri : String
  labels : List (String × String)

/-- The value a filter evaluates to: a boolean, or a value of another type. -/
inductive CelValue where
  | bool (b : Bool)
  | other
deriving DecidableEq, Repr

/-- A compiled filter: `prg.Eval(filterInputs)` returns a value or fails. -/
abbrev Program : Type := FilterInputs → Except Unit CelValue

/-! ## Collaborators outside the sources at hand -/

/-- The functions the spec actions call whose source is not among the sources at hand.
`none` stands for a returned error. -/
structure Deps where
  /-- The parser `names.ParseSpec`. -/
  ParseSpec : String → Option names.Spec
  /-- The parser `names.ParseSpecRevision`. -/
  ParseSpecRevision : String → Option names.SpecRevision
  /-- The parser `names.ParseVersion`. -/
  ParseVersion : String → Option names.Version
  /-- The check `name.Validate()`: `true` when it returns no error. -/
  Validate : names.Spec → Bool
  /-- The constructor `models.NewSpec(name, body)`. -/
  NewSpec : names.Spec → Option rpc.ApiSpec → Option models.Spec
  /-- The method `spec.Update(message, mask)`. -/
  Update : models.Spec → Option rpc.ApiSpec → Option (List String) → Option models.Spec
  /-- The method `spec.BasicMessage(name)`. -/
  BasicMessage : models.Spec → String → Option rpc.ApiSpec
  /-- The method `spec.FullMessage(blob, name)`. -/
  FullMessage : models.Spec → models.Blob → String → Option rpc.ApiSpec
  /-- The method `spec.LabelsMap()`. -/
  LabelsMap : models.Spec → Option (List (String × String))
  /-- The compiler `createFilterOperator(filter, args)` for the schema of specs: an error,
  no program (`nil`), or a program. -/
  createFilterOperator : String → Except Code (Option Program)
  /-- The page token that encodes an offset. -/
  encodeCursor : Nat → String
  /-- The offset a page token decodes to. -/
  decodeCursor : String → Option Nat
  /-- The page size used when the request gives none. -/
  defaultPageSize : Nat
  /-- The largest page size. -/
  maxPageSize : Nat
  /-- The constant `storage.SpecEntityName`, the kind of the rows of specs. -/
  SpecEntityName : String
  /-- The function `sort.Slice(specs, less)` of the Go library on a slice of specs: the
  slice sorted by `less`; the order of elements that `less` does not tell apart is not
  specified. -/
  sortSlice : (models.Spec → models.Spec → Bool) → List models.Spec → List models.Spec

/-! ## Storage client -/

/-- The state behind a `storage.Client`: the tables, and what the environment will do to
the next operations.

* `Specs`, `Blobs`, `Children`: the rows of kind Spec, Blob, and the child rows of specs.
* `Versions`, `Apis`, `Projects`: the keys of the rows of these kinds.
* `writeOutcomes`: the outcomes of the successive write statements, first one next;
  `none` (or an exhausted list) lets the statement succeed, `some k` makes it fail after
  it has affected `k` rows; a statement that fails is rolled back.
* `scanFault`: `some k` makes every row scan stop with an error after `k` rows. -/
structure storage.Client where
  Specs : List models.Spec
  Blobs : List models.Blob
  Children : List models.Child
  Versions : List String
  Apis : List String
  Projects : List String
  writeOutcomes : List (Option Nat)
  scanFault : Option Nat
deriving DecidableEq, Repr

/-- The outcome of the next write statement, and the client after it is consumed. -/
def storage.Client.takeOutcome (c : storage.Client) : Option Nat × storage.Client :=
  match c.writeOutcomes with
  | [] => (none, c)
  | o :: rest => (o, { c with writeOutcomes := rest })

/-- The body of the transaction in `Client.save`: `Updates(v)` on the rows with the key of
`v`, then `Create(v)` when `RowsAffected == 0`. -/
def storage.upsert {α : Type} (key : α → String) (v : α) (table : List α) : List α :=
  let rowsAffected := (table.filter (fun r => decide (key r = key v))).length
  if rowsAffected = 0 then table ++ [v]
  else table.map (fun r => if key r = key v then v else r)

/-- A value handed to `Client.save`. -/
inductive storage.Row where
  | spec (v : models.Spec)
  | blob (v : models.Blob)
deriving DecidableEq, Repr

/-- The method `Client.save(v)`: one transaction around the upsert; when a statement fails
the transaction is rolled back and the error is reported as `Internal`. -/
def storage.Client.save (c : storage.Client) (v : storage.Row) : Except Code Unit × storage.Client :=
  match c.takeOutcome with
  | (some _, c1) => (Except.error Code.Internal, c1)
  | (none, c1) =>
    match v with
    | storage.Row.spec r => (Except.ok (), { c1 with Specs := storage.upsert models.Spec.Key r c1.Specs })
    | storage.Row.blob b => (Except.ok (), { c1 with Blobs := storage.upsert models.Blob.Key b c1.Blobs })

/-- The method `Client.SaveSpecRevision(v)`: sets `v.Key = v.RevisionName()` and saves.
Returns the row with its key set. -/
def storage.Client.SaveSpecRevision (c : storage.Client) (v : models.Spec) :
    Except Code models.Spec × storage.Client :=
  let v := { v with Key := v.RevisionName }
  match c.save (storage.Row.spec v) with
  | (Except.error err, c1) => (Except.error err, c1)
  | (Except.ok _, c1) => (Except.ok v, c1)

/-- The method `Client.SaveSpecRevisionContents(spec, contents)`: saves the blob under the
key `spec.RevisionName()`. -/
def storage.Client.SaveSpecRevisionContents (c : storage.Client) (spec : models.Spec)
    (contents : List Nat) : Except Code Unit × storage.Client :=
  let v := models.NewBlobForSpec spec contents
  let v := { v with Key := spec.RevisionName }
  c.save (storage.Row.blob v)

/-- A condition `q.Require(field, value)` on the rows of kind Spec. -/
inductive storage.Requirement where
  | ProjectID (v : String)
  | ApiID (v : String)
  | VersionID (v : String)
  | SpecID (v : String)
  | Currency (v : models.Currency)
deriving DecidableEq, Repr

/-- Whether a row meets a requirement. -/
def storage.Requirement.holds (r : storage.Requirement) (row : models.Spec) : Bool :=
  match r with
  | storage.Requirement.ProjectID v => decide (row.ProjectID = v)
  | storage.Requirement.ApiID v => decide (row.ApiID = v)
  | storage.Requirement.VersionID v => decide (row.VersionID = v)
  | storage.Requirement.SpecID v => decide (row.SpecID = v)
  | storage.Requirement.Currency v => decide (row.Currency = v)

/-- Modelled from the spec: a query over the rows of kind Spec
(`client.NewQuery(storage.SpecEntityName)`): the requirements added so far, the offset
set by the cursor, and the ordering asked for, if any. -/
structure storage.Query where
  Requirements : List storage.Requirement
  Offset : Nat
  Ordering : Option String
deriving DecidableEq, Repr

/-- Modelled from the spec: `client.NewQuery(storage.SpecEntityName)`. -/
def storage.NewQuery : storage.Query := ⟨[], 0, none⟩

/-- Modelled from the spec: `q.Order(field)`. -/
def storage.Query.Order (q : storage.Query) (field : String) : storage.Query :=
  { q with Ordering := some field }

/-- Whether revision `a` may stand before revision `b` in descending order of creation
time. -/
def models.Spec.notOlder (a b : models.Spec) : Bool := decide (b.CreateTime ≤ a.CreateTime)

/-- Modelled from the spec: the rows of a query in the order the store returns them:
descending creation time for the ordering `-CreateTime` (rows with equal times in store
order), store order without an ordering. -/
def storage.ordered (ordering : Option String) (rows : List models.Spec) : List models.Spec :=
  if ordering = some "-CreateTime" then
    rows.insertionSort (fun a b => a.notOlder b = true)
  else rows

/-- Modelled from the spec: `q.Require(field, value)`. -/
def storage.Query.Require (q : storage.Query) (r : storage.Requirement) : storage.Query :=
  { q with Requirements := q.Requirements ++ [r] }

/-- Whether a row meets every requirement of the query. -/
def storage.Query.selects (q : storage.Query) (row : models.Spec) : Bool :=
  q.Requirements.all (fun r => r.holds row)

/-- Modelled from the spec: `q.ApplyCursor(token)`: an empty token starts the scan at the
first row, another token must decode to an offset. -/
def storage.Query.ApplyCursor (D : Deps) (q : storage.Query) (token : String) : Option storage.Query :=
  if token = "" then some q
  else
    match D.decodeCursor token with
    | none => none
    | some offset => some { q with Offset := offset }

/-- A row iterator: the rows it will still yield, the error it stops with after them, the
offset of its first row and the number of rows it has yielded. -/
structure storage.Iterator where
  rows : List models.Spec
  stop : IterErr
  start : Nat
  yielded : Nat
deriving DecidableEq, Repr

/-- Modelled from the spec: `client.Run(ctx, q)`: the rows that meet the requirements, in
the order of the query, from the offset of the query on. -/
def storage.Client.Run (c : storage.Client) (q : storage.Query) : storage.Iterator :=
  let rows := (storage.ordered q.Ordering (c.Specs.filter q.selects)).drop q.Offset
  match c.scanFault with
  | none => ⟨rows, IterErr.Done, q.Offset, 0⟩
  | some k => ⟨rows.take k, IterErr.Failed, q.Offset, 0⟩

/-- Modelled from the spec: `it.Next(&spec)`: the next row, or the error the iterator
stops with. -/
def storage.Iterator.Next (it : storage.Iterator) : Except IterErr (models.Spec × storage.Iterator) :=
  match it.rows with
  | [] => Except.error it.stop
  | r :: rest => Except.ok (r, { it with rows := rest, yielded := it.yielded + 1 })

/-- Modelled from the spec: `it.GetCursor(countReturned)`: the empty string when fewer rows
were returned than the bound page size, otherwise the token of the new offset. The bound
page size is passed along with the count. -/
def storage.Iterator.GetCursor (D : Deps) (it : storage.Iterator) (pageSize count : Nat) : String :=
  if count < pageSize then "" else D.encodeCursor (it.start + it.yielded)

/-- Modelled from the spec: a delete statement over the rows that meet `p`, which is its own
transaction: it removes them all, or, when the statement fails, it is rolled back and the
table is as it was. -/
def storage.deleteMatching {α : Type} (p : α → Bool) (table : List α) (outcome : Option Nat) :
    Except Code Unit × List α :=
  match outcome with
  | none => (Except.ok (), table.filter (fun r => !p r))
  | some _ => (Except.error Code.Internal, table)

/-- Modelled from the spec: `client.Delete(ctx, client.NewKey(storage.SpecEntityName, key))`:
one statement that removes the row of kind Spec with this key; no error when there is
none. -/
def storage.Client.Delete (c : storage.Client) (key : String) : Except Code Unit × storage.Client :=
  match c.takeOutcome with
  | (some _, c1) => (Except.error Code.Internal, c1)
  | (none, c1) => (Except.ok (), { c1 with Specs := c1.Specs.filter (fun r => !decide (r.Key = key)) })

/-- Modelled from the spec: `client.DeleteAllMatches(ctx, q)` on the rows of kind Spec. -/
def storage.Client.DeleteAllMatches (c : storage.Client) (q : storage.Query) :
    Except Code Unit × storage.Client :=
  match c.takeOutcome with
  | (outcome, c1) =>
    match storage.deleteMatching q.selects c1.Specs outcome with
    | (res, specs) => (res, { c1 with Specs := specs })

/-- Modelled from the spec: `client.DeleteChildrenOfSpec(ctx, name)`: removes the blobs of
the revisions of the spec, then its child rows, one statement each. -/
def storage.Client.DeleteChildrenOfSpec (c : storage.Client) (name : names.Spec) :
    Except Code Unit × storage.Client :=
  match c.takeOutcome with
  | (outcome, c1) =>
    match storage.deleteMatching
        (fun b : models.Blob => decide (b.ProjectID = name.ProjectID ∧ b.ApiID = name.ApiID ∧
          b.VersionID = name.VersionID ∧ b.SpecID = name.SpecID)) c1.Blobs outcome with
    | (Except.error err, blobs) => (Except.error err, { c1 with Blobs := blobs })
    | (Except.ok _, blobs) =>
      let c2 := { c1 with Blobs := blobs }
      match c2.takeOutcome with
      | (outcome2, c3) =>
        match storage.deleteMatching
            (fun a : models.Child => decide (a.ProjectID = name.ProjectID ∧ a.ApiID = name.ApiID ∧
              a.VersionID = name.VersionID ∧ a.SpecID = name.SpecID)) c3.Children outcome2 with
        | (res, children) => (res, { c3 with Children := children })

/-! ## The registry server -/

/-- The state of a `RegistryServer`: its mode for the most-recent-revision lookup, whether
a storage client can be obtained, the storage behind the client, and the notifications
sent so far (oldest first). -/
structure RegistryServer where
  weTrustTheSort : Bool
  storageUp : Bool
  client : storage.Client
  notifications : List rpc.Notification
deriving DecidableEq, Repr

/-- The method `s.getStorageClient(ctx)`. -/
def RegistryServer.getStorageClient (s : RegistryServer) : Except Unit storage.Client :=
  if s.storageUp then Except.ok s.client else Except.error ()

/-- The method `s.notify(kind, name)`. -/
def RegistryServer.notify (s : RegistryServer) (kind : rpc.NotificationKind) (name : String) :
    RegistryServer :=
  { s with notifications := s.notifications ++ [⟨kind, name⟩] }

/-- The helper `saveSpecRevision(ctx, client, spec)`, through `Client.SaveSpecRevision`. -/
def saveSpecRevision (client : storage.Client) (spec : models.Spec) :
    Except Code models.Spec × storage.Client :=
  client.SaveSpecRevision spec

/-- The helper `saveSpecRevisionContents(ctx, client, spec, contents)`, through
`Client.SaveSpecRevisionContents`. -/
def saveSpecRevisionContents (client : storage.Client) (spec : models.Spec) (contents : List Nat) :
    Except Code Unit × storage.Client :=
  client.SaveSpecRevisionContents spec contents

/-- The function `getSpec`: the first row of the query for the current revision of the
name; every error of the iterator is reported as `NotFound`. -/
def getSpec (client : storage.Client) (name : names.Spec) : Except Code models.Spec :=
  let q := storage.NewQuery
  let q := q.Require (storage.Requirement.ProjectID name.ProjectID)
  let q := q.Require (storage.Requirement.ApiID name.ApiID)
  let q := q.Require (storage.Requirement.VersionID name.VersionID)
  let q := q.Require (storage.Requirement.SpecID name.SpecID)
  let q := q.Require (storage.Requirement.Currency models.Currency.IsCurrent)
  let it := client.Run q
  match it.Next with
  | Except.error err => Except.error (notFoundError err)
  | Except.ok (spec, _) => Except.ok spec

/-- Modelled from the spec: `getVersion(ctx, client, name)`: the version row with the key of
the name, `NotFound` when there is none. -/
def getVersion (client : storage.Client) (name : names.Version) : Except Code String :=
  if name.string ∈ client.Versions then Except.ok name.string else Except.error Code.NotFound

/-- Modelled from the spec: `getApi(ctx, client, name)`, `NotFound` when the api row is
absent. -/
def getApi (client : storage.Client) (p a : String) : Except Code String :=
  if names.apiString p a ∈ client.Apis then Except.ok (names.apiString p a)
  else Except.error Code.NotFound

/-- Modelled from the spec: `getProject(ctx, client, name)`, `NotFound` when the project
row is absent. -/
def getProject (client : storage.Client) (p : String) : Except Code String :=
  if names.projectString p ∈ client.Projects then Except.ok (names.projectString p)
  else Except.error Code.NotFound

/-- Modelled from the spec: `getSpecRevision(ctx, client, name)`: the row whose key is the
revision name, whatever its currency; `NotFound` when there is none. -/
def getSpecRevision (client : storage.Client) (name : names.SpecRevision) : Except Code models.Spec :=
  match client.Specs.find? (fun r => decide (r.Key = name.string)) with
  | none => Except.error Code.NotFound
  | some r => Except.ok r

/-- Modelled from the spec: `getSpecRevisionContents(ctx, client, name)`: the blob whose key
is the revision name; `NotFound` when there is none. -/
def getSpecRevisionContents (client : storage.Client) (name : names.SpecRevision) :
    Except Code models.Blob :=
  match client.Blobs.find? (fun b => decide (b.Key = name.string)) with
  | none => Except.error Code.NotFound
  | some b => Except.ok b

/-- The method `createSpec`. Returns the result and the server afterwards. -/
def RegistryServer.createSpec (D : Deps) (s : RegistryServer) (name : names.Spec)
    (body : Option rpc.ApiSpec) : Except Code rpc.ApiSpec × RegistryServer :=
  match s.getStorageClient with
  | Except.error err => (Except.error (unavailableError err), s)
  | Except.ok client =>
    match getSpec client name with
    | Except.ok _ => (Except.error (alreadyExistsError ()), s)
    | Except.error err =>
      if !isNotFound err then (Except.error err, s)
      else if !D.Validate name then (Except.error (invalidArgumentError ()), s)
      else
        -- Creation should only succeed when the parent exists.
        match getVersion client name.Version with
        | Except.error err => (Except.error err, s)
        | Except.ok _ =>
          match D.NewSpec name body with
          | none => (Except.error (invalidArgumentError ()), s)
          | some spec =>
            match saveSpecRevision client spec with
            | (Except.error err, client) => (Except.error err, { s with client := client })
            | (Except.ok spec, client) =>
              match saveSpecRevisionContents client spec (rpc.GetContents body) with
              | (Except.error err, client) => (Except.error err, { s with client := client })
              | (Except.ok _, client) =>
                match D.BasicMessage spec name.string with
                | none => (Except.error (internalError ()), { s with client := client })
                | some message =>
                  (Except.ok message,
                    RegistryServer.notify { s with client := client }
                      rpc.NotificationKind.CREATED spec.RevisionName)

/-- Whether `path` is `start` or lies under it (`hasPathPrefix` of `fieldmaskpb`). -/
def fieldmaskpb.pathUnder (path start : String) : Bool :=
  decide (path = start) || (start.data ++ ['.']).isPrefixOf path.data

/-- The paths of `fieldmaskpb.Intersect(mask, &fieldmaskpb.FieldMask(Paths: [path]))`, before
they are sorted: the paths of the mask that are `path` or lie under it. No mask has no
paths. -/
def fieldmaskpb.Intersect (mask : Option (List String)) (path : String) : List String :=
  match mask with
  | none => []
  | some paths => paths.filter (fun p => fieldmaskpb.pathUnder p path)

/-- The method `UpdateApiSpec`. Returns the result and the server afterwards. -/
def RegistryServer.UpdateApiSpec (D : Deps) (s : RegistryServer) (req : rpc.UpdateApiSpecRequest) :
    Except Code rpc.ApiSpec × RegistryServer :=
  match s.getStorageClient with
  | Except.error err => (Except.error (unavailableError err), s)
  | Except.ok client =>
    match req.ApiSpec with
    | none => (Except.error (invalidArgumentError ()), s)
    | some body =>
      match D.ParseSpec body.Name with
      | none => (Except.error (invalidArgumentError ()), s)
      | some name =>
        match getSpec client name with
        | Except.error err =>
          if req.AllowMissing && isNotFound err then s.createSpec D name req.ApiSpec
          else (Except.error err, s)
        | Except.ok spec =>
          -- Mark the current revision as non-current so the update becomes the only current revision.
          let spec := { spec with Currency := models.Currency.NotCurrent }
          match saveSpecRevision client spec with
          | (Except.error err, client) => (Except.error err, { s with client := client })
          | (Except.ok spec, client) =>
            -- Apply the update to the spec - possibly changing the revision ID.
            match D.Update spec req.ApiSpec req.UpdateMask with
            | none => (Except.error (internalError ()), { s with client := client })
            | some spec =>
              -- Save the updated/current spec. This creates a new revision or updates the previous one.
              match saveSpecRevision client spec with
              | (Except.error err, client) => (Except.error err, { s with client := client })
              | (Except.ok spec, client) =>
                -- If the spec contents were updated, save a new blob.
                let implicitUpdate := req.UpdateMask.isNone && decide (body.Contents.length > 0)
                let explicitUpdate :=
                  decide ((fieldmaskpb.Intersect req.UpdateMask "contents").length > 0)
                match (if implicitUpdate || explicitUpdate then
                    saveSpecRevisionContents client spec body.Contents
                  else (Except.ok (), client)) with
                | (Except.error err, client) => (Except.error err, { s with client := client })
                | (Except.ok _, client) =>
                  match D.BasicMessage spec name.string with
                  | none => (Except.error (internalError ()), { s with client := client })
                  | some message =>
                    (Except.ok message,
                      RegistryServer.notify { s with client := client }
                        rpc.NotificationKind.UPDATED spec.RevisionName)

/-- The function `deleteSpec`: the children, then the row keyed by the logical name, then
every row with the ids of the name. -/
def deleteSpec (client : storage.Client) (name : names.Spec) : Except Code Unit × storage.Client :=
  match client.DeleteChildrenOfSpec name with
  | (Except.error err, client) => (Except.error (internalError err), client)
  | (Except.ok _, client) =>
    match client.Delete name.string with
    | (Except.error err, client) => (Except.error (internalError err), client)
    | (Except.ok _, client) =>
      let q := storage.NewQuery
      let q := q.Require (storage.Requirement.ProjectID name.ProjectID)
      let q := q.Require (storage.Requirement.ApiID name.ApiID)
      let q := q.Require (storage.Requirement.VersionID name.VersionID)
      let q := q.Require (storage.Requirement.SpecID name.SpecID)
      match client.DeleteAllMatches q with
      | (Except.error err, client) => (Except.error (internalError err), client)
      | (Except.ok _, client) => (Except.ok (), client)

/-- The method `DeleteApiSpec`. Returns the result and the server afterwards. -/
def RegistryServer.DeleteApiSpec (D : Deps) (s : RegistryServer) (req : rpc.DeleteApiSpecRequest) :
    Except Code Unit × RegistryServer :=
  match s.getStorageClient with
  | Except.error err => (Except.error (unavailableError err), s)
  | Except.ok client =>
    match D.ParseSpec req.Name with
    | none => (Except.error (invalidArgumentError ()), s)
    | some name =>
      -- Deletion should only succeed on API specs that currently exist.
      match getSpec client name with
      | Except.error err => (Except.error err, s)
      | Except.ok _ =>
        match deleteSpec client name with
        | (Except.error err, client) => (Except.error err, { s with client := client })
        | (Except.ok _, client) =>
          (Except.ok (),
            RegistryServer.notify { s with client := client } rpc.NotificationKind.DELETED name.string)

/-- The method `getApiSpec`. -/
def RegistryServer.getApiSpec (D : Deps) (s : RegistryServer) (name : names.Spec) (view : rpc.View) :
    Except Code rpc.ApiSpec :=
  match s.getStorageClient with
  | Except.error err => Except.error (unavailableError err)
  | Except.ok client =>
    match getSpec client name with
    | Except.error err => Except.error err
    | Except.ok spec =>
      match getSpecRevisionContents client (name.Revision spec.RevisionID) with
      | Except.error err => Except.error err
      | Except.ok blob =>
        if view = rpc.View.FULL then
          match D.FullMessage spec blob name.string with
          | none => Except.error (internalError ())
          | some message => Except.ok message
        else
          match D.BasicMessage spec name.string with
          | none => Except.error (internalError ())
          | some message => Except.ok message

/-- The method `getApiSpecRevision`. -/
def RegistryServer.getApiSpecRevision (D : Deps) (s : RegistryServer) (name : names.SpecRevision)
    (view : rpc.View) : Except Code rpc.ApiSpec :=
  match s.getStorageClient with
  | Except.error err => Except.error (unavailableError err)
  | Except.ok client =>
    match getSpecRevision client name with
    | Except.error err => Except.error err
    | Except.ok revision =>
      match getSpecRevisionContents client name with
      | Except.error err => Except.error err
      | Except.ok blob =>
        if view = rpc.View.FULL then
          match D.FullMessage revision blob name.string with
          | none => Except.error (internalError ())
          | some message => Except.ok message
        else
          match D.BasicMessage revision name.string with
          | none => Except.error (internalError ())
          | some message => Except.ok message

/-- The method `GetApiSpec`. -/
def RegistryServer.GetApiSpec (D : Deps) (s : RegistryServer) (req : rpc.GetApiSpecRequest) :
    Except Code rpc.ApiSpec :=
  match D.ParseSpec req.Name with
  | some name => s.getApiSpec D name req.View
  | none =>
    match D.ParseSpecRevision req.Name with
    | some name => s.getApiSpecRevision D name req.View
    | none => Except.error (invalidArgumentError ())

/-- Modelled from the spec: `boundPageSize(requested)`: clamps to the maximum, and takes
the default for zero (negative sizes are refused before). -/
def boundPageSize (D : Deps) (requested : Int) : Nat :=
  if requested > (D.maxPageSize : Int) then D.maxPageSize
  else if requested ≤ 0 then D.defaultPageSize
  else requested.toNat

/-- What the body of the scan loop of `ListApiSpecs` does with one row: return an error,
go on to the next row (`continue`), or append a message. -/
inductive RowStep where
  | abort (err : Code)
  | skip
  | emit (message : rpc.ApiSpec)
deriving DecidableEq, Repr

/-- The `filterInputs` of a row. -/
def filterInputs (spec : models.Spec) (labels : List (String × String)) : FilterInputs :=
  { name := spec.Name
    project_id := spec.ProjectID
    api_id := spec.ApiID
    version_id := spec.VersionID
    spec_id := spec.SpecID
    filename := spec.FileName
    description := spec.Description
    create_time := spec.CreateTime
    revision_create_time := spec.RevisionCreateTime
    revision_update_time := spec.RevisionUpdateTime
    mime_type := spec.MimeType
    size_bytes := spec.SizeInBytes
    source_uri := spec.SourceURI
    labels := labels }

/-- The message part of the loop body of `ListApiSpecs`: a row whose message cannot be
built is skipped. -/
def listMessage (D : Deps) (client : storage.Client) (view : rpc.View) (spec : models.Spec) :
    RowStep :=
  if view = rpc.View.FULL then
    match D.ParseSpecRevision spec.RevisionName with
    | none => RowStep.skip
    | some name =>
      match getSpecRevisionContents client name with
      | Except.error _ => RowStep.skip
      | Except.ok blob =>
        match D.FullMessage spec blob spec.Name with
        | none => RowStep.skip
        | some message => RowStep.emit message
  else
    match D.BasicMessage spec spec.Name with
    | none => RowStep.skip
    | some message => RowStep.emit message

/-- The body of the scan loop of `ListApiSpecs` for one row. -/
def listRow (D : Deps) (client : storage.Client) (prg : Option Program) (view : rpc.View)
    (spec : models.Spec) : RowStep :=
  match prg with
  | none => listMessage D client view spec
  | some p =>
    match D.LabelsMap spec with
    | none => RowStep.abort (internalError ())
    | some labels =>
      match p (filterInputs spec labels) with
      | Except.error err => RowStep.abort (invalidArgumentError err)
      | Except.ok CelValue.other => RowStep.abort (invalidArgumentError ())
      | Except.ok (CelValue.bool false) => RowStep.skip
      | Except.ok (CelValue.bool true) => listMessage D client view spec

/-- The outcome of the scan loop of `ListApiSpecs`: the messages, the number of rows the
iterator has yielded, and the value of the loop's own `err` when the loop is left (`none`
after `break`, the error the iterator stopped with otherwise). -/
structure LoopResult where
  specMessages : List rpc.ApiSpec
  yielded : Nat
  loopErr : Option IterErr
deriving DecidableEq, Repr

/-- The scan loop of `ListApiSpecs` over the rows the iterator yields: `specMessages` are
the messages so far, `yielded` the number of rows taken so far. -/
def listLoop (step : models.Spec → RowStep) (pageSize : Nat) (stop : IterErr) :
    List models.Spec → List rpc.ApiSpec → Nat → Except Code LoopResult
  | [], specMessages, yielded => Except.ok ⟨specMessages, yielded, some stop⟩
  | spec :: rest, specMessages, yielded =>
    match step spec with
    | RowStep.abort err => Except.error err
    | RowStep.skip => listLoop step pageSize stop rest specMessages (yielded + 1)
    | RowStep.emit message =>
      let specMessages := specMessages ++ [message]
      if specMessages.length = pageSize then Except.ok ⟨specMessages, yielded + 1, none⟩
      else listLoop step pageSize stop rest specMessages (yielded + 1)

/-- The query of `ListApiSpecs` after the cursor is applied: the ids of the parent that are
not the wildcard, and the current revisions only. -/
def listQuery (q : storage.Query) (parent : names.Version) : storage.Query :=
  let q := if parent.ProjectID ≠ "-" then q.Require (storage.Requirement.ProjectID parent.ProjectID) else q
  let q := if parent.ApiID ≠ "-" then q.Require (storage.Requirement.ApiID parent.ApiID) else q
  let q := if parent.VersionID ≠ "-" then q.Require (storage.Requirement.VersionID parent.VersionID) else q
  q.Require (storage.Requirement.Currency models.Currency.IsCurrent)

/-- The check of `ListApiSpecs` that the parent exists, for a parent without wildcards or
with wildcards at the end only. -/
def listParentCheck (client : storage.Client) (parent : names.Version) : Except Code Unit :=
  if parent.ProjectID ≠ "-" ∧ parent.ApiID ≠ "-" ∧ parent.VersionID ≠ "-" then
    match getVersion client parent with
    | Except.error err => Except.error err
    | Except.ok _ => Except.ok ()
  else if parent.ProjectID ≠ "-" ∧ parent.ApiID ≠ "-" ∧ parent.VersionID = "-" then
    match getApi client parent.ProjectID parent.ApiID with
    | Except.error err => Except.error err
    | Except.ok _ => Except.ok ()
  else if parent.ProjectID ≠ "-" ∧ parent.ApiID = "-" ∧ parent.VersionID = "-" then
    match getProject client parent.ProjectID with
    | Except.error err => Except.error err
    | Except.ok _ => Except.ok ()
  else Except.ok ()

/-- The method `ListApiSpecs`. The `for` statement declares its own `err`, so the check
after the loop reads the `err` of the function, which is `nil` since the filter compiled. -/
def RegistryServer.ListApiSpecs (D : Deps) (s : RegistryServer) (req : rpc.ListApiSpecsRequest) :
    Except Code rpc.ListApiSpecsResponse :=
  match s.getStorageClient with
  | Except.error err => Except.error (unavailableError err)
  | Except.ok client =>
    if req.PageSize < 0 then Except.error (invalidArgumentError ())
    else
      match storage.NewQuery.ApplyCursor D req.PageToken with
      | none => Except.error (invalidArgumentError ())
      | some q =>
        match D.ParseVersion req.Parent with
        | none => Except.error (invalidArgumentError ())
        | some parent =>
          match listParentCheck client parent with
          | Except.error err => Except.error err
          | Except.ok _ =>
            let q := listQuery q parent
            match D.createFilterOperator req.Filter with
            | Except.error err => Except.error (internalError err)
            | Except.ok prg =>
              let err : Option IterErr := none
              let it := client.Run q
              let pageSize := boundPageSize D req.PageSize
              match listLoop (listRow D client prg req.View) pageSize it.stop it.rows [] 0 with
              | Except.error e => Except.error e
              | Except.ok out =>
                if err ≠ none ∧ err ≠ some IterErr.Done then Except.error (internalError err)
                else
                  let it := { it with yielded := out.yielded }
                  Except.ok ⟨out.specMessages, it.GetCursor D pageSize out.specMessages.length⟩

/-- A storage key: the kind of the row and its name (`client.NewKey(kind, name)`). -/
structure storage.Key where
  Kind : String
  Name : String
deriving DecidableEq, Repr

/-- Modelled from the spec: `client.NewKey(kind, name)`. -/
def storage.NewKey (kind name : String) : storage.Key := ⟨kind, name⟩

/-- How a call ends that gives no result: with an error, or with a run-time panic (an index
out of range). -/
inductive Fault where
  | error (code : Code)
  | panic
deriving DecidableEq, Repr

/-- The `less` function handed to `sort.Slice` in
`fetchMostRecentNonCurrentRevisionOfSpec`: `a.CreateTime.After(b.CreateTime)`. -/
def models.Spec.createdAfter (a b : models.Spec) : Bool := decide (b.CreateTime < a.CreateTime)

/-- The loop of `fetchMostRecentNonCurrentRevisionOfSpec` that appends every row the
iterator yields, until the iterator stops. -/
def fetchAll : List models.Spec → List models.Spec → List models.Spec
  | [], specs => specs
  | spec :: rest, specs => fetchAll rest (specs ++ [spec])

/-- The method `fetchMostRecentNonCurrentRevisionOfSpec`. The key `it.Next` returns is the
key of the row under the kind of the query; `client.NotFoundError()` is the `NotFound`
error; `specs[0]` on an empty slice panics. -/
def RegistryServer.fetchMostRecentNonCurrentRevisionOfSpec (D : Deps) (s : RegistryServer)
    (client : storage.Client) (name : names.Spec) : Except Fault (storage.Key × models.Spec) :=
  let q := storage.NewQuery
  let q := q.Require (storage.Requirement.ProjectID name.ProjectID)
  let q := q.Require (storage.Requirement.ApiID name.ApiID)
  let q := q.Require (storage.Requirement.VersionID name.VersionID)
  let q := q.Require (storage.Requirement.SpecID name.SpecID)
  let q := q.Require (storage.Requirement.Currency models.Currency.NotCurrent)
  let q := q.Order "-CreateTime"
  let it := client.Run q
  if s.weTrustTheSort then
    match it.Next with
    | Except.error _ => Except.error (Fault.error Code.NotFound)
    | Except.ok (spec, _) => Except.ok (storage.NewKey D.SpecEntityName spec.Key, spec)
  else
    let specs := fetchAll it.rows []
    let specs := D.sortSlice models.Spec.createdAfter specs
    match specs with
    | [] => Except.error Fault.panic
    | first :: _ => Except.ok (storage.NewKey "Spec" first.Key, first)

/-! ## Runs of several calls -/

/-- A sequence of `UpdateApiSpec` calls, each with the collaborators of its moment (clock,
id generator); `none` when one of the calls returns an error. -/
def runUpdates (s : RegistryServer) : List (Deps × rpc.UpdateApiSpecRequest) → Option RegistryServer
  | [] => some s
  | (D, req) :: rest =>
    match s.UpdateApiSpec D req with
    | (Except.ok _, s1) => runUpdates s1 rest
    | (Except.error _, _) => none

/-- The pages a caller collects by calling `ListApiSpecs` again with the returned
`next_page_token` until the token is empty; `fuel` bounds the number of further calls.
`none` when a call fails or the fuel runs out. -/
def listPages (D : Deps) (s : RegistryServer) (req : rpc.ListApiSpecsRequest) :
    Nat → Option (List (List rpc.ApiSpec))
  | 0 =>
    match s.ListApiSpecs D req with
    | Except.error _ => none
    | Except.ok resp => if resp.NextPageToken = "" then some [resp.ApiSpecs] else none
  | fuel + 1 =>
    match s.ListApiSpecs D req with
    | Except.error _ => none
    | Except.ok resp =>
      if resp.NextPageToken = "" then some [resp.ApiSpecs]
      else
        match listPages D s { req with PageToken := resp.NextPageToken } fuel with
        | none => none
        | some pages => some (resp.ApiSpecs :: pages)

/-! ## A concrete instance of the collaborators -/

/-- The segments of a name between occurrences of a separator. -/
def names.segments (sep : Char) : List Char → List (List Char)
  | [] => [[]]
  | c :: cs =>
    if c = sep then [] :: names.segments sep cs
    else
      match names.segments sep cs with
      | [] => [[c]]
      | seg :: segs => (c :: seg) :: segs

/-- Modelled from the spec: the identifier grammar: non-empty, without the separators of
names. -/
def names.identifierOk (cs : List Char) : Bool :=
  !cs.isEmpty && cs.all (fun c => !(c = '/' || c = '@' || c = ' '))

/-- Modelled from the spec: `names.ParseVersion`. -/
def names.ParseVersion (name : String) : Option names.Version :=
  match names.segments '/' name.data with
  | [c1, p, c2, a, c3, v] =>
    if c1 = "projects".data ∧ c2 = "apis".data ∧ c3 = "versions".data ∧
        names.identifierOk p ∧ names.identifierOk a ∧ names.identifierOk v then
      some ⟨String.mk p, String.mk a, String.mk v⟩
    else none
  | _ => none

/-- Modelled from the spec: `names.ParseSpec`. -/
def names.ParseSpec (name : String) : Option names.Spec :=
  match names.segments '/' name.data with
  | [c1, p, c2, a, c3, v, c4, sp] =>
    if c1 = "projects".data ∧ c2 = "apis".data ∧ c3 = "versions".data ∧ c4 = "specs".data ∧
        names.identifierOk p ∧ names.identifierOk a ∧ names.identifierOk v ∧
        names.identifierOk sp then
      some ⟨String.mk p, String.mk a, String.mk v, String.mk sp⟩
    else none
  | _ => none

/-- Modelled from the spec: `names.ParseSpecRevision`, for names
`.../specs/{id}@{revisionId}`. -/
def names.ParseSpecRevision (name : String) : Option names.SpecRevision :=
  match names.segments '/' name.data with
  | [c1, p, c2, a, c3, v, c4, last] =>
    match names.segments '@' last with
    | [sp, rev] =>
      if c1 = "projects".data ∧ c2 = "apis".data ∧ c3 = "versions".data ∧ c4 = "specs".data ∧
          names.identifierOk p ∧ names.identifierOk a ∧ names.identifierOk v ∧
          names.identifierOk sp ∧ names.identifierOk rev then
        some ⟨String.mk p, String.mk a, String.mk v, String.mk sp, String.mk rev⟩
      else none
    | _ => none
  | _ => none

/-- Modelled from the spec: `name.Validate()`: every id is an identifier and none is the
wildcard. -/
def names.Spec.Validate (n : names.Spec) : Bool :=
  [n.ProjectID, n.ApiID, n.VersionID, n.SpecID].all
    (fun id => names.identifierOk id.data && !decide (id = "-"))

/-- Modelled from the spec: the fingerprint of contents; here the contents themselves, read
as characters. -/
def models.hashForBytes (contents : List Nat) : String :=
  String.mk (contents.map (fun b => Char.ofNat (97 + b % 26)))

/-- Modelled from the spec: `models.NewSpec(name, body)` builds the first revision of the
name, marked current, with a revision id derived from the fingerprint of the contents. -/
def models.NewSpec (name : names.Spec) (body : Option rpc.ApiSpec) : Option models.Spec :=
  match body with
  | none => none
  | some b =>
    some { Key := ""
           ProjectID := name.ProjectID
           ApiID := name.ApiID
           VersionID := name.VersionID
           SpecID := name.SpecID
           RevisionID := "r" ++ models.hashForBytes b.Contents
           Currency := models.Currency.IsCurrent
           Description := b.Description
           FileName := b.Filename
           MimeType := b.MimeType
           SizeInBytes := b.Contents.length
           Hash := models.hashForBytes b.Contents
           SourceURI := b.SourceUri
           CreateTime := 0
           RevisionCreateTime := 0
           RevisionUpdateTime := 0
           Labels := [] }

/-- Modelled from the spec: the part of `Update` for the contents: contents with another
fingerprint give a new revision id. -/
def models.Spec.updateContents (s : models.Spec) (contents : List Nat) : models.Spec :=
  if models.hashForBytes contents ≠ s.Hash then
    { s with Hash := models.hashForBytes contents
             RevisionID := "r" ++ models.hashForBytes contents
             SizeInBytes := contents.length }
  else s

/-- Modelled from the spec: the part of `Update` for one path of the field mask, a dispatch
on the names of the fields an update can set; a path outside this schema is refused. -/
def models.Spec.updateField (s : models.Spec) (b : rpc.ApiSpec) (path : String) :
    Option models.Spec :=
  if path = "filename" then some { s with FileName := b.Filename }
  else if path = "description" then some { s with Description := b.Description }
  else if path = "contents" then some (s.updateContents b.Contents)
  else if path = "mime_type" then some { s with MimeType := b.MimeType }
  else if path = "source_uri" then some { s with SourceURI := b.SourceUri }
  else none

/-- Modelled from the spec: the part of `Update` for a field mask: the paths are applied in
turn to a working copy; a mask with a path outside the schema is refused as a whole. -/
def models.Spec.updateFields (b : rpc.ApiSpec) : List String → models.Spec → Option models.Spec
  | [], s => some s
  | path :: rest, s =>
    match s.updateField b path with
    | none => none
    | some s1 => models.Spec.updateFields b rest s1

/-- Modelled from the spec: `spec.Update(message, mask)`: applies the field mask, whose paths
are validated against the schema, or, when there is none, every field the message fills in,
to a working copy; a change of the contents gives a new revision id, another change keeps it;
the result is the new current revision. -/
def models.Spec.Update (s : models.Spec) (body : Option rpc.ApiSpec) (mask : Option (List String)) :
    Option models.Spec :=
  match body with
  | none => none
  | some b =>
    match mask with
    | some paths =>
      match models.Spec.updateFields b paths s with
      | none => none
      | some s1 => some { s1 with Currency := models.Currency.IsCurrent }
    | none =>
      let s := if b.Filename ≠ "" then { s with FileName := b.Filename } else s
      let s := if b.Description ≠ "" then { s with Description := b.Description } else s
      let s := if b.Contents ≠ [] then s.updateContents b.Contents else s
      let s := if b.MimeType ≠ "" then { s with MimeType := b.MimeType } else s
      let s := if b.SourceUri ≠ "" then { s with SourceURI := b.SourceUri } else s
      some { s with Currency := models.Currency.IsCurrent }

/-- Modelled from the spec: `spec.BasicMessage(name)`: the metadata of the row. -/
def models.Spec.BasicMessage (s : models.Spec) (name : String) : Option rpc.ApiSpec :=
  some ⟨name, s.FileName, s.Description, s.RevisionID, s.MimeType, s.SourceURI, []⟩

/-- Modelled from the spec: `spec.FullMessage(blob, name)`: the metadata of the row and
the contents of the blob. -/
def models.Spec.FullMessage (s : models.Spec) (blob : models.Blob) (name : String) :
    Option rpc.ApiSpec :=
  some ⟨name, s.FileName, s.Description, s.RevisionID, s.MimeType, s.SourceURI, blob.Contents⟩

/-- Whether the characters can stand between the quotes of a string literal. -/
def literalOk (cs : List Char) : Bool := cs.all (fun c => !(c = '"'))

/-- Modelled from the spec: a fragment of the filter language: the empty filter (no
program), and the comparison of the declared field `mime_type` or `description` with a
string literal; everything else fails to compile with `InvalidArgument`. -/
def filterFragment (filter : String) : Except Code (Option Program) :=
  if filter = "" then Except.ok none
  else
    let mime := "mime_type == \"".data
    let desc := "description == \"".data
    let body := filter.data
    if mime.isPrefixOf body ∧ body.getLast? = some '"' ∧
        literalOk ((body.drop mime.length).dropLast) then
      Except.ok (some (fun inputs =>
        Except.ok (CelValue.bool (decide (inputs.mime_type = String.mk ((body.drop mime.length).dropLast))))))
    else if desc.isPrefixOf body ∧ body.getLast? = some '"' ∧
        literalOk ((body.drop desc.length).dropLast) then
      Except.ok (some (fun inputs =>
        Except.ok (CelValue.bool (decide (inputs.description = String.mk ((body.drop desc.length).dropLast))))))
    else Except.error Code.InvalidArgument

/-- Modelled from the spec: an opaque page token for an offset: here a run of `offset + 1`
marks. -/
def cursorToken (offset : Nat) : String := String.mk (List.replicate (offset + 1) '>')

/-- Modelled from the spec: the offset of a page token; tokens that are no run of marks do
not decode. -/
def cursorOffset (token : String) : Option Nat :=
  if token.data ≠ [] ∧ token.data.all (fun c => c = '>') then some (token.data.length - 1)
  else none

/-- Modelled from the spec: the collaborators of the spec actions, as the spec describes
them. -/
def specDeps : Deps :=
  { ParseSpec := names.ParseSpec
    ParseSpecRevision := names.ParseSpecRevision
    ParseVersion := names.ParseVersion
    Validate := names.Spec.Validate
    NewSpec := models.NewSpec
    Update := models.Spec.Update
    BasicMessage := models.Spec.BasicMessage
    FullMessage := models.Spec.FullMessage
    LabelsMap := fun _ => some []
    createFilterOperator := filterFragment
    encodeCursor := cursorToken
    decodeCursor := cursorOffset
    defaultPageSize := 50
    maxPageSize := 1000
    SpecEntityName := "Spec"
    sortSlice := fun less specs => specs.insertionSort (fun a b => less b a = false) }

/-! ## Vocabulary of the properties -/

/-- Whether a row is a revision of the spec with this name. -/
def models.Spec.isRevisionOf (r : models.Spec) (n : names.Spec) : Bool :=
  decide (r.ProjectID = n.ProjectID) && decide (r.ApiID = n.ApiID) &&
    decide (r.VersionID = n.VersionID) && decide (r.SpecID = n.SpecID)

/-- Whether a row is a current revision of the spec with this name. -/
def models.Spec.isCurrentOf (r : models.Spec) (n : names.Spec) : Bool :=
  r.isRevisionOf n && decide (r.Currency = models.Currency.IsCurrent)

/-- The revision rows of a spec, in store order. -/
def storage.Client.revisionsOf (c : storage.Client) (n : names.Spec) : List models.Spec :=
  c.Specs.filter (fun r => r.isRevisionOf n)

/-- The current revision rows of a spec, in store order. -/
def storage.Client.currentOf (c : storage.Client) (n : names.Spec) : List models.Spec :=
  c.Specs.filter (fun r => r.isCurrentOf n)

/-- The query of `getSpec` for a name. -/
def getSpecQuery (name : names.Spec) : storage.Query :=
  ((((storage.NewQuery.Require (storage.Requirement.ProjectID name.ProjectID)).Require
    (storage.Requirement.ApiID name.ApiID)).Require
    (storage.Requirement.VersionID name.VersionID)).Require
    (storage.Requirement.SpecID name.SpecID)).Require
    (storage.Requirement.Currency models.Currency.IsCurrent)

/-- Storage that works: no write statement is set to fail and row scans do not fail. -/
def storage.Client.healthy (c : storage.Client) : Prop :=
  c.writeOutcomes = [] ∧ c.scanFault = none

/-- The message `GetApiSpec` builds for a row in a view. -/
def viewMessage (D : Deps) (view : rpc.View) (r : models.Spec) (blob : models.Blob) (name : String) :
    Option rpc.ApiSpec :=
  if view = rpc.View.FULL then D.FullMessage r blob name else D.BasicMessage r name

/-! ## Example data -/

/-- A store with project `p1`, api `a1` and version `v1`, and no spec. -/
def exampleClient : storage.Client :=
  ⟨[], [], [], ["projects/p1/apis/a1/versions/v1"], ["projects/p1/apis/a1"], ["projects/p1"], [], none⟩

/-- A server over `exampleClient`. -/
def exampleServer : RegistryServer := ⟨true, true, exampleClient, []⟩

/-- The name of spec `s1` under version `v1`. -/
def exampleName : names.Spec := ⟨"p1", "a1", "v1", "s1"⟩

/-- A message for spec `s1` with contents `X`. -/
def exampleBody : rpc.ApiSpec :=
  ⟨"projects/p1/apis/a1/versions/v1/specs/s1", "openapi.yaml", "first", "", "text/plain", "", [23]⟩

/-- The server after spec `s1` has been created with `exampleBody`. -/
def createdServer : RegistryServer :=
  (exampleServer.createSpec specDeps exampleName (some exampleBody)).2

/-- The name of spec `s2` under version `v1`. -/
def exampleName2 : names.Spec := ⟨"p1", "a1", "v1", "s2"⟩

/-- A message for spec `s2` with contents `Y`. -/
def exampleBody2 : rpc.ApiSpec :=
  ⟨"projects/p1/apis/a1/versions/v1/specs/s2", "openapi.yaml", "second", "", "text/plain", "", [24]⟩

/-- The server after specs `s1` and `s2` have been created. -/
def twoSpecsServer : RegistryServer :=
  (createdServer.createSpec specDeps exampleName2 (some exampleBody2)).2

/-- The server with specs `s1` and `s2` whose row scans fail after one row. -/
def failingScanServer : RegistryServer :=
  { twoSpecsServer with client := { twoSpecsServer.client with scanFault := some 1 } }

/-- A request for the specs under version `v1`, two to a page. -/
def exampleListRequest : rpc.ListApiSpecsRequest :=
  ⟨"projects/p1/apis/a1/versions/v1", 2, "", "", rpc.View.BASIC⟩

/-- Whether a blob belongs to a revision of the spec with this name. -/
def models.Blob.isBlobOf (b : models.Blob) (n : names.Spec) : Bool :=
  decide (b.ProjectID = n.ProjectID ∧ b.ApiID = n.ApiID ∧ b.VersionID = n.VersionID ∧
    b.SpecID = n.SpecID)

/-- Whether a child row belongs to the spec with this name. -/
def models.Child.isChildOf (a : models.Child) (n : names.Spec) : Bool :=
  decide (a.ProjectID = n.ProjectID ∧ a.ApiID = n.ApiID ∧ a.VersionID = n.VersionID ∧
    a.SpecID = n.SpecID)

/-- The query of `deleteSpec` for the rows of a name. -/
def deleteSpecQuery (name : names.Spec) : storage.Query :=
  (((storage.NewQuery.Require (storage.Requirement.ProjectID name.ProjectID)).Require
    (storage.Requirement.ApiID name.ApiID)).Require
    (storage.Requirement.VersionID name.VersionID)).Require
    (storage.Requirement.SpecID name.SpecID)

/-- The server after spec `s1` has been created with contents `X`, updated to contents `Y`
and updated back to contents `X`: the revision of `X` is current and stored first, the
revision of `Y` is not current and stored second. -/
def revertedServer : RegistryServer :=
  let s1 := (createdServer.UpdateApiSpec specDeps
    ⟨some { exampleBody with Contents := [24] }, none, false⟩).2
  (s1.UpdateApiSpec specDeps ⟨some exampleBody, none, false⟩).2

/-- The server `revertedServer` in an environment where the fourth write statement to come
(the removal of the revision rows in `deleteSpec`) fails. -/
def cascadeFailureServer : RegistryServer :=
  { revertedServer with
    client := { revertedServer.client with writeOutcomes := [none, none, none, some 1] } }

/-- The request to delete spec `s1`. -/
def exampleDeleteRequest : rpc.DeleteApiSpecRequest :=
  ⟨"projects/p1/apis/a1/versions/v1/specs/s1"⟩

/-- The server `createdServer` in an environment where the first write statement to come
succeeds and the second fails. -/
def failingSaveServer : RegistryServer :=
  { createdServer with
    client := { createdServer.client with writeOutcomes := [none, some 0] } }

/-- The request to update spec `s1` to contents `Y`, without field mask. -/
def exampleUpdateRequest : rpc.UpdateApiSpecRequest :=
  ⟨some { exampleBody with Contents := [24] }, none, false⟩

/-- The revision of spec `s1` with contents `X`, as `createdServer` stores it. -/
def exampleRevisionX : models.Spec :=
  ⟨"projects/p1/apis/a1/versions/v1/specs/s1@rx", "p1", "a1", "v1", "s1", "rx",
    models.Currency.IsCurrent, "first", "openapi.yaml", "text/plain", 1, "x", "", 0, 0, 0, []⟩

/-- The revision `exampleRevisionX` marked as not current. -/
def flippedRevisionX : models.Spec :=
  { exampleRevisionX with Currency := models.Currency.NotCurrent }

/-- The storage of `failingSaveServer` after `flippedRevisionX` has been saved. -/
def afterFlipClient : storage.Client :=
  { failingSaveServer.client with Specs := [flippedRevisionX], writeOutcomes := [some 0] }

/-- The revision of spec `s1` that the update to contents `Y` produces. -/
def updatedRevisionY : models.Spec :=
  { exampleRevisionX with RevisionID := "ry", Hash := "y" }

/-- What the properties of revisions ask of `models.NewSpec` and `models.Spec.Update`, after
the spec: the first revision is a revision of the name and marked current; an update gives a
revision of the same spec, marked current. -/
def Deps.modelsOk (D : Deps) : Prop :=
  (∀ n b sp, D.NewSpec n b = some sp → sp.isCurrentOf n = true) ∧
  (∀ sp b m sp1, D.Update sp b m = some sp1 →
    sp1.Currency = models.Currency.IsCurrent ∧ ∀ n, sp1.isRevisionOf n = sp.isRevisionOf n)

/-- What the rule for the blob asks of `models.Spec.Update`, after the spec (the paths of the
field mask are validated against a fixed schema): an update succeeds only for a mask whose
paths are names of fields, none a path into a field. -/
def Deps.maskOk (D : Deps) : Prop :=
  ∀ sp b paths u, D.Update sp b (some paths) = some u → ∀ p ∈ paths, '.' ∉ p.data

/-- The state of the revisions of a spec between two calls: the keys of the rows of kind
Spec are unique, row scans work, exactly one revision row of the spec is current, it is
stored under its revision name, the last notification names it, and the spec has at most
`bound` revision rows. -/
structure RevisionInv (s : RegistryServer) (n : names.Spec) (bound : Nat) : Prop where
  keys : (s.client.Specs.map models.Spec.Key).Nodup
  scan : s.client.scanFault = none
  current : ∃ r kind, s.client.currentOf n = [r] ∧ r.Key = r.RevisionName ∧
    s.notifications.getLast? = some ⟨kind, r.RevisionName⟩
  count : (s.client.revisionsOf n).length ≤ bound

/-- The request to update the description of spec `s1`, and nothing else. -/
def descriptionUpdateRequest : rpc.UpdateApiSpecRequest :=
  ⟨some { exampleBody with Description := "reworded", Contents := [] }, some ["description"], false⟩

/-- The messages the rows of a scan give, in scan order: the rows that are skipped give
none. -/
def emitted (step : models.Spec → RowStep) (rows : List models.Spec) : List rpc.ApiSpec :=
  rows.filterMap (fun r =>
    match step r with
    | RowStep.emit m => some m
    | _ => none)

/-- The rows the query of `ListApiSpecs` for a parent selects, in scan order, from the start
of the scan. -/
def listRows (client : storage.Client) (parent : names.Version) : List models.Spec :=
  client.Specs.filter (listQuery storage.NewQuery parent).selects

/-- What pagination asks of the cursor codec, after the spec: a token decodes to the offset
it encodes, and it is not the empty string, which signals the end of the results. -/
def Deps.cursorOk (D : Deps) : Prop :=
  ∀ k, D.decodeCursor (D.encodeCursor k) = some k ∧ D.encodeCursor k ≠ ""

/-- Whether `token` is the page token for the offset `o`: the empty token at the start, the
encoded offset otherwise. -/
def tokenAt (D : Deps) (token : String) (o : Nat) : Prop :=
  (token = "" ∧ o = 0) ∨ token = D.encodeCursor o

/-- Whether a row is a revision of the spec with this name that is not current. -/
def models.Spec.isNonCurrentOf (r : models.Spec) (n : names.Spec) : Bool :=
  r.isRevisionOf n && decide (r.Currency = models.Currency.NotCurrent)

/-- The revision rows of a spec that are not current, in store order. -/
def storage.Client.nonCurrentOf (c : storage.Client) (n : names.Spec) : List models.Spec :=
  c.Specs.filter (fun r => r.isNonCurrentOf n)

/-- The query of `fetchMostRecentNonCurrentRevisionOfSpec` for a name. -/
def fetchQuery (name : names.Spec) : storage.Query :=
  (((((storage.NewQuery.Require (storage.Requirement.ProjectID name.ProjectID)).Require
    (storage.Requirement.ApiID name.ApiID)).Require
    (storage.Requirement.VersionID name.VersionID)).Require
    (storage.Requirement.SpecID name.SpecID)).Require
    (storage.Requirement.Currency models.Currency.NotCurrent)).Order "-CreateTime"

/-- What `sort.Slice` with the `less` function of
`fetchMostRecentNonCurrentRevisionOfSpec` guarantees: the result holds the elements of the
slice, and no element is `less` than one that stands before it. -/
def Deps.sortOk (D : Deps) : Prop :=
  ∀ specs, (D.sortSlice models.Spec.createdAfter specs).Perm specs ∧
    (D.sortSlice models.Spec.createdAfter specs).Pairwise (fun a b => b.createdAfter a = false)

/-- A store with three revisions of spec `s1`: two that are not current, created at times 1
and 2, and the current one, created at time 3. -/
def historyClient : storage.Client :=
  { exampleClient with
    Specs :=
      [{ exampleRevisionX with
          Key := "projects/p1/apis/a1/versions/v1/specs/s1@ra", RevisionID := "ra",
          Currency := models.Currency.NotCurrent, CreateTime := 1 },
        { exampleRevisionX with
          Key := "projects/p1/apis/a1/versions/v1/specs/s1@rb", RevisionID := "rb",
          Currency := models.Currency.NotCurrent, CreateTime := 2 },
        { exampleRevisionX with
          Key := "projects/p1/apis/a1/versions/v1/specs/s1@rc", RevisionID := "rc",
          CreateTime := 3 }] }

/-- The blob `SaveSpecRevisionContents` saves for a revision: keyed to its revision name. -/
def revisionBlob (spec : models.Spec) (contents : List Nat) : models.Blob :=
  { models.NewBlobForSpec spec contents with Key := spec.RevisionName }

/-- The request to update spec `s1` with the field mask `contents` and contents `Y`. -/
def contentsMaskRequest : rpc.UpdateApiSpecRequest :=
  ⟨some { exampleBody with Contents := [24] }, some ["contents"], false⟩

/-- Whether a row lies under a parent of `ListApiSpecs`; `-` stands for any id. -/
def models.Spec.isUnder (r : models.Spec) (parent : names.Version) : Bool :=
  (decide (parent.ProjectID = "-") || decide (r.ProjectID = parent.ProjectID)) &&
    (decide (parent.ApiID = "-") || decide (r.ApiID = parent.ApiID)) &&
    (decide (parent.VersionID = "-") || decide (r.VersionID = parent.VersionID))

/-- Whether the filter lets a row pass: there is no program, or the program evaluates to
`true` on the inputs of the row. -/
def filterPasses (D : Deps) (prg : Option Program) (r : models.Spec) : Bool :=
  match prg with
  | none => true
  | some p =>
    match D.LabelsMap r with
    | none => false
    | some labels =>
      match p (filterInputs r labels) with
      | Except.ok (CelValue.bool true) => true
      | _ => false

/-- The message of a row in a view, when it can be built. -/
def rowMessage (D : Deps) (client : storage.Client) (view : rpc.View) (r : models.Spec) :
    Option rpc.ApiSpec :=
  match listMessage D client view r with
  | RowStep.emit m => some m
  | _ => none

/-- The server after the creation of spec `s1` in which the save of the revision row
succeeded and the save of the blob failed: the revision is stored without its blob. -/
def blobLessServer : RegistryServer :=
  let s : RegistryServer :=
    { exampleServer with client := { exampleClient with writeOutcomes := [none, some 0] } }
  (s.createSpec specDeps exampleName (some exampleBody)).2

/-- A request for the specs under version `v1` in the full view, without filter. -/
def fullListRequest : rpc.ListApiSpecsRequest :=
  ⟨"projects/p1/apis/a1/versions/v1", 2, "", "", rpc.View.FULL⟩

/-! ## Facts about `getSpec` -/

theorem getSpecQuery_selects (name : names.Spec) (r : models.Spec) :
    (getSpecQuery name).selects r = r.isCurrentOf name := by
  simp [getSpecQuery, storage.Query.selects, storage.Query.Require, storage.NewQuery,
    storage.Requirement.holds, models.Spec.isCurrentOf, models.Spec.isRevisionOf, Bool.and_assoc]

theorem getSpec_eq (client : storage.Client) (name : names.Spec) :
    getSpec client name =
      match (client.Run (getSpecQuery name)).Next with
      | Except.error err => Except.error (notFoundError err)
      | Except.ok (spec, _) => Except.ok spec := rfl

theorem run_getSpecQuery_rows (client : storage.Client) (name : names.Spec) :
    (client.Run (getSpecQuery name)).rows =
      match client.scanFault with
      | none => client.currentOf name
      | some k => (client.currentOf name).take k := by
  have hsel : (getSpecQuery name).selects = fun r => r.isCurrentOf name := by
    funext r; exact getSpecQuery_selects name r
  have hoff : (getSpecQuery name).Offset = 0 := rfl
  have hord : (getSpecQuery name).Ordering = none := rfl
  unfold storage.Client.Run storage.Client.currentOf storage.ordered
  rw [hsel, hoff, hord]
  cases client.scanFault <;> simp

/-- Without a current revision of the name, `getSpec` reports `NotFound`. -/
theorem getSpec_notFound (client : storage.Client) (name : names.Spec)
    (h : ∀ r ∈ client.Specs, r.isCurrentOf name = false) :
    getSpec client name = Except.error Code.NotFound := by
  have hnil : client.currentOf name = [] := by
    unfold storage.Client.currentOf
    rw [List.filter_eq_nil_iff]
    intro r hr
    simp [h r hr]
  have hrows : (client.Run (getSpecQuery name)).rows = [] := by
    rw [run_getSpecQuery_rows, hnil]
    cases client.scanFault <;> simp
  rw [getSpec_eq]
  unfold storage.Iterator.Next
  rw [hrows]
  rfl

/-- When scans work, `getSpec` returns the first current revision of the name. -/
theorem getSpec_ok (client : storage.Client) (name : names.Spec) (r : models.Spec)
    (rest : List models.Spec) (hscan : client.scanFault = none)
    (h : client.currentOf name = r :: rest) :
    getSpec client name = Except.ok r := by
  have hrows : (client.Run (getSpecQuery name)).rows = r :: rest := by
    rw [run_getSpecQuery_rows, hscan, h]
  rw [getSpec_eq]
  unfold storage.Iterator.Next
  rw [hrows]

/-- What `getSpec` returns is a current revision of the name, the first in store order. -/
theorem getSpec_ok_inv (client : storage.Client) (name : names.Spec) (r : models.Spec)
    (h : getSpec client name = Except.ok r) :
    (client.currentOf name).head? = some r := by
  rw [getSpec_eq] at h
  unfold storage.Iterator.Next at h
  rw [run_getSpecQuery_rows] at h
  cases hf : client.scanFault with
  | none =>
    rw [hf] at h
    cases hc : client.currentOf name with
    | nil => rw [hc] at h; simp at h
    | cons a t =>
      rw [hc] at h
      simp at h
      simp [h]
  | some k =>
    rw [hf] at h
    cases hc : client.currentOf name with
    | nil => rw [hc] at h; simp at h
    | cons a t =>
      rw [hc] at h
      cases k with
      | zero => simp at h
      | succ k =>
        simp at h
        simp [h]

theorem getSpec_error_code (client : storage.Client) (name : names.Spec) (err : Code)
    (h : getSpec client name = Except.error err) : err = Code.NotFound := by
  rw [getSpec_eq] at h
  cases hn : (client.Run (getSpecQuery name)).Next with
  | error e => rw [hn] at h; simp [notFoundError] at h; exact h.symm
  | ok v => rw [hn] at h; simp at h

/-! ## Creating a spec -/

/-- When the store holds a current revision of the name and the row scans work, createSpec
fails with AlreadyExists and leaves the server as it was: no revision row, no blob, no
notification. -/
theorem createSpec_alreadyExists (D : Deps) (s : RegistryServer) (name : names.Spec)
    (body : Option rpc.ApiSpec) (hup : s.storageUp = true) (hscan : s.client.scanFault = none)
    (hcur : ∃ r ∈ s.client.Specs, r.isCurrentOf name = true) :
    s.createSpec D name body = (Except.error Code.AlreadyExists, s) := by
  obtain ⟨r, hr, hrc⟩ := hcur
  have hmem : r ∈ s.client.currentOf name := by
    unfold storage.Client.currentOf
    exact List.mem_filter.mpr ⟨hr, hrc⟩
  cases hc : s.client.currentOf name with
  | nil => rw [hc] at hmem; simp at hmem
  | cons a t =>
    have hget := getSpec_ok s.client name a t hscan hc
    unfold RegistryServer.createSpec RegistryServer.getStorageClient
    simp [hup, hget, alreadyExistsError]

theorem createSpec_alreadyExists_witness :
    createdServer.createSpec specDeps exampleName (some exampleBody) =
      (Except.error Code.AlreadyExists, createdServer) :=
  createSpec_alreadyExists specDeps createdServer exampleName (some exampleBody) (by decide)
    (by decide) (by decide)

/-- With a row scan that fails before its first row, `getSpec` reports NotFound whatever the
store holds. -/
theorem getSpec_scan_failure (client : storage.Client) (name : names.Spec)
    (hscan : client.scanFault = some 0) : getSpec client name = Except.error Code.NotFound := by
  have hrows : (client.Run (getSpecQuery name)).rows = [] := by
    rw [run_getSpecQuery_rows, hscan]
    simp
  rw [getSpec_eq]
  unfold storage.Iterator.Next
  rw [hrows]
  rfl

/-- With no write statement set to fail, `saveSpecRevision` upserts the row under its
revision name. -/
theorem saveSpecRevision_healthy (c : storage.Client) (v : models.Spec)
    (h : c.writeOutcomes = []) :
    saveSpecRevision c v =
      (Except.ok { v with Key := v.RevisionName },
        { c with Specs := storage.upsert models.Spec.Key { v with Key := v.RevisionName } c.Specs }) := by
  cases c with
  | mk specs blobs children versions apis projects outcomes fault =>
    simp only at h
    subst h
    rfl

/-- With no write statement set to fail, `saveSpecRevisionContents` upserts the blob of the
revision. -/
theorem saveSpecRevisionContents_healthy (c : storage.Client) (spec : models.Spec)
    (contents : List Nat) (h : c.writeOutcomes = []) :
    saveSpecRevisionContents c spec contents =
      (Except.ok (),
        { c with Blobs := storage.upsert models.Blob.Key (revisionBlob spec contents) c.Blobs }) := by
  cases c with
  | mk specs blobs children versions apis projects outcomes fault =>
    simp only at h
    subst h
    rfl

/-- C3: the store holds a current revision of the name, and the row scan of `getSpec` fails
before its first row. `getSpec` reports the failure as NotFound, so createSpec does not stop:
for a valid name whose parent version exists (write statements working) it succeeds, saves a
revision row and a blob and sends a CREATED notification; it does not fail with
AlreadyExists. -/
theorem createSpec_scan_failure_creates (D : Deps) (s : RegistryServer) (name : names.Spec)
    (body : Option rpc.ApiSpec) (sp : models.Spec) (m : rpc.ApiSpec)
    (hup : s.storageUp = true) (hscan : s.client.scanFault = some 0)
    (hwrites : s.client.writeOutcomes = [])
    (_hcur : ∃ r ∈ s.client.Specs, r.isCurrentOf name = true)
    (hvalid : D.Validate name = true) (hparent : name.Version.string ∈ s.client.Versions)
    (hnew : D.NewSpec name body = some sp)
    (hmsg : D.BasicMessage { sp with Key := sp.RevisionName } name.string = some m) :
    s.createSpec D name body =
      (Except.ok m,
        { s with
          client :=
            { s.client with
              Specs := storage.upsert models.Spec.Key { sp with Key := sp.RevisionName }
                s.client.Specs
              Blobs := storage.upsert models.Blob.Key
                (revisionBlob { sp with Key := sp.RevisionName } (rpc.GetContents body))
                s.client.Blobs }
          notifications :=
            s.notifications ++ [⟨rpc.NotificationKind.CREATED, sp.RevisionName⟩] }) := by
  have hget := getSpec_scan_failure s.client name hscan
  unfold RegistryServer.createSpec RegistryServer.getStorageClient
  have hsave := saveSpecRevision_healthy s.client sp hwrites
  have hblob := saveSpecRevisionContents_healthy
    { s.client with
      Specs := storage.upsert models.Spec.Key { sp with Key := sp.RevisionName } s.client.Specs }
    { sp with Key := sp.RevisionName } (rpc.GetContents body) hwrites
  simp only [hup, if_true, hget, isNotFound, hvalid, getVersion, hparent, hnew, hsave, hblob,
    hmsg, decide_True, Bool.not_true, Bool.false_eq_true, if_false]
  rfl

theorem createSpec_scan_failure_creates_witness :
    (createdServer.client.currentOf exampleName).map (fun r => r.RevisionID) = ["rx"] ∧
    (({ createdServer with client := { createdServer.client with scanFault := some 0 } } :
        RegistryServer).createSpec specDeps exampleName
        (some { exampleBody with Contents := [24] })).1 =
      Except.ok ⟨"projects/p1/apis/a1/versions/v1/specs/s1", "openapi.yaml", "first", "ry",
        "text/plain", "", []⟩ ∧
    ((({ createdServer with client := { createdServer.client with scanFault := some 0 } } :
        RegistryServer).createSpec specDeps exampleName
        (some { exampleBody with Contents := [24] })).2.client.Specs.map
          (fun r => (r.RevisionID, r.Currency))) =
      [("rx", models.Currency.IsCurrent), ("ry", models.Currency.IsCurrent)] ∧
    (({ createdServer with client := { createdServer.client with scanFault := some 0 } } :
        RegistryServer).createSpec specDeps exampleName
        (some { exampleBody with Contents := [24] })).2.notifications.map (fun x => x.Change) =
      [rpc.NotificationKind.CREATED, rpc.NotificationKind.CREATED] :=
  have h := createSpec_scan_failure_creates specDeps
    { createdServer with client := { createdServer.client with scanFault := some 0 } }
    exampleName (some { exampleBody with Contents := [24] })
    { exampleRevisionX with Key := "", RevisionID := "ry", Hash := "y" }
    ⟨"projects/p1/apis/a1/versions/v1/specs/s1", "openapi.yaml", "first", "ry", "text/plain", "",
      []⟩
    (by decide) (by decide) (by decide) (by decide) (by decide) (by decide) (by rfl) (by rfl)
  ⟨by decide, by rw [h], by rw [h]; decide, by rw [h]; decide⟩

/-- C4: for a valid name without a current revision whose parent version is not in the
store, createSpec fails with NotFound and leaves the server as it was. -/
theorem createSpec_parent_notFound (D : Deps) (s : RegistryServer) (name : names.Spec)
    (body : Option rpc.ApiSpec) (hup : s.storageUp = true) (hvalid : D.Validate name = true)
    (hnone : ∀ r ∈ s.client.Specs, r.isCurrentOf name = false)
    (hparent : name.Version.string ∉ s.client.Versions) :
    s.createSpec D name body = (Except.error Code.NotFound, s) := by
  have hget := getSpec_notFound s.client name hnone
  unfold RegistryServer.createSpec RegistryServer.getStorageClient
  simp [hup, hget, isNotFound, hvalid, getVersion, hparent]

theorem createSpec_parent_notFound_witness :
    exampleServer.createSpec specDeps ⟨"p1", "a1", "v9", "s1"⟩ (some exampleBody) =
      (Except.error Code.NotFound, exampleServer) :=
  createSpec_parent_notFound specDeps exampleServer ⟨"p1", "a1", "v9", "s1"⟩ (some exampleBody)
    (by decide) (by decide) (by decide) (by decide)

/-- C5: an update with allow_missing whose spec name parses and has no current revision gives
the result, the store and the notifications of createSpec with that name and the body of the
request. The parser is only asked not to accept the empty name of an absent body. -/
theorem UpdateApiSpec_allowMissing_eq_createSpec (D : Deps) (s : RegistryServer)
    (req : rpc.UpdateApiSpecRequest) (name : names.Spec)
    (hempty : D.ParseSpec "" = none)
    (hallow : req.AllowMissing = true)
    (hname : D.ParseSpec (rpc.GetName req.ApiSpec) = some name)
    (hnone : ∀ r ∈ s.client.Specs, r.isCurrentOf name = false) :
    s.UpdateApiSpec D req = s.createSpec D name req.ApiSpec := by
  cases hb : req.ApiSpec with
  | none => rw [hb] at hname; simp [rpc.GetName, hempty] at hname
  | some body =>
    rw [hb] at hname
    simp only [rpc.GetName] at hname
    have hget := getSpec_notFound s.client name hnone
    cases hs : s.storageUp with
    | false =>
      unfold RegistryServer.UpdateApiSpec RegistryServer.createSpec RegistryServer.getStorageClient
      simp [hs]
    | true =>
      unfold RegistryServer.UpdateApiSpec
      simp [RegistryServer.getStorageClient, hs, hb, hname, hget, hallow, isNotFound]

theorem UpdateApiSpec_allowMissing_eq_createSpec_witness :
    exampleServer.UpdateApiSpec specDeps ⟨some exampleBody, none, true⟩ =
      exampleServer.createSpec specDeps exampleName (some exampleBody) :=
  UpdateApiSpec_allowMissing_eq_createSpec specDeps exampleServer ⟨some exampleBody, none, true⟩
    exampleName (by decide) (by decide) (by decide) (by decide)

/-! ## Getting a spec -/

theorem getApiSpec_ok_inv (D : Deps) (s : RegistryServer) (name : names.Spec) (view : rpc.View)
    (m : rpc.ApiSpec) (h : s.getApiSpec D name view = Except.ok m) :
    ∃ r blob, (s.client.currentOf name).head? = some r ∧
      getSpecRevisionContents s.client (name.Revision r.RevisionID) = Except.ok blob ∧
      viewMessage D view r blob name.string = some m := by
  unfold RegistryServer.getApiSpec RegistryServer.getStorageClient at h
  cases hs : s.storageUp with
  | false => simp [hs] at h
  | true =>
    simp only [hs, if_true] at h
    cases hg : getSpec s.client name with
    | error e => simp [hg] at h
    | ok r =>
      simp only [hg] at h
      cases hb : getSpecRevisionContents s.client (name.Revision r.RevisionID) with
      | error e => simp [hb] at h
      | ok blob =>
        simp only [hb] at h
        refine ⟨r, blob, getSpec_ok_inv s.client name r hg, hb, ?_⟩
        unfold viewMessage
        by_cases hv : view = rpc.View.FULL
        · simp only [hv, if_true] at h ⊢
          cases hm : D.FullMessage r blob name.string with
          | none => simp [hm] at h
          | some m1 => simp [hm] at h; simp [h]
        · simp only [hv, if_false] at h ⊢
          cases hm : D.BasicMessage r name.string with
          | none => simp [hm] at h
          | some m1 => simp [hm] at h; simp [h]

theorem getApiSpec_ok (D : Deps) (s : RegistryServer) (name : names.Spec) (view : rpc.View)
    (r : models.Spec) (rest : List models.Spec) (blob : models.Blob) (m : rpc.ApiSpec)
    (hup : s.storageUp = true) (hscan : s.client.scanFault = none)
    (hcur : s.client.currentOf name = r :: rest)
    (hblob : getSpecRevisionContents s.client (name.Revision r.RevisionID) = Except.ok blob)
    (hmsg : viewMessage D view r blob name.string = some m) :
    s.getApiSpec D name view = Except.ok m := by
  have hg := getSpec_ok s.client name r rest hscan hcur
  unfold viewMessage at hmsg
  unfold RegistryServer.getApiSpec RegistryServer.getStorageClient
  by_cases hv : view = rpc.View.FULL
  · simp only [hv, if_true] at hmsg
    simp [hup, hg, hblob, hv, hmsg]
  · simp only [hv, if_false] at hmsg
    simp [hup, hg, hblob, hv, hmsg]

theorem getApiSpecRevision_ok_inv (D : Deps) (s : RegistryServer) (name : names.SpecRevision)
    (view : rpc.View) (m : rpc.ApiSpec) (h : s.getApiSpecRevision D name view = Except.ok m) :
    ∃ r blob, s.client.Specs.find? (fun r => decide (r.Key = name.string)) = some r ∧
      getSpecRevisionContents s.client name = Except.ok blob ∧
      viewMessage D view r blob name.string = some m := by
  unfold RegistryServer.getApiSpecRevision RegistryServer.getStorageClient at h
  cases hs : s.storageUp with
  | false => simp [hs] at h
  | true =>
    simp only [hs, if_true] at h
    unfold getSpecRevision at h
    cases hg : s.client.Specs.find? (fun r => decide (r.Key = name.string)) with
    | none => simp [hg] at h
    | some r =>
      simp only [hg] at h
      cases hb : getSpecRevisionContents s.client name with
      | error e => simp [hb] at h
      | ok blob =>
        simp only [hb] at h
        refine ⟨r, blob, rfl, rfl, ?_⟩
        unfold viewMessage
        by_cases hv : view = rpc.View.FULL
        · simp only [hv, if_true] at h ⊢
          cases hm : D.FullMessage r blob name.string with
          | none => simp [hm] at h
          | some m1 => simp [hm] at h; simp [h]
        · simp only [hv, if_false] at h ⊢
          cases hm : D.BasicMessage r name.string with
          | none => simp [hm] at h
          | some m1 => simp [hm] at h; simp [h]

theorem getApiSpecRevision_ok (D : Deps) (s : RegistryServer) (name : names.SpecRevision)
    (view : rpc.View) (r : models.Spec) (blob : models.Blob) (m : rpc.ApiSpec)
    (hup : s.storageUp = true)
    (hrow : s.client.Specs.find? (fun r => decide (r.Key = name.string)) = some r)
    (hblob : getSpecRevisionContents s.client name = Except.ok blob)
    (hmsg : viewMessage D view r blob name.string = some m) :
    s.getApiSpecRevision D name view = Except.ok m := by
  unfold viewMessage at hmsg
  unfold RegistryServer.getApiSpecRevision RegistryServer.getStorageClient getSpecRevision
  by_cases hv : view = rpc.View.FULL
  · simp only [hv, if_true] at hmsg
    simp [hup, hrow, hblob, hv, hmsg]
  · simp only [hv, if_false] at hmsg
    simp [hup, hrow, hblob, hv, hmsg]

/-- C6: GetApiSpec by kind of name. A name that parses as a spec name is answered from the
first current revision row of that spec (with its blob; and it is answered whenever storage
works and that row, its blob and its message exist). Otherwise a name that parses as a
revision name is answered from the row stored under exactly that revision name, current or
not. Otherwise the call fails with InvalidArgument. -/
theorem GetApiSpec_by_name_kind (D : Deps) (s : RegistryServer) (req : rpc.GetApiSpecRequest) :
    (∀ name, D.ParseSpec req.Name = some name →
      (∀ m, s.GetApiSpec D req = Except.ok m →
        ∃ r blob, (s.client.currentOf name).head? = some r ∧
          r.Currency = models.Currency.IsCurrent ∧ r.isRevisionOf name = true ∧
          getSpecRevisionContents s.client (name.Revision r.RevisionID) = Except.ok blob ∧
          viewMessage D req.View r blob name.string = some m) ∧
      (∀ r rest blob m, s.storageUp = true → s.client.scanFault = none →
        s.client.currentOf name = r :: rest →
        getSpecRevisionContents s.client (name.Revision r.RevisionID) = Except.ok blob →
        viewMessage D req.View r blob name.string = some m →
        s.GetApiSpec D req = Except.ok m)) ∧
    (D.ParseSpec req.Name = none → ∀ name, D.ParseSpecRevision req.Name = some name →
      (∀ m, s.GetApiSpec D req = Except.ok m →
        ∃ r blob, s.client.Specs.find? (fun r => decide (r.Key = name.string)) = some r ∧
          r.Key = name.string ∧
          getSpecRevisionContents s.client name = Except.ok blob ∧
          viewMessage D req.View r blob name.string = some m) ∧
      (∀ r blob m, s.storageUp = true →
        s.client.Specs.find? (fun r => decide (r.Key = name.string)) = some r →
        getSpecRevisionContents s.client name = Except.ok blob →
        viewMessage D req.View r blob name.string = some m →
        s.GetApiSpec D req = Except.ok m)) ∧
    (D.ParseSpec req.Name = none → D.ParseSpecRevision req.Name = none →
      s.GetApiSpec D req = Except.error Code.InvalidArgument) := by
  refine ⟨?_, ?_, ?_⟩
  · intro name hname
    have hget : s.GetApiSpec D req = s.getApiSpec D name req.View := by
      unfold RegistryServer.GetApiSpec
      simp [hname]
    refine ⟨?_, ?_⟩
    · intro m hm
      rw [hget] at hm
      obtain ⟨r, blob, hhead, hblob, hmsg⟩ := getApiSpec_ok_inv D s name req.View m hm
      have hmem : r ∈ s.client.currentOf name := List.mem_of_mem_head? hhead
      have hcur : r.isCurrentOf name = true := by
        unfold storage.Client.currentOf at hmem
        exact (List.mem_filter.mp hmem).2
      unfold models.Spec.isCurrentOf at hcur
      rw [Bool.and_eq_true] at hcur
      exact ⟨r, blob, hhead, by simpa using hcur.2, hcur.1, hblob, hmsg⟩
    · intro r rest blob m hup hscan hcur hblob hmsg
      rw [hget]
      exact getApiSpec_ok D s name req.View r rest blob m hup hscan hcur hblob hmsg
  · intro hnone name hname
    have hget : s.GetApiSpec D req = s.getApiSpecRevision D name req.View := by
      unfold RegistryServer.GetApiSpec
      simp [hnone, hname]
    refine ⟨?_, ?_⟩
    · intro m hm
      rw [hget] at hm
      obtain ⟨r, blob, hrow, hblob, hmsg⟩ := getApiSpecRevision_ok_inv D s name req.View m hm
      have hkey := List.find?_some hrow
      exact ⟨r, blob, hrow, by simpa using hkey, hblob, hmsg⟩
    · intro r blob m hup hrow hblob hmsg
      rw [hget]
      exact getApiSpecRevision_ok D s name req.View r blob m hup hrow hblob hmsg
  · intro h1 h2
    unfold RegistryServer.GetApiSpec
    simp [h1, h2, invalidArgumentError]

theorem GetApiSpec_by_name_kind_witness :
    revertedServer.GetApiSpec specDeps
        ⟨"projects/p1/apis/a1/versions/v1/specs/s1@ry", rpc.View.FULL⟩ =
      Except.ok ⟨"projects/p1/apis/a1/versions/v1/specs/s1@ry", "openapi.yaml", "first", "ry",
        "text/plain", "", [24]⟩ ∧
    revertedServer.GetApiSpec specDeps ⟨"projects/p1/apis/a1/versions/v1/specs/s1", rpc.View.FULL⟩ =
      Except.ok ⟨"projects/p1/apis/a1/versions/v1/specs/s1", "openapi.yaml", "first", "rx",
        "text/plain", "", [23]⟩ ∧
    revertedServer.GetApiSpec specDeps ⟨"projects/p1/apis/a1", rpc.View.FULL⟩ =
      Except.error Code.InvalidArgument :=
  ⟨((GetApiSpec_by_name_kind specDeps revertedServer
        ⟨"projects/p1/apis/a1/versions/v1/specs/s1@ry", rpc.View.FULL⟩).2.1 (by rfl)
        ⟨"p1", "a1", "v1", "s1", "ry"⟩ (by rfl)).2
      { updatedRevisionY with
        Key := "projects/p1/apis/a1/versions/v1/specs/s1@ry"
        Currency := models.Currency.NotCurrent }
      ⟨"projects/p1/apis/a1/versions/v1/specs/s1@ry", "p1", "a1", "v1", "s1", "ry", [24]⟩
      _ (by decide) (by rfl) (by rfl) (by rfl),
    ((GetApiSpec_by_name_kind specDeps revertedServer
        ⟨"projects/p1/apis/a1/versions/v1/specs/s1", rpc.View.FULL⟩).1 exampleName (by rfl)).2
      exampleRevisionX [] ⟨"projects/p1/apis/a1/versions/v1/specs/s1@rx", "p1", "a1", "v1", "s1",
        "rx", [23]⟩ _ (by decide) (by decide) (by rfl) (by rfl) (by rfl),
    (GetApiSpec_by_name_kind specDeps revertedServer ⟨"projects/p1/apis/a1", rpc.View.FULL⟩).2.2
      (by rfl) (by rfl)⟩

/-! ## Listing specs: errors -/

/-- C8: a filter that fails to compile makes ListApiSpecs fail with Internal, whatever the
kind of the compilation error, once the page size, the page token and the parent have been
accepted: the error of `createFilterOperator` is passed through `internalError`. -/
theorem ListApiSpecs_compile_error_internal (D : Deps) (s : RegistryServer)
    (req : rpc.ListApiSpecsRequest) (q : storage.Query) (parent : names.Version) (e : Code)
    (hup : s.storageUp = true) (hsize : 0 ≤ req.PageSize)
    (hcursor : storage.NewQuery.ApplyCursor D req.PageToken = some q)
    (hparent : D.ParseVersion req.Parent = some parent)
    (hcheck : listParentCheck s.client parent = Except.ok ())
    (hfilter : D.createFilterOperator req.Filter = Except.error e) :
    s.ListApiSpecs D req = Except.error Code.Internal := by
  unfold RegistryServer.ListApiSpecs RegistryServer.getStorageClient
  have hs : ¬ req.PageSize < 0 := not_lt.mpr hsize
  simp [hup, hs, hcursor, hparent, hcheck, hfilter, internalError]

theorem ListApiSpecs_compile_error_internal_witness :
    specDeps.createFilterOperator "mime_type ==" = Except.error Code.InvalidArgument ∧
    twoSpecsServer.ListApiSpecs specDeps { exampleListRequest with Filter := "mime_type ==" } =
      Except.error Code.Internal :=
  ⟨by rfl,
    ListApiSpecs_compile_error_internal specDeps twoSpecsServer
      { exampleListRequest with Filter := "mime_type ==" } storage.NewQuery ⟨"p1", "a1", "v1"⟩
      Code.InvalidArgument (by decide) (by decide) (by rfl) (by rfl) (by rfl) (by rfl)⟩

/-- C9: when the scan loop of ListApiSpecs is left because the iterator stopped with a failure
(not with Done), the call still returns a successful response, with the messages gathered
before the failure: the check after the loop reads the `err` of the function, not the `err`
of the loop. -/
theorem ListApiSpecs_scan_failure_returns_ok (D : Deps) (s : RegistryServer)
    (req : rpc.ListApiSpecsRequest) (q : storage.Query) (parent : names.Version)
    (prg : Option Program) (out : LoopResult)
    (hup : s.storageUp = true) (hsize : 0 ≤ req.PageSize)
    (hcursor : storage.NewQuery.ApplyCursor D req.PageToken = some q)
    (hparent : D.ParseVersion req.Parent = some parent)
    (hcheck : listParentCheck s.client parent = Except.ok ())
    (hfilter : D.createFilterOperator req.Filter = Except.ok prg)
    (hloop : listLoop (listRow D s.client prg req.View) (boundPageSize D req.PageSize)
      (s.client.Run (listQuery q parent)).stop (s.client.Run (listQuery q parent)).rows [] 0 =
        Except.ok out)
    (_hfail : out.loopErr = some IterErr.Failed) :
    ∃ token, s.ListApiSpecs D req = Except.ok ⟨out.specMessages, token⟩ := by
  unfold RegistryServer.ListApiSpecs RegistryServer.getStorageClient
  have hs : ¬ req.PageSize < 0 := not_lt.mpr hsize
  simp [hup, hs, hcursor, hparent, hcheck, hfilter, hloop]

theorem ListApiSpecs_scan_failure_returns_ok_witness :
    (twoSpecsServer.ListApiSpecs specDeps exampleListRequest).toOption.map
        (fun resp => resp.ApiSpecs.length) = some 2 ∧
    ∃ token, failingScanServer.ListApiSpecs specDeps exampleListRequest =
      Except.ok ⟨[⟨"projects/p1/apis/a1/versions/v1/specs/s1", "openapi.yaml", "first", "rx",
        "text/plain", "", []⟩], token⟩ :=
  ⟨by rfl,
    ListApiSpecs_scan_failure_returns_ok specDeps failingScanServer exampleListRequest
      storage.NewQuery ⟨"p1", "a1", "v1"⟩ none
      ⟨[⟨"projects/p1/apis/a1/versions/v1/specs/s1", "openapi.yaml", "first", "rx",
        "text/plain", "", []⟩], 1, some IterErr.Failed⟩
      (by decide) (by decide) (by rfl) (by rfl) (by rfl) (by rfl) (by rfl) (by rfl)⟩

/-! ## Deleting a spec -/

theorem deleteSpecQuery_selects (name : names.Spec) (r : models.Spec) :
    (deleteSpecQuery name).selects r = r.isRevisionOf name := by
  simp [deleteSpecQuery, storage.Query.selects, storage.Query.Require, storage.NewQuery,
    storage.Requirement.holds, models.Spec.isRevisionOf, Bool.and_assoc]

/-- With no write statement set to fail, `deleteSpec` succeeds and removes the blobs, the
child rows, the row keyed by the logical name and every revision row of the name. -/
theorem deleteSpec_healthy (c : storage.Client) (name : names.Spec) (h : c.writeOutcomes = []) :
    deleteSpec c name = (Except.ok (),
      { c with
        Blobs := c.Blobs.filter (fun b => !b.isBlobOf name)
        Children := c.Children.filter (fun a => !a.isChildOf name)
        Specs := (c.Specs.filter (fun r => !decide (r.Key = name.string))).filter
          (fun r => !r.isRevisionOf name) }) := by
  have hsel : (deleteSpecQuery name).selects = fun r => r.isRevisionOf name := by
    funext r; exact deleteSpecQuery_selects name r
  have hq : ((((storage.NewQuery.Require (storage.Requirement.ProjectID name.ProjectID)).Require
      (storage.Requirement.ApiID name.ApiID)).Require
      (storage.Requirement.VersionID name.VersionID)).Require
      (storage.Requirement.SpecID name.SpecID)) = deleteSpecQuery name := rfl
  unfold deleteSpec storage.Client.DeleteChildrenOfSpec storage.Client.Delete
    storage.Client.DeleteAllMatches
  simp only [hq, hsel]
  simp [storage.Client.takeOutcome, h, storage.deleteMatching, models.Blob.isBlobOf,
    models.Child.isChildOf]

/-- With storage working, DeleteApiSpec of a spec that has a current revision succeeds and
removes every revision row, blob and child row of the spec. -/
theorem DeleteApiSpec_healthy (D : Deps) (s : RegistryServer) (req : rpc.DeleteApiSpecRequest)
    (name : names.Spec) (cur : models.Spec) (hup : s.storageUp = true)
    (hname : D.ParseSpec req.Name = some name) (hh : s.client.healthy)
    (hget : getSpec s.client name = Except.ok cur) :
    ∃ s1, s.DeleteApiSpec D req = (Except.ok (), s1) ∧
      s1.client.Specs = (s.client.Specs.filter (fun r => !decide (r.Key = name.string))).filter
        (fun r => !r.isRevisionOf name) ∧
      s1.client.revisionsOf name = [] ∧
      s1.client.Blobs.filter (fun b => b.isBlobOf name) = [] ∧
      s1.client.Children.filter (fun a => a.isChildOf name) = [] := by
  have hdel := deleteSpec_healthy s.client name hh.1
  unfold RegistryServer.DeleteApiSpec RegistryServer.getStorageClient
  simp only [hup, if_true, hname, hget, hdel]
  refine ⟨_, rfl, rfl, ?_, ?_, ?_⟩
  · simp only [RegistryServer.notify, storage.Client.revisionsOf, List.filter_filter]
    rw [List.filter_eq_nil_iff]
    intro x _ hx
    simp at hx
    simp [hx.1] at hx
  · simp [RegistryServer.notify, List.filter_filter]
  · simp [RegistryServer.notify, List.filter_filter]

/-- Without a current revision of the name, DeleteApiSpec fails with NotFound and removes
nothing. -/
theorem DeleteApiSpec_notFound (D : Deps) (s : RegistryServer) (req : rpc.DeleteApiSpecRequest)
    (name : names.Spec) (hup : s.storageUp = true) (hname : D.ParseSpec req.Name = some name)
    (hnone : ∀ r ∈ s.client.Specs, r.isCurrentOf name = false) :
    s.DeleteApiSpec D req = (Except.error Code.NotFound, s) := by
  have hget := getSpec_notFound s.client name hnone
  unfold RegistryServer.DeleteApiSpec RegistryServer.getStorageClient
  simp [hup, hname, hget]

/-! ## Saving rows -/

theorem takeOutcome_tables (c : storage.Client) :
    c.takeOutcome.2.Specs = c.Specs ∧ c.takeOutcome.2.Blobs = c.Blobs ∧
      c.takeOutcome.2.Children = c.Children ∧ c.takeOutcome.2.Versions = c.Versions ∧
      c.takeOutcome.2.scanFault = c.scanFault := by
  unfold storage.Client.takeOutcome
  cases c.writeOutcomes <;> simp

/-- A failed `SaveSpecRevision` leaves every table as it was. -/
theorem saveSpecRevision_error (c c1 : storage.Client) (v : models.Spec) (e : Code)
    (h : saveSpecRevision c v = (Except.error e, c1)) :
    c1.Specs = c.Specs ∧ c1.Blobs = c.Blobs ∧ c1.Versions = c.Versions ∧
      c1.scanFault = c.scanFault := by
  have ht := takeOutcome_tables c
  unfold saveSpecRevision storage.Client.SaveSpecRevision storage.Client.save at h
  cases hto : c.takeOutcome with
  | mk o c2 =>
    rw [hto] at h ht
    cases o with
    | none => simp at h
    | some k =>
      simp at h
      rw [← h.2]
      exact ⟨ht.1, ht.2.1, ht.2.2.2.1, ht.2.2.2.2⟩

/-- A successful `SaveSpecRevision` upserts the row, with its key set to the revision name,
into the rows of kind Spec and leaves the other tables as they were. -/
theorem saveSpecRevision_ok (c c1 : storage.Client) (v f : models.Spec)
    (h : saveSpecRevision c v = (Except.ok f, c1)) :
    f = { v with Key := v.RevisionName } ∧
      c1.Specs = storage.upsert models.Spec.Key f c.Specs ∧ c1.Blobs = c.Blobs ∧
      c1.Versions = c.Versions ∧ c1.scanFault = c.scanFault := by
  have ht := takeOutcome_tables c
  unfold saveSpecRevision storage.Client.SaveSpecRevision storage.Client.save at h
  cases hto : c.takeOutcome with
  | mk o c2 =>
    rw [hto] at h ht
    cases o with
    | some k => simp at h
    | none =>
      simp at h
      obtain ⟨hf, hc⟩ := h
      subst hf
      subst hc
      simp at ht
      exact ⟨rfl, by simp [ht.1], ht.2.1, ht.2.2.2.1, ht.2.2.2.2⟩

/-- The saved row is in the table after the upsert. -/
theorem upsert_mem {α : Type} (key : α → String) (v : α) (table : List α) :
    v ∈ storage.upsert key v table := by
  unfold storage.upsert
  by_cases h : (table.filter (fun r => decide (key r = key v))).length = 0
  · simp [h]
  · simp only [h, if_false]
    have hne : table.filter (fun r => decide (key r = key v)) ≠ [] := by
      intro hnil; rw [hnil] at h; simp at h
    obtain ⟨r, hr⟩ := List.exists_mem_of_ne_nil _ hne
    have hr2 := List.mem_filter.mp hr
    rw [List.mem_map]
    exact ⟨r, hr2.1, by simp [of_decide_eq_true hr2.2]⟩

/-! ## Updating a spec: errors -/

/-- C2, as amended: when UpdateApiSpec on an existing spec fails while it flips the old
revision to non-current (step 1), the stored revision rows and blobs are those before the
call. When it fails while it applies the update or saves the new current revision (steps 2
and 3), the flip stays committed: the stored revision rows are those before the call with
the old current revision upserted as non-current (the blobs are unchanged). -/
theorem UpdateApiSpec_error_effects (D : Deps) (s : RegistryServer)
    (req : rpc.UpdateApiSpecRequest) (body : rpc.ApiSpec) (name : names.Spec) (cur : models.Spec)
    (hup : s.storageUp = true) (hbody : req.ApiSpec = some body)
    (hname : D.ParseSpec body.Name = some name) (hget : getSpec s.client name = Except.ok cur) :
    (∀ e c1, saveSpecRevision s.client { cur with Currency := models.Currency.NotCurrent } =
        (Except.error e, c1) →
      s.UpdateApiSpec D req = (Except.error e, { s with client := c1 }) ∧
        c1.Specs = s.client.Specs ∧ c1.Blobs = s.client.Blobs) ∧
    (∀ f c1, saveSpecRevision s.client { cur with Currency := models.Currency.NotCurrent } =
        (Except.ok f, c1) →
      (D.Update f req.ApiSpec req.UpdateMask = none ∨
        ∃ u e c2, D.Update f req.ApiSpec req.UpdateMask = some u ∧
          saveSpecRevision c1 u = (Except.error e, c2)) →
      ∃ e s1, s.UpdateApiSpec D req = (Except.error e, s1) ∧
        f = { cur with Currency := models.Currency.NotCurrent, Key := cur.RevisionName } ∧
        s1.client.Specs = storage.upsert models.Spec.Key f s.client.Specs ∧
        f ∈ s1.client.Specs ∧ s1.client.Blobs = s.client.Blobs) := by
  refine ⟨?_, ?_⟩
  · intro e c1 h1
    have ht := saveSpecRevision_error s.client c1 _ e h1
    refine ⟨?_, ht.1, ht.2.1⟩
    unfold RegistryServer.UpdateApiSpec RegistryServer.getStorageClient
    simp [hup, hbody, hname, hget, h1]
  · intro f c1 h1 h23
    have ht := saveSpecRevision_ok s.client c1 _ f h1
    have hf : f = { cur with Currency := models.Currency.NotCurrent, Key := cur.RevisionName } := by
      rw [ht.1]; rfl
    have hmem : f ∈ c1.Specs := by rw [ht.2.1]; exact upsert_mem _ _ _
    rcases h23 with hnone | ⟨u, e, c2, hu, h2⟩
    · refine ⟨Code.Internal, { s with client := c1 }, ?_, hf, ht.2.1, hmem, ht.2.2.1⟩
      rw [hbody] at hnone
      unfold RegistryServer.UpdateApiSpec RegistryServer.getStorageClient
      simp [hup, hbody, hname, hget, h1, hnone, internalError]
    · have ht2 := saveSpecRevision_error c1 c2 u e h2
      refine ⟨e, { s with client := c2 }, ?_, hf, ?_, ?_, ?_⟩
      · rw [hbody] at hu
        unfold RegistryServer.UpdateApiSpec RegistryServer.getStorageClient
        simp [hup, hbody, hname, hget, h1, hu, h2]
      · simp only [ht2.1, ht.2.1]
      · simp only [ht2.1]; exact hmem
      · simp only [ht2.2.1, ht.2.2.1]

theorem UpdateApiSpec_error_effects_witness :
    ∃ e s1, failingSaveServer.UpdateApiSpec specDeps exampleUpdateRequest = (Except.error e, s1) ∧
      flippedRevisionX ∈ s1.client.Specs ∧
      flippedRevisionX.Currency = models.Currency.NotCurrent :=
  match (UpdateApiSpec_error_effects specDeps failingSaveServer exampleUpdateRequest
      { exampleBody with Contents := [24] } exampleName exampleRevisionX
      (by decide) (by rfl) (by rfl) (by rfl)).2 flippedRevisionX afterFlipClient (by rfl)
      (Or.inr ⟨updatedRevisionY, Code.Internal, { afterFlipClient with writeOutcomes := [] },
        by rfl, by rfl⟩) with
  | ⟨e, s1, h, _, _, hmem, _⟩ => ⟨e, s1, h, hmem, by rfl⟩

/-- C2, counterexample: the first save of an update succeeds and the second fails; the call
returns Internal, the stored revision rows are no longer those before the call, and the
spec, which had one current revision, has none. -/
theorem UpdateApiSpec_error_counterexample :
    (failingSaveServer.UpdateApiSpec specDeps exampleUpdateRequest).1 = Except.error Code.Internal ∧
    (failingSaveServer.UpdateApiSpec specDeps exampleUpdateRequest).2.client.Specs ≠
      failingSaveServer.client.Specs ∧
    (failingSaveServer.client.currentOf exampleName).length = 1 ∧
    (failingSaveServer.UpdateApiSpec specDeps exampleUpdateRequest).2.client.currentOf exampleName
      = [] :=
  ⟨by rfl, by decide, by decide, by decide⟩

/-! ## The upsert on a table with unique keys -/

/-- On a table with unique keys the upsert appends the row when its key is new, and
replaces the one row with its key otherwise. -/
theorem upsert_cases {α : Type} (key : α → String) (v : α) (table : List α)
    (hnd : (table.map key).Nodup) :
    ((∀ x ∈ table, key x ≠ key v) ∧ storage.upsert key v table = table ++ [v]) ∨
    (∃ l1 x l2, key x = key v ∧ table = l1 ++ x :: l2 ∧
      storage.upsert key v table = l1 ++ v :: l2) := by
  unfold storage.upsert
  by_cases h : (table.filter (fun r => decide (key r = key v))).length = 0
  · left
    refine ⟨?_, by simp [h]⟩
    intro x hx hk
    have hnil := List.length_eq_zero.mp h
    rw [List.filter_eq_nil_iff] at hnil
    exact hnil x hx (by simpa using hk)
  · right
    have hne : table.filter (fun r => decide (key r = key v)) ≠ [] := by
      intro hnil; rw [hnil] at h; simp at h
    obtain ⟨x, hx⟩ := List.exists_mem_of_ne_nil _ hne
    have hx2 := List.mem_filter.mp hx
    have hkx : key x = key v := of_decide_eq_true hx2.2
    obtain ⟨l1, l2, hsplit⟩ := List.append_of_mem hx2.1
    refine ⟨l1, x, l2, hkx, hsplit, ?_⟩
    simp only [h, if_false]
    rw [hsplit] at hnd ⊢
    rw [List.map_append, List.map_cons] at hnd
    have hnd2 := List.nodup_append.mp hnd
    have hx1 : ∀ y ∈ l1, key y ≠ key v := by
      intro y hy hky
      have h1 : key y ∈ l1.map key := List.mem_map_of_mem key hy
      have h2 : key y ∈ key x :: l2.map key := by rw [hky, hkx]; exact List.mem_cons_self _ _
      exact hnd2.2.2 h1 h2
    have hx3 : ∀ y ∈ l2, key y ≠ key v := by
      intro y hy hky
      have h1 : key y ∈ l2.map key := List.mem_map_of_mem key hy
      have h3 := (List.nodup_cons.mp hnd2.2.1).1
      rw [hkx, ← hky] at h3
      exact h3 h1
    have hm1 : l1.map (fun r => if key r = key v then v else r) = l1 := by
      conv_rhs => rw [← List.map_id l1]
      apply List.map_congr_left
      intro y hy
      simp [hx1 y hy]
    have hm2 : l2.map (fun r => if key r = key v then v else r) = l2 := by
      conv_rhs => rw [← List.map_id l2]
      apply List.map_congr_left
      intro y hy
      simp [hx3 y hy]
    rw [List.map_append, List.map_cons, hm1, hm2]
    simp [hkx]

/-- The upsert keeps the keys of a table unique. -/
theorem upsert_nodup {α : Type} (key : α → String) (v : α) (table : List α)
    (hnd : (table.map key).Nodup) : ((storage.upsert key v table).map key).Nodup := by
  rcases upsert_cases key v table hnd with ⟨hnew, heq⟩ | ⟨l1, x, l2, hkx, hsplit, heq⟩
  · rw [heq, List.map_append, List.map_singleton]
    rw [List.nodup_append]
    refine ⟨hnd, List.nodup_singleton _, ?_⟩
    intro a ha hb
    rw [List.mem_singleton] at hb
    obtain ⟨y, hy, hya⟩ := List.mem_map.mp ha
    exact hnew y hy (by rw [hya, hb])
  · rw [heq]
    rw [hsplit] at hnd
    simpa [hkx] using hnd

/-- After a row that meets `p` is upserted into a table with unique keys in which no row
meets `p`, it is the only row that meets `p`. -/
theorem upsert_filter_single {α : Type} (key : α → String) (p : α → Bool) (v : α)
    (table : List α) (hnd : (table.map key).Nodup) (hp : p v = true)
    (hnone : table.filter p = []) : (storage.upsert key v table).filter p = [v] := by
  rcases upsert_cases key v table hnd with ⟨_, heq⟩ | ⟨l1, x, l2, _, hsplit, heq⟩
  · rw [heq, List.filter_append, hnone]
    simp [hp]
  · rw [heq]
    rw [hsplit, List.filter_append] at hnone
    have h1 := (List.append_eq_nil.mp hnone).1
    have h2 := (List.append_eq_nil.mp hnone).2
    rw [List.filter_eq_nil_iff] at h1 h2
    have h3 : l2.filter p = [] := by
      rw [List.filter_eq_nil_iff]
      intro y hy
      exact h2 y (List.mem_cons_of_mem _ hy)
    rw [List.filter_append, List.filter_cons_of_pos hp, h3, List.filter_eq_nil_iff.mpr h1]
    rfl

/-- After the only row that meets `p` is overwritten, in a table with unique keys, by a row
with its key that does not meet `p`, no row meets `p`. -/
theorem upsert_filter_none {α : Type} (key : α → String) (p : α → Bool) (v r : α)
    (table : List α) (hnd : (table.map key).Nodup) (hp : p v = false) (hk : key r = key v)
    (hone : table.filter p = [r]) : (storage.upsert key v table).filter p = [] := by
  have hr : r ∈ table.filter p := by rw [hone]; exact List.mem_singleton_self r
  have hrmem := (List.mem_filter.mp hr).1
  have hpr := (List.mem_filter.mp hr).2
  rcases upsert_cases key v table hnd with ⟨hnew, _⟩ | ⟨l1, x, l2, hkx, hsplit, heq⟩
  · exact absurd hk (hnew r hrmem)
  · have hxmem : x ∈ table := by rw [hsplit]; simp
    have hxr : x = r := List.inj_on_of_nodup_map hnd hxmem hrmem (by rw [hkx, hk])
    rw [heq]
    rw [hsplit, hxr, List.filter_append, List.filter_cons_of_pos hpr] at hone
    have hlen := congrArg List.length hone
    simp only [List.length_append, List.length_cons, List.length_singleton, List.length_nil] at hlen
    have h1 : l1.filter p = [] := List.length_eq_zero.mp (by omega)
    have h2 : l2.filter p = [] := List.length_eq_zero.mp (by omega)
    rw [List.filter_append, h1, List.filter_cons_of_neg (by simp [hp]), h2]
    rfl

/-- An upsert adds at most one row that meets `q`. -/
theorem upsert_filter_length {α : Type} (key : α → String) (q : α → Bool) (v : α)
    (table : List α) (hnd : (table.map key).Nodup) :
    ((storage.upsert key v table).filter q).length ≤ (table.filter q).length + 1 := by
  rcases upsert_cases key v table hnd with ⟨_, heq⟩ | ⟨l1, x, l2, _, hsplit, heq⟩
  · rw [heq, List.filter_append, List.length_append]
    have := List.length_filter_le q [v]
    simp at this
    omega
  · rw [heq, hsplit]
    simp only [List.filter_append, List.length_append, List.filter_cons]
    by_cases hv : q v = true <;> by_cases hx : q x = true <;> simp [hv, hx] <;> omega

/-- Overwriting a row by a row with its key that meets `q` exactly when it did keeps the
number of rows that meet `q`. -/
theorem upsert_filter_length_same {α : Type} (key : α → String) (q : α → Bool) (v r : α)
    (table : List α) (hnd : (table.map key).Nodup) (hr : r ∈ table) (hk : key r = key v)
    (hq : q v = q r) :
    ((storage.upsert key v table).filter q).length = (table.filter q).length := by
  rcases upsert_cases key v table hnd with ⟨hnew, _⟩ | ⟨l1, x, l2, hkx, hsplit, heq⟩
  · exact absurd hk (hnew r hr)
  · have hxmem : x ∈ table := by rw [hsplit]; simp
    have hxr : x = r := List.inj_on_of_nodup_map hnd hxmem hr (by rw [hkx, hk])
    rw [heq, hsplit, hxr]
    simp only [List.filter_append, List.length_append, List.filter_cons, hq]
    by_cases hqr : q r = true <;> simp [hqr]

/-! ## One current revision -/

/-- Saving the contents of a revision touches neither the rows of kind Spec nor the scans. -/
theorem saveSpecRevisionContents_tables (c : storage.Client) (spec : models.Spec)
    (contents : List Nat) :
    (saveSpecRevisionContents c spec contents).2.Specs = c.Specs ∧
      (saveSpecRevisionContents c spec contents).2.scanFault = c.scanFault := by
  have ht := takeOutcome_tables c
  unfold saveSpecRevisionContents storage.Client.SaveSpecRevisionContents storage.Client.save
  cases hto : c.takeOutcome with
  | mk o c2 =>
    rw [hto] at ht
    cases o with
    | none => exact ⟨ht.1, ht.2.2.2.2⟩
    | some k => exact ⟨ht.1, ht.2.2.2.2⟩

/-- When scans work and `getSpec` fails, the name has no current revision. -/
theorem getSpec_error_inv (client : storage.Client) (name : names.Spec) (e : Code)
    (hscan : client.scanFault = none) (h : getSpec client name = Except.error e) :
    client.currentOf name = [] := by
  cases hc : client.currentOf name with
  | nil => rfl
  | cons a t =>
    rw [getSpec_ok client name a t hscan hc] at h
    simp at h

/-- The steps of a successful `createSpec`. -/
theorem createSpec_ok_inv (D : Deps) (s s1 : RegistryServer) (name : names.Spec)
    (body : Option rpc.ApiSpec) (m : rpc.ApiSpec)
    (h : s.createSpec D name body = (Except.ok m, s1)) :
    ∃ e sp sp1 c1 c2, getSpec s.client name = Except.error e ∧ D.NewSpec name body = some sp ∧
      saveSpecRevision s.client sp = (Except.ok sp1, c1) ∧
      saveSpecRevisionContents c1 sp1 (rpc.GetContents body) = (Except.ok (), c2) ∧
      s1 = RegistryServer.notify { s with client := c2 } rpc.NotificationKind.CREATED
        sp1.RevisionName := by
  unfold RegistryServer.createSpec RegistryServer.getStorageClient at h
  cases hs : s.storageUp with
  | false => simp [hs] at h
  | true =>
    simp only [hs, if_true] at h
    cases hg : getSpec s.client name with
    | ok r => simp [hg] at h
    | error e =>
      simp only [hg] at h
      by_cases hnf : isNotFound e = true
      · by_cases hv : D.Validate name = true
        · simp only [hnf, hv, Bool.not_true, Bool.false_eq_true, if_false] at h
          cases hgv : getVersion s.client name.Version with
          | error e2 => simp [hgv] at h
          | ok v =>
            simp only [hgv] at h
            cases hn : D.NewSpec name body with
            | none => simp [hn] at h
            | some sp =>
              simp only [hn] at h
              cases h1 : saveSpecRevision s.client sp with
              | mk res1 c1 =>
                cases res1 with
                | error e3 => simp [h1] at h
                | ok sp1 =>
                  simp only [h1] at h
                  cases h2 : saveSpecRevisionContents c1 sp1 (rpc.GetContents body) with
                  | mk res2 c2 =>
                    cases res2 with
                    | error e4 => simp [h2] at h
                    | ok u =>
                      simp only [h2] at h
                      cases hm : D.BasicMessage sp1 name.string with
                      | none => simp [hm] at h
                      | some msg =>
                        simp only [hm] at h
                        simp only [Prod.mk.injEq] at h
                        exact ⟨e, sp, sp1, c1, c2, rfl, rfl, h1, h2, h.2.symm⟩
        · simp [hnf, hv] at h
      · simp [hnf] at h

/-- The steps of a successful `UpdateApiSpec` on a spec that has a current revision. -/
theorem UpdateApiSpec_ok_inv (D : Deps) (s s1 : RegistryServer) (req : rpc.UpdateApiSpecRequest)
    (name : names.Spec) (cur : models.Spec) (m : rpc.ApiSpec)
    (hname : D.ParseSpec (rpc.GetName req.ApiSpec) = some name)
    (hget : getSpec s.client name = Except.ok cur)
    (h : s.UpdateApiSpec D req = (Except.ok m, s1)) :
    ∃ f c1 u u1 c2 c3,
      saveSpecRevision s.client { cur with Currency := models.Currency.NotCurrent } =
        (Except.ok f, c1) ∧
      D.Update f req.ApiSpec req.UpdateMask = some u ∧
      saveSpecRevision c1 u = (Except.ok u1, c2) ∧
      c3.Specs = c2.Specs ∧ c3.scanFault = c2.scanFault ∧
      s1 = RegistryServer.notify { s with client := c3 } rpc.NotificationKind.UPDATED
        u1.RevisionName := by
  unfold RegistryServer.UpdateApiSpec RegistryServer.getStorageClient at h
  cases hs : s.storageUp with
  | false => simp [hs] at h
  | true =>
    simp only [hs, if_true] at h
    cases hb : req.ApiSpec with
    | none => simp [hb] at h
    | some body =>
      rw [hb] at hname
      simp only [rpc.GetName] at hname
      simp only [hb, hname, hget] at h
      cases h1 : saveSpecRevision s.client { cur with Currency := models.Currency.NotCurrent } with
      | mk res1 c1 =>
        cases res1 with
        | error e => simp [h1] at h
        | ok f =>
          simp only [h1] at h
          cases hu : D.Update f (some body) req.UpdateMask with
          | none => simp [hu] at h
          | some u =>
            simp only [hu] at h
            cases h2 : saveSpecRevision c1 u with
            | mk res2 c2 =>
              cases res2 with
              | error e => simp [h2] at h
              | ok u1 =>
                simp only [h2] at h
                generalize hblob : (if (req.UpdateMask.isNone && decide (body.Contents.length > 0) ||
                    decide ((fieldmaskpb.Intersect req.UpdateMask "contents").length > 0)) = true then
                    saveSpecRevisionContents c2 u1 body.Contents
                  else (Except.ok (), c2)) = step at h
                have hstep : step.2.Specs = c2.Specs ∧ step.2.scanFault = c2.scanFault := by
                  rw [← hblob]
                  split
                  · exact saveSpecRevisionContents_tables c2 u1 body.Contents
                  · exact ⟨rfl, rfl⟩
                cases step with
                | mk res3 c3 =>
                  cases res3 with
                  | error e => simp at h
                  | ok x =>
                    simp only at h
                    cases hm : D.BasicMessage u1 name.string with
                    | none => simp [hm] at h
                    | some msg =>
                      simp only [hm, Prod.mk.injEq] at h
                      exact ⟨f, c1, u, u1, c2, c3, rfl, hu, h2, hstep.1, hstep.2, h.2.symm⟩

theorem isCurrentOf_iff (r : models.Spec) (n : names.Spec) :
    r.isCurrentOf n = true ↔ r.isRevisionOf n = true ∧ r.Currency = models.Currency.IsCurrent := by
  unfold models.Spec.isCurrentOf
  simp

/-- A successful `createSpec` on a store with unique keys and working scans leaves exactly
one current revision of the name, the one it saved and notified. -/
theorem createSpec_establishes (D : Deps) (s s1 : RegistryServer) (n : names.Spec)
    (body : Option rpc.ApiSpec) (m : rpc.ApiSpec)
    (hkeys : (s.client.Specs.map models.Spec.Key).Nodup) (hscan : s.client.scanFault = none)
    (hD : D.modelsOk) (h : s.createSpec D n body = (Except.ok m, s1)) :
    RevisionInv s1 n ((s.client.revisionsOf n).length + 1) := by
  obtain ⟨e, sp, sp1, c1, c2, hg, hn, h1, h2, hs1⟩ := createSpec_ok_inv D s s1 n body m h
  have hcur0 := getSpec_error_inv s.client n e hscan hg
  obtain ⟨hsp1, hc1, _, _, hc1scan⟩ := saveSpecRevision_ok s.client c1 sp sp1 h1
  have hbl := saveSpecRevisionContents_tables c1 sp1 (rpc.GetContents body)
  rw [h2] at hbl
  have hspcur : sp1.isCurrentOf n = true := by
    have := hD.1 n body sp hn
    rw [hsp1]
    exact this
  have hspecs : s1.client.Specs = storage.upsert models.Spec.Key sp1 s.client.Specs := by
    rw [hs1]
    simp only [RegistryServer.notify]
    rw [hbl.1, hc1]
  have hname1 : sp1.Key = sp1.RevisionName := by rw [hsp1]; rfl
  refine ⟨?_, ?_, ?_, ?_⟩
  · rw [hspecs]
    exact upsert_nodup _ _ _ hkeys
  · rw [hs1]
    simp only [RegistryServer.notify]
    rw [hbl.2, hc1scan, hscan]
  · refine ⟨sp1, rpc.NotificationKind.CREATED, ?_, hname1, ?_⟩
    · unfold storage.Client.currentOf
      rw [hspecs]
      exact upsert_filter_single _ _ _ _ hkeys hspcur hcur0
    · rw [hs1]
      simp [RegistryServer.notify]
  · unfold storage.Client.revisionsOf
    rw [hspecs]
    exact upsert_filter_length _ _ _ _ hkeys

/-- A successful `UpdateApiSpec` on the spec keeps the state of its revisions: exactly one
revision row is current, the one this call saved and notified; at most one row is added. -/
theorem UpdateApiSpec_preserves (D : Deps) (s s1 : RegistryServer)
    (req : rpc.UpdateApiSpecRequest) (n : names.Spec) (bound : Nat) (m : rpc.ApiSpec)
    (hinv : RevisionInv s n bound) (hD : D.modelsOk)
    (hname : D.ParseSpec (rpc.GetName req.ApiSpec) = some n)
    (h : s.UpdateApiSpec D req = (Except.ok m, s1)) :
    RevisionInv s1 n (bound + 1) := by
  obtain ⟨r, kind, hcur, hkey, _⟩ := hinv.current
  have hget := getSpec_ok s.client n r [] hinv.scan hcur
  obtain ⟨f, c1, u, u1, c2, c3, h1, hu, h2, hc3, hc3scan, hs1⟩ :=
    UpdateApiSpec_ok_inv D s s1 req n r m hname hget h
  have hrmem : r ∈ s.client.currentOf n := by rw [hcur]; exact List.mem_singleton_self r
  unfold storage.Client.currentOf at hrmem
  have hrin := (List.mem_filter.mp hrmem).1
  have hrcur := (isCurrentOf_iff r n).mp (List.mem_filter.mp hrmem).2
  obtain ⟨hf, hc1, _, _, hc1scan⟩ := saveSpecRevision_ok s.client c1 _ f h1
  have hfkey : r.Key = f.Key := by rw [hf, hkey]; rfl
  have hfrev : f.isRevisionOf n = r.isRevisionOf n := by rw [hf]; rfl
  have hfnot : f.isCurrentOf n = false := by
    rw [hf]
    simp [models.Spec.isCurrentOf]
  have hkeys1 : (c1.Specs.map models.Spec.Key).Nodup := by
    rw [hc1]; exact upsert_nodup _ _ _ hinv.keys
  have hcur1 : c1.Specs.filter (fun x => x.isCurrentOf n) = [] := by
    rw [hc1]
    exact upsert_filter_none _ _ f r _ hinv.keys hfnot hfkey hcur
  have hcount1 : (c1.Specs.filter (fun x => x.isRevisionOf n)).length =
      (s.client.revisionsOf n).length := by
    rw [hc1]
    exact upsert_filter_length_same _ _ f r _ hinv.keys hrin hfkey hfrev
  obtain ⟨hu1, hc2, _, _, hc2scan⟩ := saveSpecRevision_ok c1 c2 u u1 h2
  have hucur : u1.isCurrentOf n = true := by
    have hupd := hD.2 f req.ApiSpec req.UpdateMask u hu
    rw [isCurrentOf_iff, hu1]
    refine ⟨?_, hupd.1⟩
    have h3 : u.isRevisionOf n = true := by rw [hupd.2 n, hfrev]; exact hrcur.1
    exact h3
  have hname1 : u1.Key = u1.RevisionName := by rw [hu1]; rfl
  have hspecs : s1.client.Specs = storage.upsert models.Spec.Key u1 c1.Specs := by
    rw [hs1]
    simp only [RegistryServer.notify]
    rw [hc3, hc2]
  refine ⟨?_, ?_, ?_, ?_⟩
  · rw [hspecs]
    exact upsert_nodup _ _ _ hkeys1
  · rw [hs1]
    simp only [RegistryServer.notify]
    rw [hc3scan, hc2scan, hc1scan, hinv.scan]
  · refine ⟨u1, rpc.NotificationKind.UPDATED, ?_, hname1, ?_⟩
    · unfold storage.Client.currentOf
      rw [hspecs]
      exact upsert_filter_single _ _ _ _ hkeys1 hucur hcur1
    · rw [hs1]
      simp [RegistryServer.notify]
  · unfold storage.Client.revisionsOf
    rw [hspecs]
    have := upsert_filter_length models.Spec.Key (fun x => x.isRevisionOf n) u1 c1.Specs hkeys1
    have := hinv.count
    omega

/-- A run of successful updates of the spec keeps the state of its revisions. -/
theorem runUpdates_preserves (n : names.Spec)
    (calls : List (Deps × rpc.UpdateApiSpecRequest)) :
    ∀ (s sN : RegistryServer) (bound : Nat), RevisionInv s n bound →
      (∀ c ∈ calls, c.1.modelsOk ∧ c.1.ParseSpec (rpc.GetName c.2.ApiSpec) = some n) →
      runUpdates s calls = some sN → RevisionInv sN n (bound + calls.length) := by
  induction calls with
  | nil =>
    intro s sN bound hinv _ hrun
    simp only [runUpdates, Option.some.injEq] at hrun
    rw [← hrun]
    simpa using hinv
  | cons c rest ih =>
    intro s sN bound hinv hcalls hrun
    obtain ⟨D, req⟩ := c
    have hc := hcalls (D, req) (List.mem_cons_self _ _)
    simp only [runUpdates] at hrun
    cases hstep : s.UpdateApiSpec D req with
    | mk res s1 =>
      cases res with
      | error e => simp [hstep] at hrun
      | ok m =>
        simp only [hstep] at hrun
        have hinv1 := UpdateApiSpec_preserves D s s1 req n bound m hinv hc.1 hc.2 hstep
        have := ih s1 sN (bound + 1) hinv1
          (fun c hcmem => hcalls c (List.mem_cons_of_mem _ hcmem)) hrun
        have hlen : bound + (((D, req) :: rest).length) = bound + 1 + rest.length := by
          simp only [List.length_cons]; omega
        rw [hlen]
        exact this

/-- A run of calls followed by further calls is the run of the further calls from where the
first run ends. -/
theorem runUpdates_append (l1 l2 : List (Deps × rpc.UpdateApiSpecRequest)) :
    ∀ s : RegistryServer,
      runUpdates s (l1 ++ l2) = (runUpdates s l1).bind (fun s1 => runUpdates s1 l2) := by
  induction l1 with
  | nil => intro s; rfl
  | cons c rest ih =>
    intro s
    obtain ⟨D, req⟩ := c
    simp only [List.cons_append, runUpdates]
    cases hstep : s.UpdateApiSpec D req with
    | mk res s1 =>
      cases res with
      | error e => rfl
      | ok m => exact ih s1

/-- What a successful `createSpec` on a store with unique keys and working scans saves and
notifies: the first revision that `NewSpec` builds, stored under its revision name, is the
one current revision of the name, and the notification CREATED of its name is appended. -/
theorem createSpec_step (D : Deps) (s s1 : RegistryServer) (n : names.Spec)
    (body : Option rpc.ApiSpec) (m : rpc.ApiSpec)
    (hkeys : (s.client.Specs.map models.Spec.Key).Nodup) (hscan : s.client.scanFault = none)
    (hD : D.modelsOk) (h : s.createSpec D n body = (Except.ok m, s1)) :
    ∃ sp, D.NewSpec n body = some sp ∧
      s1.client.currentOf n = [{ sp with Key := sp.RevisionName }] ∧
      s1.notifications =
        s.notifications ++ [⟨rpc.NotificationKind.CREATED, sp.RevisionName⟩] := by
  obtain ⟨e, sp, sp1, c1, c2, hg, hn, h1, h2, hs1⟩ := createSpec_ok_inv D s s1 n body m h
  have hcur0 := getSpec_error_inv s.client n e hscan hg
  obtain ⟨hsp1, hc1, _, _, _⟩ := saveSpecRevision_ok s.client c1 sp sp1 h1
  have hbl := saveSpecRevisionContents_tables c1 sp1 (rpc.GetContents body)
  rw [h2] at hbl
  have hspcur : sp1.isCurrentOf n = true := by
    have := hD.1 n body sp hn
    rw [hsp1]
    exact this
  have hspecs : s1.client.Specs = storage.upsert models.Spec.Key sp1 s.client.Specs := by
    rw [hs1]
    simp only [RegistryServer.notify]
    rw [hbl.1, hc1]
  refine ⟨sp, hn, ?_, ?_⟩
  · unfold storage.Client.currentOf
    rw [hspecs, ← hsp1]
    exact upsert_filter_single _ _ _ _ hkeys hspcur hcur0
  · rw [hs1, hsp1]
    rfl

/-- What a successful `UpdateApiSpec` on the spec saves and notifies: the revision that
`Update` gives for the revision that was current, flipped to non-current, stored under its
revision name, is the one current revision afterwards, and the notification UPDATED of its
name is appended. -/
theorem UpdateApiSpec_step (D : Deps) (s s1 : RegistryServer)
    (req : rpc.UpdateApiSpecRequest) (n : names.Spec) (bound : Nat) (m : rpc.ApiSpec)
    (hinv : RevisionInv s n bound) (hD : D.modelsOk)
    (hname : D.ParseSpec (rpc.GetName req.ApiSpec) = some n)
    (h : s.UpdateApiSpec D req = (Except.ok m, s1)) :
    ∃ cur u, s.client.currentOf n = [cur] ∧
      D.Update { cur with Currency := models.Currency.NotCurrent } req.ApiSpec req.UpdateMask =
        some u ∧
      s1.client.currentOf n = [{ u with Key := u.RevisionName }] ∧
      s1.notifications =
        s.notifications ++ [⟨rpc.NotificationKind.UPDATED, u.RevisionName⟩] := by
  obtain ⟨r, kind, hcur, hkey, _⟩ := hinv.current
  have hget := getSpec_ok s.client n r [] hinv.scan hcur
  obtain ⟨f, c1, u, u1, c2, c3, h1, hu, h2, hc3, _, hs1⟩ :=
    UpdateApiSpec_ok_inv D s s1 req n r m hname hget h
  have hrmem : r ∈ s.client.currentOf n := by rw [hcur]; exact List.mem_singleton_self r
  unfold storage.Client.currentOf at hrmem
  have hrcur := (isCurrentOf_iff r n).mp (List.mem_filter.mp hrmem).2
  obtain ⟨hf, hc1, _, _, _⟩ := saveSpecRevision_ok s.client c1 _ f h1
  have hff : f = { r with Currency := models.Currency.NotCurrent } := by
    rw [hf]
    have hk : r.RevisionName = r.Key := hkey.symm
    cases r
    simp only at hk
    simp only [models.Spec.RevisionName] at hk ⊢
    rw [hk]
  have hfkey : r.Key = f.Key := by rw [hf, hkey]; rfl
  have hfrev : f.isRevisionOf n = r.isRevisionOf n := by rw [hf]; rfl
  have hfnot : f.isCurrentOf n = false := by
    rw [hf]
    simp [models.Spec.isCurrentOf]
  have hkeys1 : (c1.Specs.map models.Spec.Key).Nodup := by
    rw [hc1]; exact upsert_nodup _ _ _ hinv.keys
  have hcur1 : c1.Specs.filter (fun x => x.isCurrentOf n) = [] := by
    rw [hc1]
    exact upsert_filter_none _ _ f r _ hinv.keys hfnot hfkey hcur
  obtain ⟨hu1, hc2, _, _, _⟩ := saveSpecRevision_ok c1 c2 u u1 h2
  have hucur : u1.isCurrentOf n = true := by
    have hupd := hD.2 f req.ApiSpec req.UpdateMask u hu
    rw [isCurrentOf_iff, hu1]
    refine ⟨?_, hupd.1⟩
    have h3 : u.isRevisionOf n = true := by rw [hupd.2 n, hfrev]; exact hrcur.1
    exact h3
  have hspecs : s1.client.Specs = storage.upsert models.Spec.Key u1 c1.Specs := by
    rw [hs1]
    simp only [RegistryServer.notify]
    rw [hc3, hc2]
  refine ⟨r, u, hcur, by rw [← hff]; exact hu, ?_, ?_⟩
  · unfold storage.Client.currentOf
    rw [hspecs, ← hu1]
    exact upsert_filter_single _ _ _ _ hkeys1 hucur hcur1
  · rw [hs1, hu1]
    rfl

/-- C1, as amended: for a spec created through createSpec (on a store with unique keys and
working scans) and every N, after N successful UpdateApiSpec calls on that spec exactly one
persisted revision row of the spec is current, stored under its revision name, and it is the
revision the most recent call saved and notified: with no update, the first revision that
createSpec built, saved and notified as CREATED; otherwise the revision that the `Update` of
the last call gave for the revision that was current before that call, which the last call
saved and notified as UPDATED (the last notification). The spec has at most N + 1 revision
rows more than before its creation (an update that keeps the revision id rewrites a row). -/
theorem one_current_revision_after_updates (D0 : Deps) (s0 s1 sN : RegistryServer)
    (n : names.Spec) (body : Option rpc.ApiSpec) (m : rpc.ApiSpec)
    (calls : List (Deps × rpc.UpdateApiSpecRequest))
    (hkeys : (s0.client.Specs.map models.Spec.Key).Nodup)
    (hscan : s0.client.scanFault = none) (hD0 : D0.modelsOk)
    (hcreate : s0.createSpec D0 n body = (Except.ok m, s1))
    (hcalls : ∀ c ∈ calls, c.1.modelsOk ∧ c.1.ParseSpec (rpc.GetName c.2.ApiSpec) = some n)
    (hrun : runUpdates s1 calls = some sN) :
    ∃ r, sN.client.currentOf n = [r] ∧ r.Key = r.RevisionName ∧
      (sN.client.revisionsOf n).length ≤ (s0.client.revisionsOf n).length + calls.length + 1 ∧
      (calls = [] →
        ∃ sp, D0.NewSpec n body = some sp ∧ r = { sp with Key := sp.RevisionName } ∧
          sN.notifications =
            s0.notifications ++ [⟨rpc.NotificationKind.CREATED, r.RevisionName⟩]) ∧
      (∀ init D req, calls = init ++ [(D, req)] →
        ∃ sP cur u, runUpdates s1 init = some sP ∧ sP.client.currentOf n = [cur] ∧
          D.Update { cur with Currency := models.Currency.NotCurrent } req.ApiSpec
            req.UpdateMask = some u ∧
          r = { u with Key := u.RevisionName } ∧
          sN.notifications =
            sP.notifications ++ [⟨rpc.NotificationKind.UPDATED, r.RevisionName⟩]) := by
  have hinv1 := createSpec_establishes D0 s0 s1 n body m hkeys hscan hD0 hcreate
  have hinvN := runUpdates_preserves n calls s1 sN _ hinv1 hcalls hrun
  obtain ⟨r, kind, hcur, hkey, _⟩ := hinvN.current
  refine ⟨r, hcur, hkey, ?_, ?_, ?_⟩
  · have := hinvN.count
    omega
  · intro hnil
    rw [hnil] at hrun
    simp only [runUpdates, Option.some.injEq] at hrun
    obtain ⟨sp, hn, hcur1, hnote⟩ := createSpec_step D0 s0 s1 n body m hkeys hscan hD0 hcreate
    rw [← hrun, hcur1] at hcur
    have hr : r = { sp with Key := sp.RevisionName } := by
      simpa using hcur.symm
    refine ⟨sp, hn, hr, ?_⟩
    rw [← hrun, hnote, hr]
    rfl
  · intro init D req hsplit
    rw [hsplit, runUpdates_append] at hrun
    cases hP : runUpdates s1 init with
    | none => simp [hP] at hrun
    | some sP =>
      simp only [hP, Option.some_bind, runUpdates] at hrun
      have hcallsP : ∀ c ∈ init, c.1.modelsOk ∧ c.1.ParseSpec (rpc.GetName c.2.ApiSpec) = some n :=
        fun c hc => hcalls c (by rw [hsplit]; exact List.mem_append_left _ hc)
      have hlast := hcalls (D, req) (by rw [hsplit]; simp)
      have hinvP := runUpdates_preserves n init s1 sP _ hinv1 hcallsP hP
      cases hstep : sP.UpdateApiSpec D req with
      | mk res s2 =>
        cases res with
        | error e => simp [hstep] at hrun
        | ok m2 =>
          simp only [hstep, Option.some.injEq] at hrun
          obtain ⟨cur, u, hcurP, hu, hcur2, hnote⟩ :=
            UpdateApiSpec_step D sP s2 req n _ m2 hinvP hlast.1 hlast.2 hstep
          rw [← hrun, hcur2] at hcur
          have hr : r = { u with Key := u.RevisionName } := by
            simpa using hcur.symm
          refine ⟨sP, cur, u, rfl, hcurP, hu, hr, ?_⟩
          rw [← hrun, hnote, hr]
          rfl

theorem updateContents_ids (s : models.Spec) (contents : List Nat) (n : names.Spec) :
    (s.updateContents contents).isRevisionOf n = s.isRevisionOf n := by
  unfold models.Spec.updateContents
  split <;> rfl

theorem updateField_ids (s s1 : models.Spec) (b : rpc.ApiSpec) (path : String) (n : names.Spec)
    (h : s.updateField b path = some s1) : s1.isRevisionOf n = s.isRevisionOf n := by
  unfold models.Spec.updateField at h
  split_ifs at h <;> simp only [Option.some.injEq] at h <;> rw [← h]
  · rfl
  · rfl
  · exact updateContents_ids s b.Contents n
  · rfl
  · rfl

theorem updateFields_ids (b : rpc.ApiSpec) (n : names.Spec) (paths : List String) :
    ∀ s s1 : models.Spec, models.Spec.updateFields b paths s = some s1 →
      s1.isRevisionOf n = s.isRevisionOf n := by
  induction paths with
  | nil =>
    intro s s1 h
    simp only [models.Spec.updateFields, Option.some.injEq] at h
    rw [h]
  | cons p rest ih =>
    intro s s1 h
    simp only [models.Spec.updateFields] at h
    cases hp : s.updateField b p with
    | none => simp [hp] at h
    | some s2 =>
      simp only [hp] at h
      rw [ih s2 s1 h, updateField_ids s s2 b p n hp]

/-- The paths the modelled `Update` accepts are names of fields. -/
theorem updateFields_flat (b : rpc.ApiSpec) (paths : List String) :
    ∀ s s1 : models.Spec, models.Spec.updateFields b paths s = some s1 →
      ∀ p ∈ paths, '.' ∉ p.data := by
  induction paths with
  | nil => intro s s1 _ p hp; simp at hp
  | cons q rest ih =>
    intro s s1 h p hp
    simp only [models.Spec.updateFields] at h
    cases hq : s.updateField b q with
    | none => simp [hq] at h
    | some s2 =>
      simp only [hq] at h
      rcases List.mem_cons.mp hp with hpq | hprest
      · rw [hpq]
        unfold models.Spec.updateField at hq
        split_ifs at hq with h1 h2 h3 h4 h5
        · rw [h1]; decide
        · rw [h2]; decide
        · rw [h3]; decide
        · rw [h4]; decide
        · rw [h5]; decide
      · exact ih s2 s1 h p hprest

/-- The collaborators modelled from the spec meet `Deps.modelsOk`. -/
theorem specDeps_modelsOk : specDeps.modelsOk := by
  refine ⟨?_, ?_⟩
  · intro n b sp h
    cases b with
    | none => simp [specDeps, models.NewSpec] at h
    | some body =>
      simp only [specDeps, models.NewSpec, Option.some.injEq] at h
      rw [← h]
      simp [models.Spec.isCurrentOf, models.Spec.isRevisionOf]
  · intro sp b m sp1 h
    cases b with
    | none => simp [specDeps, models.Spec.Update] at h
    | some body =>
      cases m with
      | some paths =>
        simp only [specDeps, models.Spec.Update] at h
        cases hf : models.Spec.updateFields body paths sp with
        | none => simp [hf] at h
        | some s1 =>
          simp only [hf, Option.some.injEq] at h
          rw [← h]
          refine ⟨rfl, ?_⟩
          intro n
          exact updateFields_ids body n paths sp s1 hf
      | none =>
        simp only [specDeps, models.Spec.Update, Option.some.injEq] at h
        rw [← h]
        refine ⟨rfl, ?_⟩
        intro n
        have hstep : ∀ (c : Prop) [Decidable c] (a b : models.Spec),
            a.isRevisionOf n = sp.isRevisionOf n → b.isRevisionOf n = sp.isRevisionOf n →
            (if c then a else b).isRevisionOf n = sp.isRevisionOf n := by
          intro c _ a b ha hb
          split
          · exact ha
          · exact hb
        have h1 : (if body.Filename ≠ "" then { sp with FileName := body.Filename } else sp).isRevisionOf n
            = sp.isRevisionOf n := hstep _ _ _ rfl rfl
        have h2 := hstep (body.Description ≠ "")
          { (if body.Filename ≠ "" then { sp with FileName := body.Filename } else sp) with
            Description := body.Description }
          (if body.Filename ≠ "" then { sp with FileName := body.Filename } else sp) h1 h1
        generalize (if body.Description ≠ "" then
          { (if body.Filename ≠ "" then { sp with FileName := body.Filename } else sp) with
            Description := body.Description }
          else (if body.Filename ≠ "" then { sp with FileName := body.Filename } else sp)) = s2 at h2 ⊢
        have h3 := hstep (body.Contents ≠ []) (s2.updateContents body.Contents) s2
          (by rw [updateContents_ids]; exact h2) h2
        generalize (if body.Contents ≠ [] then s2.updateContents body.Contents else s2) = s3 at h3 ⊢
        have h4 := hstep (body.MimeType ≠ "") { s3 with MimeType := body.MimeType } s3 h3 h3
        generalize (if body.MimeType ≠ "" then { s3 with MimeType := body.MimeType } else s3) = s4
          at h4 ⊢
        exact hstep (body.SourceUri ≠ "") { s4 with SourceURI := body.SourceUri } s4 h4 h4

/-- The collaborators modelled from the spec meet `Deps.maskOk`. -/
theorem specDeps_maskOk : specDeps.maskOk := by
  intro sp b paths u h
  cases b with
  | none => simp [specDeps, models.Spec.Update] at h
  | some body =>
    simp only [specDeps, models.Spec.Update] at h
    cases hf : models.Spec.updateFields body paths sp with
    | none => simp [hf] at h
    | some s1 => exact updateFields_flat body paths sp s1 hf

theorem one_current_revision_after_updates_witness :
    ∃ r, (createdServer.UpdateApiSpec specDeps exampleUpdateRequest).2.client.currentOf
        exampleName = [r] ∧ r.RevisionID = "ry" ∧
      (createdServer.UpdateApiSpec specDeps exampleUpdateRequest).2.notifications =
        createdServer.notifications ++ [⟨rpc.NotificationKind.UPDATED, r.RevisionName⟩] :=
  match one_current_revision_after_updates specDeps exampleServer createdServer
      (createdServer.UpdateApiSpec specDeps exampleUpdateRequest).2 exampleName (some exampleBody)
      ⟨"projects/p1/apis/a1/versions/v1/specs/s1", "openapi.yaml", "first", "rx", "text/plain", "", []⟩
      [(specDeps, exampleUpdateRequest)] (by decide) (by decide) specDeps_modelsOk (by rfl)
      (fun c hc => by
        rw [List.mem_singleton] at hc
        rw [hc]
        exact ⟨specDeps_modelsOk, by rfl⟩)
      (by rfl) with
  | ⟨r, hcur, _, _, _, hlast⟩ =>
    ⟨r, hcur,
    by
      have hmem : r ∈ (createdServer.UpdateApiSpec specDeps exampleUpdateRequest).2.client.currentOf
          exampleName := by rw [hcur]; exact List.mem_singleton_self r
      revert hmem
      have hall : ∀ x ∈ (createdServer.UpdateApiSpec specDeps exampleUpdateRequest).2.client.currentOf
          exampleName, x.RevisionID = "ry" := by decide
      exact hall r,
    by
      obtain ⟨sP, cur, u, hP, _, _, _, hnote⟩ := hlast [] specDeps exampleUpdateRequest rfl
      have hsP : createdServer = sP := Option.some.inj hP
      rw [hnote, hsP]⟩

/-- C1, counterexample: spec `s1` is created through createSpec on a store without revision
rows of it, and one UpdateApiSpec call, which changes the description only, succeeds: the
spec has one persisted revision row, not two. -/
theorem one_current_revision_counterexample :
    (exampleServer.client.revisionsOf exampleName).length = 0 ∧
    (exampleServer.createSpec specDeps exampleName (some exampleBody)).1.toOption.isSome = true ∧
    (runUpdates createdServer [(specDeps, descriptionUpdateRequest)]).map
      (fun s => (s.client.revisionsOf exampleName).map
        (fun r => (r.RevisionID, r.Currency, r.Description))) =
      some [("rx", models.Currency.IsCurrent, "reworded")] :=
  ⟨by decide, by decide, by decide⟩

/-! ## Listing specs: pages -/

theorem emitted_nil (step : models.Spec → RowStep) : emitted step [] = [] := rfl

theorem emitted_cons_skip (step : models.Spec → RowStep) (r : models.Spec)
    (rest : List models.Spec) (h : step r = RowStep.skip) :
    emitted step (r :: rest) = emitted step rest := by
  simp [emitted, List.filterMap_cons, h]

theorem emitted_cons_emit (step : models.Spec → RowStep) (r : models.Spec)
    (rest : List models.Spec) (m : rpc.ApiSpec) (h : step r = RowStep.emit m) :
    emitted step (r :: rest) = m :: emitted step rest := by
  simp [emitted, List.filterMap_cons, h]

theorem emitted_take_drop (step : models.Spec → RowStep) (rows : List models.Spec) (k : Nat) :
    emitted step rows = emitted step (rows.take k) ++ emitted step (rows.drop k) := by
  unfold emitted
  rw [← List.filterMap_append, List.take_append_drop]

/-- The scan loop on rows of which none makes the loop return an error: it takes `k` rows,
gathers their messages, and stops with a full page or at the end of the rows. -/
theorem listLoop_spec (step : models.Spec → RowStep) (P : Nat) (stop : IterErr) :
    ∀ (rows : List models.Spec) (acc : List rpc.ApiSpec) (y : Nat),
      (∀ r ∈ rows, ∀ e, step r ≠ RowStep.abort e) → acc.length < P →
      ∃ out k, listLoop step P stop rows acc y = Except.ok out ∧ k ≤ rows.length ∧
        out.yielded = y + k ∧ out.specMessages = acc ++ emitted step (rows.take k) ∧
        (out.specMessages.length = P ∨ (out.specMessages.length < P ∧ k = rows.length)) := by
  intro rows
  induction rows with
  | nil =>
    intro acc y _ hacc
    refine ⟨⟨acc, y, some stop⟩, 0, rfl, Nat.le_refl _, rfl, ?_, Or.inr ⟨hacc, rfl⟩⟩
    simp [emitted_nil]
  | cons r rest ih =>
    intro acc y hno hacc
    have hrest : ∀ x ∈ rest, ∀ e, step x ≠ RowStep.abort e :=
      fun x hx => hno x (List.mem_cons_of_mem _ hx)
    cases hstep : step r with
    | abort e => exact absurd hstep (hno r (List.mem_cons_self _ _) e)
    | skip =>
      obtain ⟨out, k, hloop, hk, hy, hmsgs, hend⟩ := ih acc (y + 1) hrest hacc
      refine ⟨out, k + 1, ?_, ?_, ?_, ?_, ?_⟩
      · simp only [listLoop, hstep]; exact hloop
      · simp only [List.length_cons]; omega
      · rw [hy]; omega
      · rw [hmsgs, List.take_succ_cons, emitted_cons_skip step r _ hstep]
      · rcases hend with h1 | ⟨h1, h2⟩
        · exact Or.inl h1
        · exact Or.inr ⟨h1, by simp only [List.length_cons]; omega⟩
    | emit m =>
      by_cases hfull : (acc ++ [m]).length = P
      · refine ⟨⟨acc ++ [m], y + 1, none⟩, 1, ?_, ?_, rfl, ?_, Or.inl hfull⟩
        · simp only [listLoop, hstep, hfull, if_true]
        · simp only [List.length_cons]; omega
        · simp [emitted_cons_emit step r _ m hstep, emitted_nil]
      · have hacc2 : (acc ++ [m]).length < P := by
          simp only [List.length_append, List.length_singleton] at hfull ⊢
          omega
        obtain ⟨out, k, hloop, hk, hy, hmsgs, hend⟩ := ih (acc ++ [m]) (y + 1) hrest hacc2
        refine ⟨out, k + 1, ?_, ?_, ?_, ?_, ?_⟩
        · simp only [listLoop, hstep, hfull, if_false]; exact hloop
        · simp only [List.length_cons]; omega
        · rw [hy]; omega
        · rw [hmsgs, List.take_succ_cons, emitted_cons_emit step r _ m hstep]
          simp
        · rcases hend with h1 | ⟨h1, h2⟩
          · exact Or.inl h1
          · exact Or.inr ⟨h1, by simp only [List.length_cons]; omega⟩

theorem listQuery_selects_offset (q : storage.Query) (parent : names.Version) (o : Nat) :
    (listQuery { q with Offset := o } parent).selects = (listQuery q parent).selects ∧
      (listQuery { q with Offset := o } parent).Offset = o := by
  unfold listQuery
  refine ⟨?_, ?_⟩
  · funext r
    simp only [storage.Query.selects, storage.Query.Require]
    split_ifs <;> rfl
  · simp only [storage.Query.Require]
    split_ifs <;> rfl

theorem listQuery_ordering (q : storage.Query) (parent : names.Version) :
    (listQuery q parent).Ordering = q.Ordering := by
  unfold listQuery
  simp only [storage.Query.Require]
  split_ifs <;> rfl

theorem applyCursor_tokenAt (D : Deps) (hD : D.cursorOk) (token : String) (o : Nat)
    (h : tokenAt D token o) :
    storage.NewQuery.ApplyCursor D token = some { storage.NewQuery with Offset := o } := by
  unfold storage.Query.ApplyCursor
  rcases h with ⟨h1, h2⟩ | h1
  · simp [h1, h2, storage.NewQuery]
  · rw [h1]
    simp [(hD o).1, (hD o).2]

theorem boundPageSize_within (D : Deps) (size : Int) (h1 : 1 ≤ size)
    (h2 : size ≤ (D.maxPageSize : Int)) : boundPageSize D size = size.toNat := by
  unfold boundPageSize
  have h3 : ¬ size > (D.maxPageSize : Int) := not_lt.mpr h2
  have h4 : ¬ size ≤ 0 := by omega
  simp [h3, h4]

/-- One call of `ListApiSpecs` with the page token for offset `o`, when nothing fails: the
call takes `k` rows from offset `o` on and returns their messages; the page is full and the
token encodes `o + k`, or the page is short, the rows are exhausted and the token is empty. -/
theorem ListApiSpecs_page (D : Deps) (s : RegistryServer) (req : rpc.ListApiSpecsRequest)
    (parent : names.Version) (prg : Option Program) (o : Nat)
    (hD : D.cursorOk) (hup : s.storageUp = true) (hscan : s.client.scanFault = none)
    (h1 : 1 ≤ req.PageSize) (h2 : req.PageSize ≤ (D.maxPageSize : Int))
    (hparent : D.ParseVersion req.Parent = some parent)
    (hcheck : listParentCheck s.client parent = Except.ok ())
    (hfilter : D.createFilterOperator req.Filter = Except.ok prg)
    (hno : ∀ r ∈ listRows s.client parent, ∀ e,
      listRow D s.client prg req.View r ≠ RowStep.abort e)
    (htoken : tokenAt D req.PageToken o) :
    ∃ k msgs, msgs = emitted (listRow D s.client prg req.View)
        (((listRows s.client parent).drop o).take k) ∧
      s.ListApiSpecs D req = Except.ok
        ⟨msgs, if msgs.length < req.PageSize.toNat then "" else D.encodeCursor (o + k)⟩ ∧
      (msgs.length = req.PageSize.toNat ∨
        (msgs.length < req.PageSize.toNat ∧ k = ((listRows s.client parent).drop o).length)) := by
  have hcursor := applyCursor_tokenAt D hD req.PageToken o htoken
  have hq := listQuery_selects_offset storage.NewQuery parent o
  have hrun : s.client.Run (listQuery { storage.NewQuery with Offset := o } parent) =
      ⟨(listRows s.client parent).drop o, IterErr.Done, o, 0⟩ := by
    have hord : (listQuery { storage.NewQuery with Offset := o } parent).Ordering = none :=
      listQuery_ordering _ parent
    unfold storage.Client.Run listRows storage.ordered
    rw [hscan, hq.1, hq.2, hord]
    simp
  have hP : 0 < req.PageSize.toNat := by omega
  have hnodrop : ∀ r ∈ (listRows s.client parent).drop o, ∀ e,
      listRow D s.client prg req.View r ≠ RowStep.abort e :=
    fun r hr => hno r (List.mem_of_mem_drop hr)
  obtain ⟨out, k, hloop, _, hy, hmsgs, hend⟩ :=
    listLoop_spec (listRow D s.client prg req.View) req.PageSize.toNat IterErr.Done
      ((listRows s.client parent).drop o) [] 0 hnodrop (by simpa using hP)
  simp only [List.nil_append] at hmsgs
  simp only [Nat.zero_add] at hy
  refine ⟨k, out.specMessages, hmsgs, ?_, hend⟩
  have hs : ¬ req.PageSize < 0 := by omega
  have hb := boundPageSize_within D req.PageSize h1 h2
  unfold RegistryServer.ListApiSpecs RegistryServer.getStorageClient
  simp only [hup, if_true, hs, if_false, hcursor, hparent, hcheck, hfilter, hrun, hb, hloop]
  simp [storage.Iterator.GetCursor, hy]

/-- The pages collected from the page token for offset `o` on, when nothing fails and the
fuel covers the further calls: one full page for every `P` messages of the remaining scan,
then a last page with the rest (fewer than `P`, possibly none); together the pages are the
messages of the remaining scan, in scan order. -/
theorem listPages_from (D : Deps) (s : RegistryServer) (req : rpc.ListApiSpecsRequest)
    (parent : names.Version) (prg : Option Program)
    (hD : D.cursorOk) (hup : s.storageUp = true) (hscan : s.client.scanFault = none)
    (h1 : 1 ≤ req.PageSize) (h2 : req.PageSize ≤ (D.maxPageSize : Int))
    (hparent : D.ParseVersion req.Parent = some parent)
    (hcheck : listParentCheck s.client parent = Except.ok ())
    (hfilter : D.createFilterOperator req.Filter = Except.ok prg)
    (hno : ∀ r ∈ listRows s.client parent, ∀ e,
      listRow D s.client prg req.View r ≠ RowStep.abort e) :
    ∀ (fuel o : Nat) (token : String), tokenAt D token o →
      (emitted (listRow D s.client prg req.View) ((listRows s.client parent).drop o)).length /
        req.PageSize.toNat ≤ fuel →
      ∃ pages, listPages D s { req with PageToken := token } fuel = some pages ∧
        pages.map List.length =
          List.replicate
            ((emitted (listRow D s.client prg req.View) ((listRows s.client parent).drop o)).length /
              req.PageSize.toNat) req.PageSize.toNat ++
          [(emitted (listRow D s.client prg req.View) ((listRows s.client parent).drop o)).length %
              req.PageSize.toNat] ∧
        pages.flatten =
          emitted (listRow D s.client prg req.View) ((listRows s.client parent).drop o) := by
  have hP : 0 < req.PageSize.toNat := by omega
  intro fuel
  induction fuel with
  | zero =>
    intro o token htoken hfuel
    obtain ⟨k, msgs, hmsgs, hcall, hend⟩ :=
      ListApiSpecs_page D s { req with PageToken := token } parent prg o hD hup hscan h1 h2
        hparent hcheck hfilter hno htoken
    have hsplit := emitted_take_drop (listRow D s.client prg req.View)
      ((listRows s.client parent).drop o) k
    have hlt := (Nat.div_eq_zero_iff hP).mp (Nat.le_zero.mp hfuel)
    rcases hend with hfull | ⟨hshort, hk⟩
    · exfalso
      rw [hsplit, List.length_append] at hlt
      simp only at hmsgs hfull
      rw [← hmsgs, hfull] at hlt
      omega
    · simp only at hmsgs hshort hcall
      have hall : msgs = emitted (listRow D s.client prg req.View)
          ((listRows s.client parent).drop o) := by
        rw [hmsgs, hk, List.take_length]
      refine ⟨[msgs], ?_, ?_, ?_⟩
      · simp only [listPages, hcall, hshort, if_true]
      · rw [← hall]
        simp [Nat.div_eq_of_lt hshort, Nat.mod_eq_of_lt hshort]
      · rw [← hall]
        simp
  | succ fuel ih =>
    intro o token htoken hfuel
    obtain ⟨k, msgs, hmsgs, hcall, hend⟩ :=
      ListApiSpecs_page D s { req with PageToken := token } parent prg o hD hup hscan h1 h2
        hparent hcheck hfilter hno htoken
    have hsplit := emitted_take_drop (listRow D s.client prg req.View)
      ((listRows s.client parent).drop o) k
    simp only at hmsgs hcall hend
    rcases hend with hfull | ⟨hshort, hk⟩
    · have hnot : ¬ msgs.length < req.PageSize.toNat := by omega
      have hdrop : ((listRows s.client parent).drop o).drop k =
          (listRows s.client parent).drop (o + k) := by
        rw [List.drop_drop, Nat.add_comm]
      rw [hdrop, ← hmsgs] at hsplit
      have hlen : (emitted (listRow D s.client prg req.View)
            ((listRows s.client parent).drop o)).length =
          (emitted (listRow D s.client prg req.View)
            ((listRows s.client parent).drop (o + k))).length + req.PageSize.toNat := by
        rw [hsplit, List.length_append, hfull, Nat.add_comm]
      have hfuel2 : (emitted (listRow D s.client prg req.View)
            ((listRows s.client parent).drop (o + k))).length / req.PageSize.toNat ≤ fuel := by
        rw [hlen, Nat.add_div_right _ hP] at hfuel
        omega
      obtain ⟨pages, hrec, hsizes, hflat⟩ :=
        ih (o + k) (D.encodeCursor (o + k)) (Or.inr rfl) hfuel2
      refine ⟨msgs :: pages, ?_, ?_, ?_⟩
      · simp only [listPages, hcall, hnot, if_false, (hD (o + k)).2]
        have hreq : ({ ({ req with PageToken := token } : rpc.ListApiSpecsRequest) with
            PageToken := D.encodeCursor (o + k) } : rpc.ListApiSpecsRequest) =
            { req with PageToken := D.encodeCursor (o + k) } := rfl
        rw [hreq, hrec]
      · rw [List.map_cons, hsizes, hlen, Nat.add_div_right _ hP, Nat.add_mod_right, hfull,
          List.replicate_succ]
        rfl
      · rw [List.flatten_cons, hflat, hsplit]
    · have hall : msgs = emitted (listRow D s.client prg req.View)
          ((listRows s.client parent).drop o) := by
        rw [hmsgs, hk, List.take_length]
      refine ⟨[msgs], ?_, ?_, ?_⟩
      · simp only [listPages, hcall, hshort, if_true]
      · rw [← hall]
        simp [Nat.div_eq_of_lt hshort, Nat.mod_eq_of_lt hshort]
      · rw [← hall]
        simp

/-- C7, as amended: for every page size P >= 1 within the maximum and every scan whose rows
give M messages (nothing failing), calling ListApiSpecs with page size P from the empty page
token on, each time with the returned next_page_token, until the token is empty yields
exactly floor(M/P) + 1 pages: floor(M/P) pages of size P and a last page with the M mod P
remaining messages (none when P divides M); the pages, in order, are the messages of the
unpaged scan. Any fuel of at least floor(M/P) further calls gives this result. -/
theorem ListApiSpecs_pages (D : Deps) (s : RegistryServer) (req : rpc.ListApiSpecsRequest)
    (parent : names.Version) (prg : Option Program) (fuel : Nat)
    (hD : D.cursorOk) (hup : s.storageUp = true) (hscan : s.client.scanFault = none)
    (h1 : 1 ≤ req.PageSize) (h2 : req.PageSize ≤ (D.maxPageSize : Int))
    (hparent : D.ParseVersion req.Parent = some parent)
    (hcheck : listParentCheck s.client parent = Except.ok ())
    (hfilter : D.createFilterOperator req.Filter = Except.ok prg)
    (hno : ∀ r ∈ listRows s.client parent, ∀ e,
      listRow D s.client prg req.View r ≠ RowStep.abort e)
    (hfuel : (emitted (listRow D s.client prg req.View) (listRows s.client parent)).length /
      req.PageSize.toNat ≤ fuel) :
    ∃ pages, listPages D s { req with PageToken := "" } fuel = some pages ∧
      pages.length =
        (emitted (listRow D s.client prg req.View) (listRows s.client parent)).length /
          req.PageSize.toNat + 1 ∧
      pages.map List.length =
        List.replicate
          ((emitted (listRow D s.client prg req.View) (listRows s.client parent)).length /
            req.PageSize.toNat) req.PageSize.toNat ++
        [(emitted (listRow D s.client prg req.View) (listRows s.client parent)).length %
            req.PageSize.toNat] ∧
      pages.flatten = emitted (listRow D s.client prg req.View) (listRows s.client parent) := by
  have h := listPages_from D s req parent prg hD hup hscan h1 h2 hparent hcheck hfilter hno
    fuel 0 "" (Or.inl ⟨rfl, rfl⟩)
  simp only [List.drop_zero] at h
  obtain ⟨pages, hpages, hsizes, hflat⟩ := h hfuel
  refine ⟨pages, hpages, ?_, hsizes, hflat⟩
  have hlen := congrArg List.length hsizes
  simpa using hlen

theorem listRow_none_ne_abort (D : Deps) (client : storage.Client) (view : rpc.View)
    (r : models.Spec) (e : Code) : listRow D client none view r ≠ RowStep.abort e := by
  unfold listRow listMessage
  simp only
  split
  · split
    · simp
    · split
      · simp
      · split <;> simp
  · split <;> simp

theorem specDeps_cursorOk : specDeps.cursorOk := by
  intro k
  refine ⟨?_, ?_⟩
  · simp [specDeps, cursorOffset, cursorToken, List.replicate_succ]
  · simp [specDeps, cursorToken, List.replicate_succ]
    intro h
    have := congrArg String.data h
    simp at this

theorem ListApiSpecs_pages_witness :
    ∃ pages, listPages specDeps twoSpecsServer
        { exampleListRequest with PageSize := 1 } 2 = some pages ∧
      pages.map List.length = [1, 1, 0] ∧
      pages.flatten.map (fun m => m.Name) =
        ["projects/p1/apis/a1/versions/v1/specs/s1", "projects/p1/apis/a1/versions/v1/specs/s2"] :=
  match ListApiSpecs_pages specDeps twoSpecsServer { exampleListRequest with PageSize := 1 }
      ⟨"p1", "a1", "v1"⟩ none 2 specDeps_cursorOk (by decide) (by decide) (by decide) (by decide)
      (by rfl) (by rfl) (by rfl)
      (fun r _ e => listRow_none_ne_abort specDeps twoSpecsServer.client rpc.View.BASIC r e)
      (by decide) with
  | ⟨pages, hpages, _, hsizes, hflat⟩ =>
    ⟨pages, hpages, by rw [hsizes]; decide, by rw [hflat]; decide⟩

/-- C7, counterexample: two specs under the parent and page size 2, so that M = 2, P = 2 and
ceil(M/P) = 1; the calls until the token is empty yield two pages, the second one empty. -/
theorem ListApiSpecs_pages_counterexample :
    (listRows twoSpecsServer.client ⟨"p1", "a1", "v1"⟩).length = 2 ∧
    exampleListRequest.PageSize = 2 ∧
    (listPages specDeps twoSpecsServer exampleListRequest 3).map
      (fun pages => pages.map List.length) = some [2, 0] ∧
    (2 + 2 - 1) / 2 = 1 :=
  ⟨by decide, by decide, by decide, by decide⟩

/-! ## Deleting a spec: what remains -/

/-- The tables after a successful `DeleteChildrenOfSpec`. -/
theorem deleteChildrenOfSpec_ok_inv (c c1 : storage.Client) (name : names.Spec)
    (h : c.DeleteChildrenOfSpec name = (Except.ok (), c1)) :
    c1.Specs = c.Specs ∧ c1.Blobs = c.Blobs.filter (fun b => !b.isBlobOf name) ∧
      c1.Children = c.Children.filter (fun a => !a.isChildOf name) ∧
      c1.Versions = c.Versions ∧ c1.scanFault = c.scanFault := by
  have ht := takeOutcome_tables c
  unfold storage.Client.DeleteChildrenOfSpec at h
  cases hto : c.takeOutcome with
  | mk o c2 =>
    rw [hto] at h ht
    simp only at h ht
    cases o with
    | some k => simp [storage.deleteMatching] at h
    | none =>
      simp only [storage.deleteMatching] at h
      have ht2 := takeOutcome_tables
        { c2 with Blobs := c2.Blobs.filter (fun r => !decide (r.ProjectID = name.ProjectID ∧
          r.ApiID = name.ApiID ∧ r.VersionID = name.VersionID ∧ r.SpecID = name.SpecID)) }
      cases hto2 : storage.Client.takeOutcome
        { c2 with Blobs := c2.Blobs.filter (fun r => !decide (r.ProjectID = name.ProjectID ∧
          r.ApiID = name.ApiID ∧ r.VersionID = name.VersionID ∧ r.SpecID = name.SpecID)) } with
      | mk o2 c3 =>
        rw [hto2] at h ht2
        simp only at h ht2
        cases o2 with
        | some k => simp at h
        | none =>
          simp only [Prod.mk.injEq, true_and] at h
          rw [← h]
          simp only
          refine ⟨?_, ?_, ?_, ?_, ?_⟩
          · rw [ht2.1, ht.1]
          · rw [ht2.2.1, ht.2.1]; rfl
          · rw [ht2.2.2.1, ht.2.2.1]; rfl
          · rw [ht2.2.2.2.1, ht.2.2.2.1]
          · rw [ht2.2.2.2.2, ht.2.2.2.2]

/-- The tables after a successful `Delete`. -/
theorem delete_ok_inv (c c1 : storage.Client) (key : String)
    (h : c.Delete key = (Except.ok (), c1)) :
    c1.Specs = c.Specs.filter (fun r => !decide (r.Key = key)) ∧ c1.Blobs = c.Blobs ∧
      c1.Children = c.Children ∧ c1.Versions = c.Versions ∧ c1.scanFault = c.scanFault := by
  have ht := takeOutcome_tables c
  unfold storage.Client.Delete at h
  cases hto : c.takeOutcome with
  | mk o c2 =>
    rw [hto] at h ht
    simp only at h ht
    cases o with
    | some k => simp at h
    | none =>
      simp only [Prod.mk.injEq, true_and] at h
      rw [← h]
      simp only
      exact ⟨by rw [ht.1], ht.2.1, ht.2.2.1, ht.2.2.2.1, ht.2.2.2.2⟩

/-- The tables after a successful `DeleteAllMatches`. -/
theorem deleteAllMatches_ok_inv (c c1 : storage.Client) (q : storage.Query)
    (h : c.DeleteAllMatches q = (Except.ok (), c1)) :
    c1.Specs = c.Specs.filter (fun r => !q.selects r) ∧ c1.Blobs = c.Blobs ∧
      c1.Children = c.Children ∧ c1.Versions = c.Versions ∧ c1.scanFault = c.scanFault := by
  have ht := takeOutcome_tables c
  unfold storage.Client.DeleteAllMatches at h
  cases hto : c.takeOutcome with
  | mk o c2 =>
    rw [hto] at h ht
    simp only at h ht
    cases o with
    | some k => simp [storage.deleteMatching] at h
    | none =>
      simp only [storage.deleteMatching, Prod.mk.injEq, true_and] at h
      rw [← h]
      simp only
      exact ⟨by rw [ht.1], ht.2.1, ht.2.2.1, ht.2.2.2.1, ht.2.2.2.2⟩

/-- The tables after a successful `deleteSpec`. -/
theorem deleteSpec_ok_inv (c c1 : storage.Client) (name : names.Spec)
    (h : deleteSpec c name = (Except.ok (), c1)) :
    c1.Specs = (c.Specs.filter (fun r => !decide (r.Key = name.string))).filter
        (fun r => !r.isRevisionOf name) ∧
      c1.Blobs = c.Blobs.filter (fun b => !b.isBlobOf name) ∧
      c1.Children = c.Children.filter (fun a => !a.isChildOf name) ∧
      c1.Versions = c.Versions ∧ c1.scanFault = c.scanFault := by
  have hsel : (deleteSpecQuery name).selects = fun r => r.isRevisionOf name := by
    funext r; exact deleteSpecQuery_selects name r
  have hq : ((((storage.NewQuery.Require (storage.Requirement.ProjectID name.ProjectID)).Require
      (storage.Requirement.ApiID name.ApiID)).Require
      (storage.Requirement.VersionID name.VersionID)).Require
      (storage.Requirement.SpecID name.SpecID)) = deleteSpecQuery name := rfl
  unfold deleteSpec at h
  simp only [hq] at h
  cases h1 : c.DeleteChildrenOfSpec name with
  | mk r1 ca =>
    rw [h1] at h
    cases r1 with
    | error e => simp at h
    | ok u1 =>
      simp only at h
      cases h2 : ca.Delete name.string with
      | mk r2 cb =>
        rw [h2] at h
        cases r2 with
        | error e => simp at h
        | ok u2 =>
          simp only at h
          cases h3 : cb.DeleteAllMatches (deleteSpecQuery name) with
          | mk r3 cc =>
            rw [h3] at h
            cases r3 with
            | error e => simp at h
            | ok u3 =>
              simp only [Prod.mk.injEq, true_and] at h
              obtain ⟨a1, a2, a3, a4, a5⟩ := deleteChildrenOfSpec_ok_inv c ca name h1
              obtain ⟨b1, b2, b3, b4, b5⟩ := delete_ok_inv ca cb name.string h2
              obtain ⟨d1, d2, d3, d4, d5⟩ := deleteAllMatches_ok_inv cb cc _ h3
              rw [← h]
              refine ⟨?_, ?_, ?_, ?_, ?_⟩
              · rw [d1, b1, a1, hsel]
              · rw [d2, b2, a2]
              · rw [d3, b3, a3]
              · rw [d4, b4, a4]
              · rw [d5, b5, a5]

/-- The steps of a successful `DeleteApiSpec`. -/
theorem DeleteApiSpec_ok_inv (D : Deps) (s s1 : RegistryServer) (req : rpc.DeleteApiSpecRequest)
    (name : names.Spec) (hname : D.ParseSpec req.Name = some name)
    (h : s.DeleteApiSpec D req = (Except.ok (), s1)) :
    ∃ cur c1, getSpec s.client name = Except.ok cur ∧
      deleteSpec s.client name = (Except.ok (), c1) ∧
      s1 = RegistryServer.notify { s with client := c1 } rpc.NotificationKind.DELETED
        name.string := by
  unfold RegistryServer.DeleteApiSpec RegistryServer.getStorageClient at h
  cases hs : s.storageUp with
  | false => simp [hs] at h
  | true =>
    simp only [hs, if_true, hname] at h
    cases hg : getSpec s.client name with
    | error e => simp [hg] at h
    | ok cur =>
      simp only [hg] at h
      cases hd : deleteSpec s.client name with
      | mk res c1 =>
        cases res with
        | error e => simp [hd] at h
        | ok u =>
          simp only [hd, Prod.mk.injEq, true_and] at h
          exact ⟨cur, c1, rfl, rfl, h.symm⟩

/-- A revision name holds the mark `@` that separates the revision id. -/
theorem revisionName_has_at (r : models.Spec) : '@' ∈ r.RevisionName.data := by
  unfold models.Spec.RevisionName names.SpecRevision.string
  simp [String.data_append]

/-- C11: after DeleteApiSpec succeeds on a store whose spec rows are keyed by their revision
names, for a name without the mark `@`, the rows of kind Spec are those of before without
the revision rows of the name: no revision row of the spec remains, current or not, and the
rows of other specs are as they were; the blobs and child rows of other specs are as they
were too; and a getSpec of the name fails with NotFound. -/
theorem DeleteApiSpec_removes_spec (D : Deps) (s s1 : RegistryServer)
    (req : rpc.DeleteApiSpecRequest) (name : names.Spec)
    (hname : D.ParseSpec req.Name = some name)
    (hkeys : ∀ r ∈ s.client.Specs, r.Key = r.RevisionName)
    (hat : '@' ∉ name.string.data)
    (h : s.DeleteApiSpec D req = (Except.ok (), s1)) :
    (∃ cur ∈ s.client.Specs, cur.isCurrentOf name = true) ∧
    s1.client.revisionsOf name = [] ∧
    s1.client.Specs = s.client.Specs.filter (fun r => !r.isRevisionOf name) ∧
    s1.client.Blobs = s.client.Blobs.filter (fun b => !b.isBlobOf name) ∧
    s1.client.Children = s.client.Children.filter (fun a => !a.isChildOf name) ∧
    getSpec s1.client name = Except.error Code.NotFound := by
  obtain ⟨cur, c1, hget, hdel, hs1⟩ := DeleteApiSpec_ok_inv D s s1 req name hname h
  obtain ⟨hspecs, hblobs, hchildren, _, _⟩ := deleteSpec_ok_inv s.client c1 name hdel
  have hkeep : s.client.Specs.filter (fun r => !decide (r.Key = name.string)) = s.client.Specs := by
    rw [List.filter_eq_self]
    intro r hr
    have hne : r.Key ≠ name.string := by
      intro heq
      apply hat
      rw [← heq, hkeys r hr]
      exact revisionName_has_at r
    simp [hne]
  rw [hkeep] at hspecs
  have hclient : s1.client = c1 := by rw [hs1]; rfl
  have hrev : s1.client.revisionsOf name = [] := by
    unfold storage.Client.revisionsOf
    rw [hclient, hspecs, List.filter_filter, List.filter_eq_nil_iff]
    intro x _ hx
    simp at hx
  refine ⟨?_, hrev, by rw [hclient, hspecs], by rw [hclient, hblobs], by rw [hclient, hchildren],
    ?_⟩
  · have hhead := getSpec_ok_inv s.client name cur hget
    have hmem : cur ∈ s.client.currentOf name := List.mem_of_mem_head? hhead
    unfold storage.Client.currentOf at hmem
    exact ⟨cur, (List.mem_filter.mp hmem).1, (List.mem_filter.mp hmem).2⟩
  · apply getSpec_notFound
    intro r hr
    have hnot : r.isRevisionOf name = false := by
      by_contra hc
      have hin : r ∈ s1.client.revisionsOf name := by
        unfold storage.Client.revisionsOf
        exact List.mem_filter.mpr ⟨hr, by simpa using hc⟩
      rw [hrev] at hin
      simp at hin
    simp [models.Spec.isCurrentOf, hnot]

theorem DeleteApiSpec_removes_spec_witness :
    (twoSpecsServer.client.Specs.map (fun r => r.SpecID) = ["s1", "s2"]) ∧
    ((twoSpecsServer.DeleteApiSpec specDeps exampleDeleteRequest).2.client.Specs =
      twoSpecsServer.client.Specs.filter (fun r => !r.isRevisionOf exampleName)) ∧
    getSpec (twoSpecsServer.DeleteApiSpec specDeps exampleDeleteRequest).2.client exampleName =
      Except.error Code.NotFound :=
  match DeleteApiSpec_removes_spec specDeps twoSpecsServer
      (twoSpecsServer.DeleteApiSpec specDeps exampleDeleteRequest).2 exampleDeleteRequest
      exampleName (by rfl) (by decide) (by decide) (by rfl) with
  | ⟨_, _, hspecs, _, _, hget⟩ => ⟨by decide, hspecs, hget⟩

/-! ## The most recent revision that is not current -/

theorem fetchQuery_selects (name : names.Spec) (r : models.Spec) :
    (fetchQuery name).selects r = r.isNonCurrentOf name := by
  simp [fetchQuery, storage.Query.selects, storage.Query.Require, storage.Query.Order,
    storage.NewQuery, storage.Requirement.holds, models.Spec.isNonCurrentOf,
    models.Spec.isRevisionOf, Bool.and_assoc]

/-- The rows in descending order of creation time hold the same rows, and no row is older
than one that stands after it. -/
theorem ordered_desc (rows : List models.Spec) :
    (storage.ordered (some "-CreateTime") rows).Perm rows ∧
      (storage.ordered (some "-CreateTime") rows).Pairwise
        (fun a b => b.CreateTime ≤ a.CreateTime) := by
  unfold storage.ordered
  simp only [if_true]
  haveI : IsTotal models.Spec (fun a b => a.notOlder b = true) :=
    ⟨fun a b => by
      simp only [models.Spec.notOlder, decide_eq_true_eq]
      exact Nat.le_total b.CreateTime a.CreateTime⟩
  haveI : IsTrans models.Spec (fun a b => a.notOlder b = true) :=
    ⟨fun a b c hab hbc => by
      simp only [models.Spec.notOlder, decide_eq_true_eq] at hab hbc ⊢
      exact Nat.le_trans hbc hab⟩
  refine ⟨List.perm_insertionSort _ rows, ?_⟩
  have hs := List.sorted_insertionSort (fun (a b : models.Spec) => a.notOlder b = true) rows
  refine List.Pairwise.imp ?_ hs
  intro a b hab
  simpa [models.Spec.notOlder] using hab

/-- Two descending arrangements of the same rows are the same list when the creation times
are pairwise distinct. -/
theorem desc_unique (l1 l2 : List models.Spec) (hp : l1.Perm l2)
    (h1 : l1.Pairwise (fun a b => b.CreateTime ≤ a.CreateTime))
    (h2 : l2.Pairwise (fun a b => b.CreateTime ≤ a.CreateTime))
    (hd : (l1.map models.Spec.CreateTime).Nodup) : l1 = l2 := by
  have hd2 : (l2.map models.Spec.CreateTime).Nodup := ((hp.map _).nodup_iff).mp hd
  have hne1 : l1.Pairwise (fun a b => a.CreateTime ≠ b.CreateTime) := List.pairwise_map.mp hd
  have hne2 : l2.Pairwise (fun a b => a.CreateTime ≠ b.CreateTime) := List.pairwise_map.mp hd2
  have hs1 : l1.Pairwise (fun a b => b.CreateTime < a.CreateTime) :=
    List.Pairwise.imp₂ (fun a b hle hne => by omega) h1 hne1
  have hs2 : l2.Pairwise (fun a b => b.CreateTime < a.CreateTime) :=
    List.Pairwise.imp₂ (fun a b hle hne => by omega) h2 hne2
  haveI : IsAntisymm models.Spec (fun a b => b.CreateTime < a.CreateTime) :=
    ⟨fun a b hab hba => absurd hab (Nat.lt_asymm hba)⟩
  exact List.eq_of_perm_of_sorted hp hs1 hs2

theorem fetchAll_eq (rows : List models.Spec) :
    ∀ specs, fetchAll rows specs = specs ++ rows := by
  induction rows with
  | nil => intro specs; simp [fetchAll]
  | cons r rest ih => intro specs; simp [fetchAll, ih]

/-- The rows the iterator of `fetchMostRecentNonCurrentRevisionOfSpec` yields when scans
work: the revisions of the name that are not current, in the order of the store for
`-CreateTime`. -/
theorem run_fetchQuery_rows (client : storage.Client) (name : names.Spec)
    (hscan : client.scanFault = none) :
    (client.Run (fetchQuery name)).rows =
      storage.ordered (some "-CreateTime") (client.nonCurrentOf name) := by
  have hsel : (fetchQuery name).selects = fun r => r.isNonCurrentOf name := by
    funext r; exact fetchQuery_selects name r
  have hoff : (fetchQuery name).Offset = 0 := rfl
  have hord : (fetchQuery name).Ordering = some "-CreateTime" := rfl
  unfold storage.Client.Run storage.Client.nonCurrentOf
  rw [hsel, hoff, hord, hscan]
  simp

theorem fetch_eq (D : Deps) (s : RegistryServer) (client : storage.Client) (name : names.Spec) :
    s.fetchMostRecentNonCurrentRevisionOfSpec D client name =
      if s.weTrustTheSort then
        match (client.Run (fetchQuery name)).Next with
        | Except.error _ => Except.error (Fault.error Code.NotFound)
        | Except.ok (spec, _) => Except.ok (storage.NewKey D.SpecEntityName spec.Key, spec)
      else
        match D.sortSlice models.Spec.createdAfter
            (fetchAll (client.Run (fetchQuery name)).rows []) with
        | [] => Except.error Fault.panic
        | first :: _ => Except.ok (storage.NewKey "Spec" first.Key, first) := rfl

/-- C12: for a spec with at least one revision that is not current, whose non-current
revisions have pairwise distinct creation times, fetchMostRecentNonCurrentRevisionOfSpec
returns in both modes (scans working, `sort.Slice` sorting, the kind of specs being `Spec`)
the same revision, the non-current one with the greatest creation time, and the same key. -/
theorem fetchMostRecent_modes_agree (D : Deps) (s : RegistryServer) (client : storage.Client)
    (name : names.Spec) (hscan : client.scanFault = none) (hsort : D.sortOk)
    (hkind : D.SpecEntityName = "Spec")
    (hne : client.nonCurrentOf name ≠ [])
    (hdistinct : ((client.nonCurrentOf name).map models.Spec.CreateTime).Nodup) :
    ∃ r, r ∈ client.nonCurrentOf name ∧
      (∀ x ∈ client.nonCurrentOf name, x.CreateTime ≤ r.CreateTime) ∧
      RegistryServer.fetchMostRecentNonCurrentRevisionOfSpec D
        { s with weTrustTheSort := true } client name =
          Except.ok (storage.NewKey "Spec" r.Key, r) ∧
      RegistryServer.fetchMostRecentNonCurrentRevisionOfSpec D
        { s with weTrustTheSort := false } client name =
          Except.ok (storage.NewKey "Spec" r.Key, r) := by
  obtain ⟨hperm, hdesc⟩ := ordered_desc (client.nonCurrentOf name)
  have hrows := run_fetchQuery_rows client name hscan
  obtain ⟨hperm2, hdesc2⟩ := hsort (storage.ordered (some "-CreateTime") (client.nonCurrentOf name))
  have hdesc2' : (D.sortSlice models.Spec.createdAfter
      (storage.ordered (some "-CreateTime") (client.nonCurrentOf name))).Pairwise
      (fun a b => b.CreateTime ≤ a.CreateTime) := by
    refine List.Pairwise.imp ?_ hdesc2
    intro a b hab
    simp only [models.Spec.createdAfter, decide_eq_false_iff_not, Nat.not_lt] at hab
    exact hab
  have hd1 : ((storage.ordered (some "-CreateTime") (client.nonCurrentOf name)).map
      models.Spec.CreateTime).Nodup := ((hperm.map _).nodup_iff).mpr hdistinct
  have hsame := desc_unique _ _ hperm2.symm hdesc hdesc2' hd1
  cases hl : storage.ordered (some "-CreateTime") (client.nonCurrentOf name) with
  | nil =>
    rw [hl] at hperm
    exact absurd hperm.symm.eq_nil hne
  | cons r t =>
    rw [hl] at hperm hdesc hsame hrows
    have hmem : r ∈ client.nonCurrentOf name := hperm.subset (List.mem_cons_self r t)
    refine ⟨r, hmem, ?_, ?_, ?_⟩
    · intro x hx
      have hx2 : x ∈ r :: t := hperm.symm.subset hx
      rcases List.mem_cons.mp hx2 with heq | hxt
      · rw [heq]
      · exact List.rel_of_pairwise_cons hdesc hxt
    · rw [fetch_eq]
      simp only [if_true]
      unfold storage.Iterator.Next
      rw [hrows, hkind]
    · rw [fetch_eq]
      simp only [Bool.false_eq_true, if_false]
      rw [hrows, fetchAll_eq, List.nil_append, ← hsame]

theorem specDeps_sortOk : specDeps.sortOk := by
  intro specs
  haveI : IsTotal models.Spec (fun a b => models.Spec.createdAfter b a = false) :=
    ⟨fun a b => by
      simp only [models.Spec.createdAfter, decide_eq_false_iff_not, Nat.not_lt]
      exact Nat.le_total b.CreateTime a.CreateTime⟩
  haveI : IsTrans models.Spec (fun a b => models.Spec.createdAfter b a = false) :=
    ⟨fun a b c hab hbc => by
      simp only [models.Spec.createdAfter, decide_eq_false_iff_not, Nat.not_lt] at hab hbc ⊢
      exact Nat.le_trans hbc hab⟩
  exact ⟨List.perm_insertionSort _ specs,
    List.sorted_insertionSort (fun (a b : models.Spec) => models.Spec.createdAfter b a = false) specs⟩

theorem fetchMostRecent_modes_agree_witness :
    ∃ r, r.RevisionID = "rb" ∧
      exampleServer.fetchMostRecentNonCurrentRevisionOfSpec specDeps historyClient exampleName =
        Except.ok (storage.NewKey "Spec" r.Key, r) ∧
      RegistryServer.fetchMostRecentNonCurrentRevisionOfSpec specDeps
        { exampleServer with weTrustTheSort := false } historyClient exampleName =
        Except.ok (storage.NewKey "Spec" r.Key, r) :=
  match fetchMostRecent_modes_agree specDeps exampleServer historyClient exampleName
      (by decide) specDeps_sortOk (by rfl) (by decide) (by decide) with
  | ⟨r, hmem, hmax, htrust, hresort⟩ =>
    have hr : r.RevisionID = "rb" := by
      have hall : ∀ x ∈ historyClient.nonCurrentOf exampleName,
          (∀ y ∈ historyClient.nonCurrentOf exampleName, y.CreateTime ≤ x.CreateTime) →
          x.RevisionID = "rb" := by decide
      exact hall r hmem hmax
    ⟨r, hr, htrust, hresort⟩

/-- C16: for a spec without a revision that is not current,
fetchMostRecentNonCurrentRevisionOfSpec returns the NotFound error of the store when the sort
is trusted; when it is not, the slice of gathered revisions is empty and `specs[0]` indexes
it: the call panics instead of returning NotFound. -/
theorem fetchMostRecent_none (D : Deps) (s : RegistryServer) (client : storage.Client)
    (name : names.Spec) (hsort : D.sortOk) (hnone : client.nonCurrentOf name = []) :
    RegistryServer.fetchMostRecentNonCurrentRevisionOfSpec D
        { s with weTrustTheSort := true } client name = Except.error (Fault.error Code.NotFound) ∧
    RegistryServer.fetchMostRecentNonCurrentRevisionOfSpec D
        { s with weTrustTheSort := false } client name = Except.error Fault.panic := by
  have hsel : (fetchQuery name).selects = fun r => r.isNonCurrentOf name := by
    funext r; exact fetchQuery_selects name r
  have hrows : (client.Run (fetchQuery name)).rows = [] := by
    unfold storage.Client.Run
    rw [hsel]
    unfold storage.Client.nonCurrentOf at hnone
    rw [hnone]
    cases client.scanFault <;> simp [storage.ordered]
  have hsorted : D.sortSlice models.Spec.createdAfter [] = [] := (hsort []).1.eq_nil
  refine ⟨?_, ?_⟩
  · rw [fetch_eq]
    simp only [if_true]
    unfold storage.Iterator.Next
    rw [hrows]
  · rw [fetch_eq]
    simp only [Bool.false_eq_true, if_false]
    rw [hrows]
    simp only [fetchAll, hsorted]

theorem fetchMostRecent_none_witness :
    createdServer.fetchMostRecentNonCurrentRevisionOfSpec specDeps createdServer.client
        exampleName = Except.error (Fault.error Code.NotFound) ∧
    RegistryServer.fetchMostRecentNonCurrentRevisionOfSpec specDeps
        { createdServer with weTrustTheSort := false } createdServer.client exampleName =
      Except.error Fault.panic :=
  fetchMostRecent_none specDeps createdServer createdServer.client exampleName specDeps_sortOk
    (by decide)

/-! ## The upsert of `save` -/

/-- The upsert on a table with unique keys: afterwards exactly one row has the key of the
saved row and it is the saved row, the rows with other keys are as they were, and the table
has one row more when the key was absent and as many as before when it was present. -/
theorem upsert_spec {α : Type} (key : α → String) (v : α) (table : List α)
    (hnd : (table.map key).Nodup) :
    (storage.upsert key v table).filter (fun x => decide (key x = key v)) = [v] ∧
      (storage.upsert key v table).filter (fun x => !decide (key x = key v)) =
        table.filter (fun x => !decide (key x = key v)) ∧
      (key v ∉ table.map key → (storage.upsert key v table).length = table.length + 1) ∧
      (key v ∈ table.map key → (storage.upsert key v table).length = table.length) := by
  rcases upsert_cases key v table hnd with ⟨hnew, heq⟩ | ⟨l1, x, l2, hkx, hsplit, heq⟩
  · have hnone : table.filter (fun x => decide (key x = key v)) = [] := by
      rw [List.filter_eq_nil_iff]
      intro y hy
      simpa using hnew y hy
    refine ⟨?_, ?_, ?_, ?_⟩
    · rw [heq, List.filter_append, hnone]; simp
    · rw [heq, List.filter_append]; simp
    · intro _; rw [heq]; simp
    · intro hin
      obtain ⟨y, hy, hyk⟩ := List.mem_map.mp hin
      exact absurd hyk (hnew y hy)
  · have hnd2 := hnd
    rw [hsplit, List.map_append, List.map_cons] at hnd2
    have hparts := List.nodup_append.mp hnd2
    have h1 : ∀ y ∈ l1, key y ≠ key v := by
      intro y hy hky
      exact hparts.2.2 (List.mem_map_of_mem key hy)
        (by rw [hky, ← hkx]; exact List.mem_cons_self _ _)
    have h2 : ∀ y ∈ l2, key y ≠ key v := by
      intro y hy hky
      have h3 := (List.nodup_cons.mp hparts.2.1).1
      rw [hkx, ← hky] at h3
      exact h3 (List.mem_map_of_mem key hy)
    have hf1 : l1.filter (fun x => decide (key x = key v)) = [] := by
      rw [List.filter_eq_nil_iff]; intro y hy; simpa using h1 y hy
    have hf2 : l2.filter (fun x => decide (key x = key v)) = [] := by
      rw [List.filter_eq_nil_iff]; intro y hy; simpa using h2 y hy
    refine ⟨?_, ?_, ?_, ?_⟩
    · rw [heq, List.filter_append, hf1, List.filter_cons_of_pos (by simp), hf2]; rfl
    · rw [heq, hsplit]
      simp [List.filter_append, List.filter_cons, hkx]
    · intro hout
      exfalso
      apply hout
      rw [hsplit]
      simp [hkx]
    · intro _
      rw [heq, hsplit]
      simp

/-- C14: a successful save(v) on tables with unique keys is an upsert: afterwards exactly one
row of the table of v has the key of v and it equals v, the rows with other keys are as they
were (and so is the other table), and the table has one row more if the key was absent and
as many rows as before if it was present. -/
theorem save_upsert (c c1 : storage.Client) (v : storage.Row)
    (hspecs : (c.Specs.map models.Spec.Key).Nodup) (hblobs : (c.Blobs.map models.Blob.Key).Nodup)
    (h : c.save v = (Except.ok (), c1)) :
    (∀ r, v = storage.Row.spec r →
      c1.Specs.filter (fun x => decide (x.Key = r.Key)) = [r] ∧
      c1.Specs.filter (fun x => !decide (x.Key = r.Key)) =
        c.Specs.filter (fun x => !decide (x.Key = r.Key)) ∧
      (r.Key ∉ c.Specs.map models.Spec.Key → c1.Specs.length = c.Specs.length + 1) ∧
      (r.Key ∈ c.Specs.map models.Spec.Key → c1.Specs.length = c.Specs.length) ∧
      c1.Blobs = c.Blobs) ∧
    (∀ b, v = storage.Row.blob b →
      c1.Blobs.filter (fun x => decide (x.Key = b.Key)) = [b] ∧
      c1.Blobs.filter (fun x => !decide (x.Key = b.Key)) =
        c.Blobs.filter (fun x => !decide (x.Key = b.Key)) ∧
      (b.Key ∉ c.Blobs.map models.Blob.Key → c1.Blobs.length = c.Blobs.length + 1) ∧
      (b.Key ∈ c.Blobs.map models.Blob.Key → c1.Blobs.length = c.Blobs.length) ∧
      c1.Specs = c.Specs) := by
  have ht := takeOutcome_tables c
  unfold storage.Client.save at h
  cases hto : c.takeOutcome with
  | mk o c2 =>
    rw [hto] at h ht
    simp only at ht
    cases o with
    | some k => simp at h
    | none =>
      refine ⟨?_, ?_⟩
      · intro r hv
        subst hv
        simp only [Prod.mk.injEq, true_and] at h
        rw [← h]
        simp only [ht.1, ht.2.1]
        obtain ⟨u1, u2, u3, u4⟩ := upsert_spec models.Spec.Key r c.Specs hspecs
        exact ⟨u1, u2, u3, u4, trivial⟩
      · intro b hv
        subst hv
        simp only [Prod.mk.injEq, true_and] at h
        rw [← h]
        simp only [ht.1, ht.2.1]
        obtain ⟨u1, u2, u3, u4⟩ := upsert_spec models.Blob.Key b c.Blobs hblobs
        exact ⟨u1, u2, u3, u4, trivial⟩

theorem save_upsert_witness :
    ((createdServer.client.save (storage.Row.spec flippedRevisionX)).2.Specs = [flippedRevisionX]) ∧
    ((createdServer.client.save (storage.Row.spec { updatedRevisionY with Key := "projects/p1/apis/a1/versions/v1/specs/s1@ry" })).2.Specs.length = 2) :=
  ⟨by
      have h := (save_upsert createdServer.client
        (createdServer.client.save (storage.Row.spec flippedRevisionX)).2
        (storage.Row.spec flippedRevisionX) (by decide) (by decide) (by rfl)).1
        flippedRevisionX rfl
      have hlen := h.2.2.2.1 (by decide)
      have hone := h.1
      have hsub : ∀ l : List models.Spec, l.length = 1 →
          l.filter (fun x => decide (x.Key = flippedRevisionX.Key)) = [flippedRevisionX] →
          l = [flippedRevisionX] := by
        intro l hl hf
        match l, hl with
        | [a], _ =>
          by_cases hk : a.Key = flippedRevisionX.Key
          · simpa [hk] using hf
          · simp [hk] at hf
      exact hsub _ (by rw [hlen]; decide) hone,
    by
      have h := (save_upsert createdServer.client
        (createdServer.client.save (storage.Row.spec { updatedRevisionY with Key := "projects/p1/apis/a1/versions/v1/specs/s1@ry" })).2
        (storage.Row.spec { updatedRevisionY with Key := "projects/p1/apis/a1/versions/v1/specs/s1@ry" }) (by decide) (by decide) (by rfl)).1
        { updatedRevisionY with Key := "projects/p1/apis/a1/versions/v1/specs/s1@ry" } rfl
      rw [h.2.2.1 (by decide)]
      decide⟩

/-! ## Updating a spec: the blob -/

theorem takeOutcome_outcomes (c : storage.Client) :
    c.takeOutcome.2.writeOutcomes = c.writeOutcomes.drop 1 := by
  unfold storage.Client.takeOutcome
  cases h : c.writeOutcomes with
  | nil => simp [h]
  | cons o rest => simp

/-- Every `saveSpecRevision`, successful or not, uses up one write statement. -/
theorem saveSpecRevision_outcomes (c : storage.Client) (v : models.Spec) :
    (saveSpecRevision c v).2.writeOutcomes = c.writeOutcomes.drop 1 := by
  have ht := takeOutcome_outcomes c
  unfold saveSpecRevision storage.Client.SaveSpecRevision storage.Client.save
  cases hto : c.takeOutcome with
  | mk o c2 =>
    rw [hto] at ht
    cases o <;> exact ht

/-- A `saveSpecRevisionContents` uses up one write statement; when it succeeds the blob of
the revision is upserted. -/
theorem saveSpecRevisionContents_spec (c : storage.Client) (spec : models.Spec)
    (contents : List Nat) :
    (saveSpecRevisionContents c spec contents).2.writeOutcomes = c.writeOutcomes.drop 1 ∧
      ((saveSpecRevisionContents c spec contents).1 = Except.ok () →
        (saveSpecRevisionContents c spec contents).2.Blobs =
          storage.upsert models.Blob.Key (revisionBlob spec contents) c.Blobs) := by
  have ht := takeOutcome_outcomes c
  have htt := takeOutcome_tables c
  unfold saveSpecRevisionContents storage.Client.SaveSpecRevisionContents storage.Client.save
  cases hto : c.takeOutcome with
  | mk o c2 =>
    rw [hto] at ht htt
    cases o with
    | some k => exact ⟨ht, by intro h; simp at h⟩
    | none =>
      refine ⟨ht, ?_⟩
      intro _
      simp only at htt ⊢
      rw [htt.2.1]
      rfl

/-- For a field mask whose paths are field names (no `.`), the intersection with the path
`contents` is not empty exactly when the mask names `contents`. -/
theorem intersect_contents_iff (paths : List String) (hflat : ∀ p ∈ paths, '.' ∉ p.data) :
    (fieldmaskpb.Intersect (some paths) "contents").length > 0 ↔ "contents" ∈ paths := by
  unfold fieldmaskpb.Intersect
  simp only [gt_iff_lt, List.length_pos]
  constructor
  · intro hne
    obtain ⟨p, hp⟩ := List.exists_mem_of_ne_nil _ hne
    have hp2 := List.mem_filter.mp hp
    have hunder := hp2.2
    unfold fieldmaskpb.pathUnder at hunder
    rw [Bool.or_eq_true] at hunder
    rcases hunder with heq | hpre
    · have : p = "contents" := of_decide_eq_true heq
      rw [← this]
      exact hp2.1
    · exfalso
      have hpre2 : ("contents".data ++ ['.']) <+: p.data := List.isPrefixOf_iff_prefix.mp hpre
      obtain ⟨t, ht⟩ := hpre2
      apply hflat p hp2.1
      rw [← ht]
      simp
  · intro hin
    have : "contents" ∈ paths.filter (fun p => fieldmaskpb.pathUnder p "contents") :=
      List.mem_filter.mpr ⟨hin, by simp [fieldmaskpb.pathUnder]⟩
    exact List.ne_nil_of_mem this

/-- The steps of a successful `UpdateApiSpec` on a spec that has a current revision, with
the step for the blob. -/
theorem UpdateApiSpec_ok_steps (D : Deps) (s s1 : RegistryServer)
    (req : rpc.UpdateApiSpecRequest) (body : rpc.ApiSpec) (name : names.Spec)
    (cur : models.Spec) (m : rpc.ApiSpec)
    (hbody : req.ApiSpec = some body) (hname : D.ParseSpec body.Name = some name)
    (hget : getSpec s.client name = Except.ok cur)
    (h : s.UpdateApiSpec D req = (Except.ok m, s1)) :
    ∃ f c1 u u1 c2 c3,
      saveSpecRevision s.client { cur with Currency := models.Currency.NotCurrent } =
        (Except.ok f, c1) ∧
      D.Update f req.ApiSpec req.UpdateMask = some u ∧
      saveSpecRevision c1 u = (Except.ok u1, c2) ∧
      (if (req.UpdateMask.isNone && decide (body.Contents.length > 0) ||
          decide ((fieldmaskpb.Intersect req.UpdateMask "contents").length > 0)) = true then
          saveSpecRevisionContents c2 u1 body.Contents
        else (Except.ok (), c2)) = (Except.ok (), c3) ∧
      s1 = RegistryServer.notify { s with client := c3 } rpc.NotificationKind.UPDATED
        u1.RevisionName := by
  unfold RegistryServer.UpdateApiSpec RegistryServer.getStorageClient at h
  cases hs : s.storageUp with
  | false => simp [hs] at h
  | true =>
    simp only [hs, if_true, hbody, hname, hget] at h
    cases h1 : saveSpecRevision s.client { cur with Currency := models.Currency.NotCurrent } with
    | mk res1 c1 =>
      cases res1 with
      | error e => simp [h1] at h
      | ok f =>
        simp only [h1] at h
        cases hu : D.Update f (some body) req.UpdateMask with
        | none => simp [hu] at h
        | some u =>
          simp only [hu] at h
          cases h2 : saveSpecRevision c1 u with
          | mk res2 c2 =>
            cases res2 with
            | error e => simp [h2] at h
            | ok u1 =>
              simp only [h2] at h
              generalize hblob : (if (req.UpdateMask.isNone && decide (body.Contents.length > 0) ||
                  decide ((fieldmaskpb.Intersect req.UpdateMask "contents").length > 0)) = true then
                  saveSpecRevisionContents c2 u1 body.Contents
                else (Except.ok (), c2)) = step at h
              cases step with
              | mk res3 c3 =>
                cases res3 with
                | error e => simp at h
                | ok x =>
                  simp only at h
                  cases hm : D.BasicMessage u1 name.string with
                  | none => simp [hm] at h
                  | some msg =>
                    simp only [hm, Prod.mk.injEq] at h
                    rw [hbody]
                    exact ⟨f, c1, u, u1, c2, c3, rfl, hu, h2, hblob, h.2.symm⟩

/-- The test of `UpdateApiSpec` for touched contents: no mask and contents in the body, or a
mask with a path that is `contents` or lies under it. -/
theorem contents_touched_iff (req : rpc.UpdateApiSpecRequest) (body : rpc.ApiSpec) :
    (req.UpdateMask.isNone && decide (body.Contents.length > 0) ||
        decide ((fieldmaskpb.Intersect req.UpdateMask "contents").length > 0)) = true ↔
      ((req.UpdateMask = none ∧ body.Contents ≠ []) ∨
        ∃ paths, req.UpdateMask = some paths ∧
          ∃ p ∈ paths, fieldmaskpb.pathUnder p "contents" = true) := by
  cases hm : req.UpdateMask with
  | none =>
    simp [fieldmaskpb.Intersect, List.length_pos]
  | some paths =>
    simp only [Option.isNone_some, Bool.false_and, Bool.false_or, decide_eq_true_eq,
      fieldmaskpb.Intersect, gt_iff_lt, List.length_pos]
    constructor
    · intro hne
      obtain ⟨p, hp⟩ := List.exists_mem_of_ne_nil _ hne
      exact Or.inr ⟨paths, rfl, p, (List.mem_filter.mp hp).1, (List.mem_filter.mp hp).2⟩
    · intro ht
      rcases ht with ⟨hnone, _⟩ | ⟨ps, hps, p, hp, hunder⟩
      · simp at hnone
      · simp only [Option.some.injEq] at hps
        subst hps
        exact List.ne_nil_of_mem (List.mem_filter.mpr ⟨hp, hunder⟩)

/-- The test of `UpdateApiSpec` for touched contents, for a mask whose paths are names of
fields: no mask and contents in the body, or a mask that names the path `contents`. -/
theorem contents_named_iff (req : rpc.UpdateApiSpecRequest) (body : rpc.ApiSpec)
    (hflat : ∀ paths, req.UpdateMask = some paths → ∀ p ∈ paths, '.' ∉ p.data) :
    (req.UpdateMask.isNone && decide (body.Contents.length > 0) ||
        decide ((fieldmaskpb.Intersect req.UpdateMask "contents").length > 0)) = true ↔
      ((req.UpdateMask = none ∧ body.Contents ≠ []) ∨
        ∃ paths, req.UpdateMask = some paths ∧ "contents" ∈ paths) := by
  cases hm : req.UpdateMask with
  | none =>
    simp [fieldmaskpb.Intersect, List.length_pos]
  | some paths =>
    have hiff := intersect_contents_iff paths (hflat paths hm)
    simp only [Option.isNone_some, Bool.false_and, Bool.false_or, decide_eq_true_eq]
    rw [hiff]
    constructor
    · intro hin
      exact Or.inr ⟨paths, rfl, hin⟩
    · intro ht
      rcases ht with ⟨hnone, _⟩ | ⟨ps, hps, hin⟩
      · simp at hnone
      · simp only [Option.some.injEq] at hps
        subst hps
        exact hin

/-- C13: for a successful UpdateApiSpec call on an existing spec (the `Update` of the spec
accepting only masks whose paths are names of fields): when no update mask was given and the
body has non-empty contents, or the update mask names the path `contents`, the call saves a
blob with the contents of the body keyed to the resulting revision name (a third write
statement); otherwise it saves no blob (two write statements, the blobs are as before). -/
theorem UpdateApiSpec_blob_iff (D : Deps) (s s1 : RegistryServer)
    (req : rpc.UpdateApiSpecRequest) (body : rpc.ApiSpec) (name : names.Spec)
    (cur : models.Spec) (m : rpc.ApiSpec) (hD : D.maskOk)
    (hbody : req.ApiSpec = some body) (hname : D.ParseSpec body.Name = some name)
    (hget : getSpec s.client name = Except.ok cur)
    (h : s.UpdateApiSpec D req = (Except.ok m, s1)) :
    ∃ u1, s1.notifications = s.notifications ++ [⟨rpc.NotificationKind.UPDATED, u1.RevisionName⟩] ∧
      (revisionBlob u1 body.Contents).Key = u1.RevisionName ∧
      (((req.UpdateMask = none ∧ body.Contents ≠ []) ∨
          ∃ paths, req.UpdateMask = some paths ∧ "contents" ∈ paths) →
        s1.client.Blobs =
          storage.upsert models.Blob.Key (revisionBlob u1 body.Contents) s.client.Blobs ∧
        revisionBlob u1 body.Contents ∈ s1.client.Blobs ∧
        s1.client.writeOutcomes = s.client.writeOutcomes.drop 3) ∧
      (¬ ((req.UpdateMask = none ∧ body.Contents ≠ []) ∨
          ∃ paths, req.UpdateMask = some paths ∧ "contents" ∈ paths) →
        s1.client.Blobs = s.client.Blobs ∧
        s1.client.writeOutcomes = s.client.writeOutcomes.drop 2) := by
  obtain ⟨f, c1, u, u1, c2, c3, h1, hu, h2, hblob, hs1⟩ :=
    UpdateApiSpec_ok_steps D s s1 req body name cur m hbody hname hget h
  obtain ⟨_, _, hb1, _, _⟩ := saveSpecRevision_ok s.client c1 _ f h1
  obtain ⟨_, _, hb2, _, _⟩ := saveSpecRevision_ok c1 c2 u u1 h2
  have hw1 := saveSpecRevision_outcomes s.client { cur with Currency := models.Currency.NotCurrent }
  rw [h1] at hw1
  have hw2 := saveSpecRevision_outcomes c1 u
  rw [h2] at hw2
  simp only at hw1 hw2
  have hw12 : c2.writeOutcomes = s.client.writeOutcomes.drop 2 := by
    rw [hw2, hw1, List.drop_drop]
  have hclient : s1.client = c3 := by rw [hs1]; rfl
  have hflat : ∀ paths, req.UpdateMask = some paths → ∀ p ∈ paths, '.' ∉ p.data := by
    intro paths hm
    rw [hm] at hu
    exact hD f req.ApiSpec paths u hu
  have htouch := contents_named_iff req body hflat
  refine ⟨u1, by rw [hs1]; rfl, rfl, ?_, ?_⟩
  · intro ht
    rw [if_pos (htouch.mpr ht)] at hblob
    have hspec := saveSpecRevisionContents_spec c2 u1 body.Contents
    rw [hblob] at hspec
    simp only [forall_const] at hspec
    have hblobs : s1.client.Blobs =
        storage.upsert models.Blob.Key (revisionBlob u1 body.Contents) s.client.Blobs := by
      rw [hclient, hspec.2, hb2, hb1]
    refine ⟨hblobs, ?_, ?_⟩
    · rw [hblobs]; exact upsert_mem _ _ _
    · rw [hclient, hspec.1, hw12, List.drop_drop]
  · intro hnt
    have hcond : ¬ ((req.UpdateMask.isNone && decide (body.Contents.length > 0) ||
        decide ((fieldmaskpb.Intersect req.UpdateMask "contents").length > 0)) = true) :=
      fun hc => hnt (htouch.mp hc)
    rw [if_neg hcond] at hblob
    simp only [Prod.mk.injEq, true_and] at hblob
    rw [hclient, ← hblob]
    exact ⟨by rw [hb2, hb1], hw12⟩

theorem UpdateApiSpec_blob_iff_witness :
    (∃ u1, revisionBlob u1 [24] ∈
        (createdServer.UpdateApiSpec specDeps contentsMaskRequest).2.client.Blobs ∧
      (createdServer.UpdateApiSpec specDeps contentsMaskRequest).2.notifications.getLast? =
        some ⟨rpc.NotificationKind.UPDATED, u1.RevisionName⟩) ∧
    (createdServer.UpdateApiSpec specDeps descriptionUpdateRequest).2.client.Blobs =
      createdServer.client.Blobs :=
  ⟨match UpdateApiSpec_blob_iff specDeps createdServer
        (createdServer.UpdateApiSpec specDeps contentsMaskRequest).2 contentsMaskRequest
        { exampleBody with Contents := [24] } exampleName exampleRevisionX
        ⟨"projects/p1/apis/a1/versions/v1/specs/s1", "openapi.yaml", "first", "ry", "text/plain",
          "", []⟩
        specDeps_maskOk (by rfl) (by rfl) (by rfl) (by rfl) with
    | ⟨u1, hnote, _, htouched, _⟩ =>
      ⟨u1, (htouched (Or.inr ⟨["contents"], rfl, by decide⟩)).2.1,
        by rw [hnote]; simp⟩,
   match UpdateApiSpec_blob_iff specDeps createdServer
        (createdServer.UpdateApiSpec specDeps descriptionUpdateRequest).2 descriptionUpdateRequest
        { exampleBody with Description := "reworded", Contents := [] } exampleName
        exampleRevisionX
        ⟨"projects/p1/apis/a1/versions/v1/specs/s1", "openapi.yaml", "reworded", "rx",
          "text/plain", "", []⟩
        specDeps_maskOk (by rfl) (by rfl) (by rfl) (by rfl) with
    | ⟨_, _, _, _, hnot⟩ =>
      (hnot (by
        intro ht
        rcases ht with ⟨hnone, _⟩ | ⟨ps, hps, hin⟩
        · exact absurd hnone (by decide)
        · have hps2 : ps = ["description"] := by
            have : some ["description"] = some ps := hps
            simpa using this.symm
          subst hps2
          exact absurd hin (by decide))).1⟩

/-! ## Listing specs: what a page holds -/

/-- The query of `ListApiSpecs` selects the current revisions under the parent. -/
theorem listQuery_selects_iff (parent : names.Version) (r : models.Spec) :
    (listQuery storage.NewQuery parent).selects r =
      (r.isUnder parent && decide (r.Currency = models.Currency.IsCurrent)) := by
  unfold listQuery models.Spec.isUnder
  by_cases hp : parent.ProjectID = "-" <;> by_cases ha : parent.ApiID = "-" <;>
    by_cases hv : parent.VersionID = "-" <;>
    simp [hp, ha, hv, storage.Query.selects, storage.Query.Require, storage.NewQuery,
      storage.Requirement.holds, Bool.and_assoc]

theorem listRows_eq (client : storage.Client) (parent : names.Version) :
    listRows client parent = client.Specs.filter
      (fun r => r.isUnder parent && decide (r.Currency = models.Currency.IsCurrent)) := by
  unfold listRows
  congr 1
  funext r
  exact listQuery_selects_iff parent r

/-- A row gives a message in the scan loop exactly when the filter lets it pass and its
message can be built. -/
theorem listRow_message (D : Deps) (client : storage.Client) (prg : Option Program)
    (view : rpc.View) (r : models.Spec) :
    (match listRow D client prg view r with
      | RowStep.emit m => some m
      | _ => none) =
      if filterPasses D prg r = true then rowMessage D client view r else none := by
  unfold listRow filterPasses rowMessage
  cases prg with
  | none => simp
  | some p =>
    simp only
    cases hl : D.LabelsMap r with
    | none => simp
    | some labels =>
      simp only
      split <;> rename_i h1 <;> split at h1 <;> simp_all

/-- A program that always evaluates to a boolean, on a row whose labels can be read, does
not make the scan loop return an error. -/
theorem listRow_bool_ne_abort (D : Deps) (client : storage.Client) (view : rpc.View)
    (r : models.Spec) (e : Code) (f : FilterInputs → Bool) (labels : List (String × String))
    (hl : D.LabelsMap r = some labels) :
    listRow D client (some (fun i => Except.ok (CelValue.bool (f i)))) view r ≠
      RowStep.abort e := by
  have hmsg : listMessage D client view r ≠ RowStep.abort e :=
    listRow_none_ne_abort D client view r e
  unfold listRow
  simp only [hl]
  cases hf : f (filterInputs r labels) with
  | false => simp
  | true => simpa using hmsg

theorem emitted_eq (D : Deps) (client : storage.Client) (prg : Option Program)
    (view : rpc.View) (rows : List models.Spec) :
    emitted (listRow D client prg view) rows =
      (rows.filter (filterPasses D prg)).filterMap (rowMessage D client view) := by
  induction rows with
  | nil => rfl
  | cons r rest ih =>
    have hrow := listRow_message D client prg view r
    unfold emitted at ih ⊢
    rw [List.filterMap_cons, hrow, ih]
    by_cases hpass : filterPasses D prg r = true
    · simp only [hpass, if_true, List.filter_cons_of_pos, List.filterMap_cons]
    · simp only [hpass, if_false, Bool.false_eq_true, List.filter_cons_of_neg, not_false_eq_true]

theorem filterMap_length_of_isSome {α β : Type} (f : α → Option β) (l : List α)
    (h : ∀ a ∈ l, (f a).isSome = true) : (l.filterMap f).length = l.length := by
  induction l with
  | nil => rfl
  | cons a t ih =>
    have ha := h a (List.mem_cons_self a t)
    obtain ⟨b, hb⟩ := Option.isSome_iff_exists.mp ha
    rw [List.filterMap_cons, hb]
    simp only [List.length_cons]
    rw [ih (fun x hx => h x (List.mem_cons_of_mem a hx))]

/-- With positive page-size constants the bound page size of a request is positive. -/
theorem boundPageSize_pos (D : Deps) (size : Int) (hdef : 0 < D.defaultPageSize)
    (hmax : 0 < D.maxPageSize) : 0 < boundPageSize D size := by
  unfold boundPageSize
  split_ifs with h1 h2
  · exact hmax
  · exact hdef
  · omega

/-- One call of `ListApiSpecs` with any page size that is not negative and the page token for
offset `o`, when nothing fails: the call takes `k` rows from offset `o` on and returns their
messages; the page holds as many messages as the bound page size, or it is shorter and the
rows are exhausted. -/
theorem ListApiSpecs_page_bound (D : Deps) (s : RegistryServer) (req : rpc.ListApiSpecsRequest)
    (parent : names.Version) (prg : Option Program) (o : Nat)
    (hD : D.cursorOk) (hup : s.storageUp = true) (hscan : s.client.scanFault = none)
    (h0 : 0 ≤ req.PageSize) (hP : 0 < boundPageSize D req.PageSize)
    (hparent : D.ParseVersion req.Parent = some parent)
    (hcheck : listParentCheck s.client parent = Except.ok ())
    (hfilter : D.createFilterOperator req.Filter = Except.ok prg)
    (hno : ∀ r ∈ listRows s.client parent, ∀ e,
      listRow D s.client prg req.View r ≠ RowStep.abort e)
    (htoken : tokenAt D req.PageToken o) :
    ∃ k msgs, msgs = emitted (listRow D s.client prg req.View)
        (((listRows s.client parent).drop o).take k) ∧
      s.ListApiSpecs D req = Except.ok
        ⟨msgs, if msgs.length < boundPageSize D req.PageSize then ""
          else D.encodeCursor (o + k)⟩ ∧
      (msgs.length = boundPageSize D req.PageSize ∨
        (msgs.length < boundPageSize D req.PageSize ∧
          k = ((listRows s.client parent).drop o).length)) := by
  have hcursor := applyCursor_tokenAt D hD req.PageToken o htoken
  have hq := listQuery_selects_offset storage.NewQuery parent o
  have hrun : s.client.Run (listQuery { storage.NewQuery with Offset := o } parent) =
      ⟨(listRows s.client parent).drop o, IterErr.Done, o, 0⟩ := by
    have hord : (listQuery { storage.NewQuery with Offset := o } parent).Ordering = none :=
      listQuery_ordering _ parent
    unfold storage.Client.Run listRows storage.ordered
    rw [hscan, hq.1, hq.2, hord]
    simp
  have hnodrop : ∀ r ∈ (listRows s.client parent).drop o, ∀ e,
      listRow D s.client prg req.View r ≠ RowStep.abort e :=
    fun r hr => hno r (List.mem_of_mem_drop hr)
  obtain ⟨out, k, hloop, _, hy, hmsgs, hend⟩ :=
    listLoop_spec (listRow D s.client prg req.View) (boundPageSize D req.PageSize) IterErr.Done
      ((listRows s.client parent).drop o) [] 0 hnodrop (by simpa using hP)
  simp only [List.nil_append] at hmsgs
  simp only [Nat.zero_add] at hy
  refine ⟨k, out.specMessages, hmsgs, ?_, hend⟩
  have hs : ¬ req.PageSize < 0 := by omega
  unfold RegistryServer.ListApiSpecs RegistryServer.getStorageClient
  simp only [hup, if_true, hs, if_false, hcursor, hparent, hcheck, hfilter, hrun, hloop]
  simp [storage.Iterator.GetCursor, hy]

/-- C15, as amended: for every store, parent, compilable filter and request whose page size is
not negative (page token for offset `o`, positive page-size constants), when the scan works
and no row makes the scan loop return an error, the specs ListApiSpecs returns are the
messages, in scan order from the offset on, of the current revisions under the parent for
which the filter evaluates to true and whose message can be built, truncated to the bound
page size of the request (the default for page size 0, the maximum for a larger one); rows
whose message cannot be built are skipped. Without a filter program, and when the message of
every row can be built, nothing but the truncation drops a spec. -/
theorem ListApiSpecs_returns (D : Deps) (s : RegistryServer) (req : rpc.ListApiSpecsRequest)
    (parent : names.Version) (prg : Option Program) (o : Nat)
    (hD : D.cursorOk) (hup : s.storageUp = true) (hscan : s.client.scanFault = none)
    (h0 : 0 ≤ req.PageSize) (hdef : 0 < D.defaultPageSize) (hmax : 0 < D.maxPageSize)
    (hparent : D.ParseVersion req.Parent = some parent)
    (hcheck : listParentCheck s.client parent = Except.ok ())
    (hfilter : D.createFilterOperator req.Filter = Except.ok prg)
    (hno : ∀ r ∈ listRows s.client parent, ∀ e,
      listRow D s.client prg req.View r ≠ RowStep.abort e)
    (htoken : tokenAt D req.PageToken o) :
    ∃ resp, s.ListApiSpecs D req = Except.ok resp ∧
      resp.ApiSpecs =
        ((((s.client.Specs.filter (fun r =>
            r.isUnder parent && decide (r.Currency = models.Currency.IsCurrent))).drop o).filter
          (filterPasses D prg)).filterMap (rowMessage D s.client req.View)).take
            (boundPageSize D req.PageSize) ∧
      (prg = none →
        (∀ r ∈ listRows s.client parent, (rowMessage D s.client req.View r).isSome = true) →
        resp.ApiSpecs.length =
          min (boundPageSize D req.PageSize) ((listRows s.client parent).drop o).length) := by
  have hP := boundPageSize_pos D req.PageSize hdef hmax
  obtain ⟨k, msgs, hmsgs, hcall, hend⟩ :=
    ListApiSpecs_page_bound D s req parent prg o hD hup hscan h0 hP hparent hcheck hfilter hno
      htoken
  have hsplit := emitted_take_drop (listRow D s.client prg req.View)
    ((listRows s.client parent).drop o) k
  have htake : msgs = (emitted (listRow D s.client prg req.View)
      ((listRows s.client parent).drop o)).take (boundPageSize D req.PageSize) := by
    rcases hend with hfull | ⟨hshort, hk⟩
    · rw [hsplit, ← hmsgs, ← hfull, List.take_left]
    · rw [hmsgs, hk, List.take_length]
      rw [hmsgs, hk, List.take_length] at hshort
      exact (List.take_of_length_le (Nat.le_of_lt hshort)).symm
  have hspecs : msgs =
      ((((s.client.Specs.filter (fun r =>
          r.isUnder parent && decide (r.Currency = models.Currency.IsCurrent))).drop o).filter
        (filterPasses D prg)).filterMap (rowMessage D s.client req.View)).take
          (boundPageSize D req.PageSize) := by
    rw [htake, emitted_eq, listRows_eq]
  refine ⟨_, hcall, hspecs, ?_⟩
  intro hprg hall
  show msgs.length = _
  rw [htake, emitted_eq, List.length_take]
  have hpass : ((listRows s.client parent).drop o).filter (filterPasses D prg) =
      (listRows s.client parent).drop o := by
    rw [List.filter_eq_self]
    intro r _
    rw [hprg]
    rfl
  rw [hpass, filterMap_length_of_isSome _ _
    (fun r hr => hall r (List.mem_of_mem_drop hr))]

theorem ListApiSpecs_returns_witness :
    (∃ resp, twoSpecsServer.ListApiSpecs specDeps
        { exampleListRequest with PageSize := 0, Filter := "description == \"second\"" } =
          Except.ok resp ∧
      resp.ApiSpecs.map (fun m => m.Name) = ["projects/p1/apis/a1/versions/v1/specs/s2"]) ∧
    (∃ resp, twoSpecsServer.ListApiSpecs specDeps { exampleListRequest with PageSize := 0 } =
          Except.ok resp ∧
      resp.ApiSpecs.map (fun m => m.Name) =
        ["projects/p1/apis/a1/versions/v1/specs/s1", "projects/p1/apis/a1/versions/v1/specs/s2"]) ∧
    (∃ resp, twoSpecsServer.ListApiSpecs specDeps { exampleListRequest with PageSize := 1 } =
          Except.ok resp ∧
      resp.ApiSpecs.map (fun m => m.Name) = ["projects/p1/apis/a1/versions/v1/specs/s1"]) :=
  ⟨match ListApiSpecs_returns specDeps twoSpecsServer
      { exampleListRequest with PageSize := 0, Filter := "description == \"second\"" }
      ⟨"p1", "a1", "v1"⟩
      (some (fun inputs => Except.ok (CelValue.bool (decide (inputs.description = "second")))))
      0 specDeps_cursorOk (by decide) (by decide) (by decide) (by decide) (by decide) (by rfl)
      (by rfl) (by rfl)
      (fun r _ e => listRow_bool_ne_abort specDeps twoSpecsServer.client rpc.View.BASIC r e
        (fun inputs => decide (inputs.description = "second")) [] rfl)
      (Or.inl ⟨rfl, rfl⟩) with
    | ⟨resp, hcall, hspecs, _⟩ => ⟨resp, hcall, by rw [hspecs]; decide⟩,
   match ListApiSpecs_returns specDeps twoSpecsServer { exampleListRequest with PageSize := 0 }
      ⟨"p1", "a1", "v1"⟩ none 0 specDeps_cursorOk (by decide) (by decide) (by decide) (by decide)
      (by decide) (by rfl) (by rfl) (by rfl)
      (fun r _ e => listRow_none_ne_abort specDeps twoSpecsServer.client rpc.View.BASIC r e)
      (Or.inl ⟨rfl, rfl⟩) with
    | ⟨resp, hcall, hspecs, _⟩ => ⟨resp, hcall, by rw [hspecs]; decide⟩,
   match ListApiSpecs_returns specDeps twoSpecsServer { exampleListRequest with PageSize := 1 }
      ⟨"p1", "a1", "v1"⟩ none 0 specDeps_cursorOk (by decide) (by decide) (by decide) (by decide)
      (by decide) (by rfl) (by rfl) (by rfl)
      (fun r _ e => listRow_none_ne_abort specDeps twoSpecsServer.client rpc.View.BASIC r e)
      (Or.inl ⟨rfl, rfl⟩) with
    | ⟨resp, hcall, hspecs, _⟩ => ⟨resp, hcall, by rw [hspecs]; decide⟩⟩

/-- C15, counterexample: the revision of spec `s1` is stored, current, under version `v1`,
but its blob is not (the save of the blob failed when the spec was created). ListApiSpecs
in the full view with the empty filter skips the row: it returns no spec. -/
theorem ListApiSpecs_returns_counterexample :
    (listRows blobLessServer.client ⟨"p1", "a1", "v1"⟩).map
      (fun r => (r.SpecID, r.Currency)) = [("s1", models.Currency.IsCurrent)] ∧
    fullListRequest.Filter = "" ∧
    blobLessServer.ListApiSpecs specDeps fullListRequest = Except.ok ⟨[], ""⟩ :=
  ⟨by decide, by rfl, by rfl⟩

/-! ## Deleting a spec: a call after a failed one -/

/-- What `getSpec` returns depends on the rows of kind Spec and on the scans only. -/
theorem getSpec_congr (c c1 : storage.Client) (name : names.Spec)
    (h1 : c1.Specs = c.Specs) (h2 : c1.scanFault = c.scanFault) :
    getSpec c1 name = getSpec c name := by
  unfold getSpec storage.Client.Run
  rw [h1, h2]

/-- A failed `DeleteChildrenOfSpec` leaves the rows of kind Spec as they were; the blobs and
the child rows that remain are rows of before. -/
theorem deleteChildrenOfSpec_error_inv (c c1 : storage.Client) (name : names.Spec) (e : Code)
    (h : c.DeleteChildrenOfSpec name = (Except.error e, c1)) :
    c1.Specs = c.Specs ∧ c1.scanFault = c.scanFault ∧ e = Code.Internal ∧
      (c1.Blobs = c.Blobs ∨ c1.Blobs = c.Blobs.filter (fun b => !b.isBlobOf name)) ∧
      c1.Children = c.Children := by
  have ht := takeOutcome_tables c
  unfold storage.Client.DeleteChildrenOfSpec at h
  cases hto : c.takeOutcome with
  | mk o c2 =>
    rw [hto] at h ht
    simp only at h ht
    cases o with
    | some k =>
      simp only [storage.deleteMatching, Prod.mk.injEq, Except.error.injEq] at h
      rw [← h.2]
      exact ⟨ht.1, ht.2.2.2.2, h.1.symm, Or.inl ht.2.1, ht.2.2.1⟩
    | none =>
      simp only [storage.deleteMatching] at h
      have ht2 := takeOutcome_tables
        { c2 with Blobs := c2.Blobs.filter (fun r => !decide (r.ProjectID = name.ProjectID ∧
          r.ApiID = name.ApiID ∧ r.VersionID = name.VersionID ∧ r.SpecID = name.SpecID)) }
      cases hto2 : storage.Client.takeOutcome
        { c2 with Blobs := c2.Blobs.filter (fun r => !decide (r.ProjectID = name.ProjectID ∧
          r.ApiID = name.ApiID ∧ r.VersionID = name.VersionID ∧ r.SpecID = name.SpecID)) } with
      | mk o2 c3 =>
        rw [hto2] at h ht2
        simp only at h ht2
        cases o2 with
        | none => simp at h
        | some k =>
          simp only [Prod.mk.injEq, Except.error.injEq] at h
          rw [← h.2]
          simp only
          refine ⟨?_, ?_, h.1.symm, Or.inr ?_, ?_⟩
          · rw [ht2.1, ht.1]
          · rw [ht2.2.2.2.2, ht.2.2.2.2]
          · rw [ht2.2.1, ht.2.1]; rfl
          · rw [ht2.2.2.1, ht.2.2.1]

/-- A failed `Delete` leaves every table as it was. -/
theorem delete_error_inv (c c1 : storage.Client) (key : String) (e : Code)
    (h : c.Delete key = (Except.error e, c1)) :
    c1.Specs = c.Specs ∧ c1.Blobs = c.Blobs ∧ c1.Children = c.Children ∧
      c1.scanFault = c.scanFault := by
  have ht := takeOutcome_tables c
  unfold storage.Client.Delete at h
  cases hto : c.takeOutcome with
  | mk o c2 =>
    rw [hto] at h ht
    simp only at h ht
    cases o with
    | none => simp at h
    | some k =>
      simp only [Prod.mk.injEq] at h
      rw [← h.2]
      exact ⟨ht.1, ht.2.1, ht.2.2.1, ht.2.2.2.2⟩

/-- A failed `DeleteAllMatches` leaves every table as it was. -/
theorem deleteAllMatches_error_inv (c c1 : storage.Client) (q : storage.Query) (e : Code)
    (h : c.DeleteAllMatches q = (Except.error e, c1)) :
    c1.Specs = c.Specs ∧ c1.Blobs = c.Blobs ∧ c1.Children = c.Children ∧
      c1.scanFault = c.scanFault := by
  have ht := takeOutcome_tables c
  unfold storage.Client.DeleteAllMatches at h
  cases hto : c.takeOutcome with
  | mk o c2 =>
    rw [hto] at h ht
    simp only at h ht
    cases o with
    | none => simp [storage.deleteMatching] at h
    | some k =>
      simp only [storage.deleteMatching, Prod.mk.injEq] at h
      rw [← h.2]
      simp only
      exact ⟨ht.1, ht.2.1, ht.2.2.1, ht.2.2.2.2⟩

/-- The tables after a failed `deleteSpec`: the error is Internal; no revision row has been
removed but, possibly, the row keyed by the logical name; the blobs and the child rows of the
spec are there as before or removed. -/
theorem deleteSpec_error_inv (c c1 : storage.Client) (name : names.Spec) (e : Code)
    (h : deleteSpec c name = (Except.error e, c1)) :
    e = Code.Internal ∧ c1.scanFault = c.scanFault ∧
      (c1.Specs = c.Specs ∨
        c1.Specs = c.Specs.filter (fun r => !decide (r.Key = name.string))) ∧
      (c1.Blobs = c.Blobs ∨ c1.Blobs = c.Blobs.filter (fun b => !b.isBlobOf name)) ∧
      (c1.Children = c.Children ∨
        c1.Children = c.Children.filter (fun a => !a.isChildOf name)) := by
  have hq : ((((storage.NewQuery.Require (storage.Requirement.ProjectID name.ProjectID)).Require
      (storage.Requirement.ApiID name.ApiID)).Require
      (storage.Requirement.VersionID name.VersionID)).Require
      (storage.Requirement.SpecID name.SpecID)) = deleteSpecQuery name := rfl
  unfold deleteSpec at h
  simp only [hq] at h
  cases h1 : c.DeleteChildrenOfSpec name with
  | mk r1 ca =>
    rw [h1] at h
    cases r1 with
    | error e1 =>
      simp only [internalError, Prod.mk.injEq, Except.error.injEq] at h
      obtain ⟨a1, a2, _, a4, a5⟩ := deleteChildrenOfSpec_error_inv c ca name e1 h1
      rw [← h.2]
      exact ⟨h.1.symm, a2, Or.inl a1, a4, Or.inl a5⟩
    | ok u1 =>
      simp only at h
      obtain ⟨a1, a2, a3, _, a5⟩ := deleteChildrenOfSpec_ok_inv c ca name h1
      cases h2 : ca.Delete name.string with
      | mk r2 cb =>
        rw [h2] at h
        cases r2 with
        | error e2 =>
          simp only [internalError, Prod.mk.injEq, Except.error.injEq] at h
          obtain ⟨b1, b2, b3, b4⟩ := delete_error_inv ca cb name.string e2 h2
          rw [← h.2]
          exact ⟨h.1.symm, by rw [b4, a5], Or.inl (by rw [b1, a1]), Or.inr (by rw [b2, a2]),
            Or.inr (by rw [b3, a3])⟩
        | ok u2 =>
          simp only at h
          obtain ⟨b1, b2, b3, _, b5⟩ := delete_ok_inv ca cb name.string h2
          cases h3 : cb.DeleteAllMatches (deleteSpecQuery name) with
          | mk r3 cc =>
            rw [h3] at h
            cases r3 with
            | ok u3 => simp at h
            | error e3 =>
              simp only [internalError, Prod.mk.injEq, Except.error.injEq] at h
              obtain ⟨d1, d2, d3, d4⟩ := deleteAllMatches_error_inv cb cc _ e3 h3
              rw [← h.2]
              exact ⟨h.1.symm, by rw [d4, b5, a5], Or.inr (by rw [d1, b1, a1]),
                Or.inr (by rw [d2, b2, a2]), Or.inr (by rw [d3, b3, a3])⟩

/-- On a store whose spec rows are keyed by their revision names, no row is keyed by a name
without the mark `@`. -/
theorem filter_key_self (specs : List models.Spec) (name : names.Spec)
    (hkeys : ∀ r ∈ specs, r.Key = r.RevisionName) (hat : '@' ∉ name.string.data) :
    specs.filter (fun r => !decide (r.Key = name.string)) = specs := by
  rw [List.filter_eq_self]
  intro r hr
  have hne : r.Key ≠ name.string := by
    intro heq
    apply hat
    rw [← heq, hkeys r hr]
    exact revisionName_has_at r
  simp [hne]

/-- C10: a DeleteApiSpec of a spec fails part-way through its cascade (it returns Internal),
on a store whose spec rows are keyed by their revision names and for a name without the mark
`@`. Every statement of the cascade being its own transaction, the failed call has removed no
revision row of the spec (blobs and child rows may be gone). With storage working again,
DeleteApiSpec with the same name succeeds and removes all remaining rows of the spec: its
revision rows, blobs and child rows; the rows of other specs are as before the first call. -/
theorem DeleteApiSpec_retry_succeeds (D : Deps) (s s1 : RegistryServer)
    (req : rpc.DeleteApiSpecRequest) (name : names.Spec)
    (hname : D.ParseSpec req.Name = some name)
    (hkeys : ∀ r ∈ s.client.Specs, r.Key = r.RevisionName)
    (hat : '@' ∉ name.string.data)
    (hfail : s.DeleteApiSpec D req = (Except.error Code.Internal, s1))
    (hworks : s1.client.healthy) :
    s1.client.Specs = s.client.Specs ∧
    (∃ cur ∈ s1.client.Specs, cur.isCurrentOf name = true) ∧
    ∃ s2, s1.DeleteApiSpec D req = (Except.ok (), s2) ∧
      s2.client.revisionsOf name = [] ∧
      s2.client.Blobs.filter (fun b => b.isBlobOf name) = [] ∧
      s2.client.Children.filter (fun a => a.isChildOf name) = [] ∧
      s2.client.Specs = s.client.Specs.filter (fun r => !r.isRevisionOf name) ∧
      s2.notifications = s.notifications ++ [⟨rpc.NotificationKind.DELETED, name.string⟩] := by
  unfold RegistryServer.DeleteApiSpec RegistryServer.getStorageClient at hfail
  cases hs : s.storageUp with
  | false => simp [hs, unavailableError] at hfail
  | true =>
    simp only [hs, if_true, hname] at hfail
    cases hg : getSpec s.client name with
    | error e =>
      have hcode := getSpec_error_code s.client name e hg
      simp [hg, hcode] at hfail
    | ok cur =>
      simp only [hg] at hfail
      cases hd : deleteSpec s.client name with
      | mk res c1 =>
        cases res with
        | ok u => simp [hd] at hfail
        | error e =>
          simp only [hd, Prod.mk.injEq] at hfail
          obtain ⟨_, hscan, hspecs0, _, _⟩ := deleteSpec_error_inv s.client c1 name e hd
          have hclient : s1.client = c1 := by rw [← hfail.2]
          have hup1 : s1.storageUp = true := by rw [← hfail.2, ← hs]
          have hnote1 : s1.notifications = s.notifications := by rw [← hfail.2]
          have hkeep := filter_key_self s.client.Specs name hkeys hat
          have hspecs : s1.client.Specs = s.client.Specs := by
            rw [hclient]
            rcases hspecs0 with h0 | h0
            · exact h0
            · rw [h0, hkeep]
          have hget1 : getSpec s1.client name = Except.ok cur := by
            rw [getSpec_congr s.client s1.client name hspecs (by rw [hclient, hscan])]
            exact hg
          have hhead := getSpec_ok_inv s1.client name cur hget1
          have hmem : cur ∈ s1.client.currentOf name := List.mem_of_mem_head? hhead
          unfold storage.Client.currentOf at hmem
          obtain ⟨s2, hcall, hs2, hrev, hblobs, hchildren⟩ :=
            DeleteApiSpec_healthy D s1 req name cur hup1 hname hworks hget1
          refine ⟨hspecs, ⟨cur, (List.mem_filter.mp hmem).1, (List.mem_filter.mp hmem).2⟩,
            s2, hcall, hrev, hblobs, hchildren, ?_, ?_⟩
          · rw [hs2, hspecs, hkeep]
          · have hdel := deleteSpec_healthy s1.client name hworks.1
            unfold RegistryServer.DeleteApiSpec RegistryServer.getStorageClient at hcall
            simp only [hup1, if_true, hname, hget1, hdel, Prod.mk.injEq, true_and] at hcall
            rw [← hcall, ← hnote1]
            rfl

theorem DeleteApiSpec_retry_succeeds_witness :
    (cascadeFailureServer.client.revisionsOf exampleName).length = 2 ∧
    cascadeFailureServer.client.Blobs.length = 2 ∧
    (cascadeFailureServer.DeleteApiSpec specDeps exampleDeleteRequest).1 =
      Except.error Code.Internal ∧
    (cascadeFailureServer.DeleteApiSpec specDeps exampleDeleteRequest).2.client.Blobs = [] ∧
    ∃ s2, (cascadeFailureServer.DeleteApiSpec specDeps exampleDeleteRequest).2.DeleteApiSpec
        specDeps exampleDeleteRequest = (Except.ok (), s2) ∧
      s2.client.revisionsOf exampleName = [] :=
  match DeleteApiSpec_retry_succeeds specDeps cascadeFailureServer
      (cascadeFailureServer.DeleteApiSpec specDeps exampleDeleteRequest).2 exampleDeleteRequest
      exampleName (by rfl) (by decide) (by decide) (by rfl) ⟨by decide, by decide⟩ with
  | ⟨_, _, s2, hcall, hrev, _⟩ => ⟨by decide, by decide, by rfl, by decide, s2, hcall, hrev⟩

end Registry
